import Mathlib

/-!
# robdns: DNS message decoding (`src/proto-dns-parse.c`)

A shallow embedding of the name decoder (`dns_name_skip_validate`,
`dns_name_skip`, `dns_extract_name`) and of the message parser
(`proto_dns_parse`), followed by theorems about them.

Conventions of the embedding

* `unsigned` values are natural numbers; an addition or subtraction that can
  leave the 32-bit range for arguments in that range is wrapped by `u32` /
  `u32sub`.  The explicit casts of the source, `(unsigned short)` and
  `(unsigned char)`, are `% 65536` and `% 256`.
* The packet `px` is a map from indices to cells; a cell is read as an
  `unsigned char` by `rd`.
* The `for (;;)` loops run on a fuel counter and return `none` when the fuel
  is used up; termination is proved as "enough fuel gives a result".
* Every function threads a `Trace`, the chronological list of the memory
  accesses it performs: each `px[i]` of the source adds `Access.read i`, each
  store into `rr_offset[i]` adds `Access.rr_write i`, each byte stored at
  `name->name[i]` adds `Access.name_write i`.
-/

namespace RobDNS

/-! ## Machine arithmetic and memory -/

/-- A memory access of the parser. -/
inductive Access where
  | read (i : Nat)
  | rr_write (i : Nat)
  | name_write (i : Nat)
deriving DecidableEq

/-- Chronological list of memory accesses. -/
abbrev Trace := List Access

/-- The packet: `const unsigned char px[]`, as a map from index to cell. -/
abbrev Buffer := Nat → Nat

/-- Wrap-around of 32-bit `unsigned` arithmetic. -/
def u32 (x : Nat) : Nat := x % 4294967296

/-- Subtraction `a - b` of two 32-bit `unsigned` values. -/
def u32sub (a b : Nat) : Nat := (a + 4294967296 - b % 4294967296) % 4294967296

/-- Reading `px[i]`, an `unsigned char`. -/
def rd (px : Buffer) (i : Nat) : Nat := px i % 256

/-- The bytes `px[offset], ..., px[offset+n-1]`. -/
def bytes_at (px : Buffer) (offset n : Nat) : List Nat :=
  (List.range n).map (fun k => rd px (offset + k))

/-- The `n` read accesses at `offset, ..., offset+n-1`. -/
def reads_at (offset n : Nat) : Trace :=
  (List.range n).map (fun k => Access.read (offset + k))

/-- The `n` write accesses into the name buffer at `pos, ..., pos+n-1`. -/
def name_writes_at (pos n : Nat) : Trace :=
  (List.range n).map (fun k => Access.name_write (pos + k))

/-- The effect of `memcpy(dst + pos, src, src.length)` on the destination
array. -/
def memcpy (dst : List Nat) (pos : Nat) (src : List Nat) : List Nat :=
  dst.take pos ++ src ++ dst.drop (pos + src.length)

/-! ## Name decoder -/

/-- The `for (;;)` loop of `dns_name_skip_validate` (lines 25-54); `ERROR`
and `result` are the two locals fixed before the loop. -/
def dns_name_skip_validate_loop (px : Buffer) (length ERROR result : Nat) :
    Nat → Nat → Nat → Nat → Trace → Option (Nat × Trace)
  | 0, _, _, _, _ => none
  | fuel + 1, offset, name_length, recursion, tr =>
    if name_length ≥ 255 then some (ERROR, tr)
    else if offset ≥ length then some (ERROR, tr)
    else
      let len := rd px offset
      let tr1 := tr ++ [Access.read offset]
      if len &&& 0xC0 ≠ 0 then
        if len &&& 0xC0 ≠ 0xC0 then some (ERROR, tr1)
        else if offset + 1 ≥ length then some (ERROR, tr1)
        else
          let tr2 := tr1 ++ [Access.read offset, Access.read (offset + 1)]
          if recursion + 1 > 4 then some (ERROR, tr2)
          else
            dns_name_skip_validate_loop px length ERROR result fuel
              (((rd px offset &&& 0x3F) <<< 8) ||| rd px (offset + 1))
              name_length (recursion + 1) tr2
      else
        if len = 0 then some (result, tr1)
        else
          dns_name_skip_validate_loop px length ERROR result fuel
            (u32 (offset + (len + 1))) (name_length + (len + 1)) 0 tr1

/-- The function `dns_name_skip_validate` (lines 18-55). -/
def dns_name_skip_validate (fuel : Nat) (px : Buffer) (offset length name_length : Nat)
    (tr : Trace) : Option (Nat × Trace) :=
  dns_name_skip_validate_loop px length (u32 (length + 1)) (u32 (offset + 2))
    fuel offset name_length 0 tr

/-- The `for (;;)` loop of `dns_name_skip` (lines 67-96).  The `switch` on
`px[offset]>>6` is the chain of tests in the order of its `case` labels; a
value outside `0..3` matches no label and the loop starts over. -/
def dns_name_skip_loop (px : Buffer) (max : Nat) :
    Nat → Nat → Nat → Trace → Option (Nat × Trace)
  | 0, _, _, _ => none
  | fuel + 1, offset, name_length, tr =>
    if name_length ≥ 255 then some (u32 (max + 1), tr)
    else if offset ≥ max then some (u32 (max + 1), tr)
    else
      let tr1 := tr ++ [Access.read offset]
      if rd px offset >>> 6 = 0 then
        let tr2 := tr1 ++ [Access.read offset]
        if rd px offset = 0 then some (offset + 1, tr2)
        else
          dns_name_skip_loop px max fuel
            (u32 (offset + (rd px offset + 1))) (name_length + (rd px offset + 1))
            (tr2 ++ [Access.read offset, Access.read offset])
      else if rd px offset >>> 6 = 3 then
        dns_name_skip_validate fuel px offset max name_length tr1
      else if rd px offset >>> 6 = 2 then some (u32 (max + 1), tr1)
      else if rd px offset >>> 6 = 1 then some (u32 (max + 1), tr1)
      else dns_name_skip_loop px max fuel offset name_length tr1

/-- The function `dns_name_skip` (lines 59-97). -/
def dns_name_skip (fuel : Nat) (px : Buffer) (offset max : Nat) (tr : Trace) :
    Option (Nat × Trace) :=
  dns_name_skip_loop px max fuel offset 0 tr

/-- The decoded name, `struct DomainPointer`: the array `name` points to and
the 8-bit `length`. -/
structure DomainPointer where
  name : List Nat
  length : Nat
deriving DecidableEq

/-- Which `return` of `dns_extract_name` was taken (the function itself
returns `void`). -/
inductive Exit where
  | end_of_name
  | offset_out_of_bounds
  | reserved_label
  | pointer_out_of_bounds
deriving DecidableEq

/-- The `for (;;)` loop of `dns_extract_name` (lines 106-130). -/
def dns_extract_name_loop (px : Buffer) (max : Nat) :
    Nat → Nat → DomainPointer → Trace → Option (DomainPointer × Exit × Trace)
  | 0, _, _, _ => none
  | fuel + 1, offset, name, tr =>
    if offset ≥ max then some (name, Exit.offset_out_of_bounds, tr)
    else
      let len := rd px offset
      let tr1 := tr ++ [Access.read offset]
      if len &&& 0xC0 ≠ 0 then
        if len &&& 0xC0 ≠ 0xC0 then some (name, Exit.reserved_label, tr1)
        else if offset + 1 ≥ max then some (name, Exit.pointer_out_of_bounds, tr1)
        else
          dns_extract_name_loop px max fuel
            (((rd px offset &&& 0x3F) <<< 8) ||| rd px (offset + 1)) name
            (tr1 ++ [Access.read offset, Access.read (offset + 1)])
      else
        if len = 0 then some (name, Exit.end_of_name, tr1)
        else
          dns_extract_name_loop px max fuel (u32 (offset + (len + 1)))
            { name := memcpy name.name name.length (bytes_at px offset (len + 1)),
              length := (name.length + len + 1) % 256 }
            (tr1 ++ reads_at offset (len + 1) ++ name_writes_at name.length (len + 1))

/-- The function `dns_extract_name` (lines 101-131). -/
def dns_extract_name (fuel : Nat) (px : Buffer) (offset max : Nat) (name : DomainPointer)
    (tr : Trace) : Option (DomainPointer × Exit × Trace) :=
  dns_extract_name_loop px max fuel offset { name with length := 0 } tr

/-! ## Message parser -/

/-- The EDNS0 state, `dns->edns0`. -/
structure EDNS0 where
  payload_size : Nat
  version : Nat
deriving DecidableEq

/-- The parsed request, `struct DNS_Incoming`.  The declaration is in a header
that is not part of the sources at hand: the fields are the ones
`proto_dns_parse` and `proto_dns_process` use, each taken wide enough for the
values stored in it.  `rr_offset` is the record-offset table, its length is
the capacity `sizeof(dns->rr_offset)/sizeof(dns->rr_offset[0])`;
`query_name_buffer` is the array `query_name.name` is pointed at, and
`query_name.name` holds the contents of the array it points to. -/
structure DNS_Incoming where
  is_valid : Bool
  is_formerr : Bool
  is_edns0 : Bool
  req : Buffer
  req_length : Nat
  id : Nat
  qr : Nat
  aa : Nat
  tc : Nat
  rd : Nat
  ra : Nat
  z : Nat
  opcode : Nat
  rcode : Nat
  qdcount : Nat
  ancount : Nat
  nscount : Nat
  arcount : Nat
  rr_count : Nat
  rr_offset : List Nat
  query_type : Nat
  query_class : Nat
  query_name : DomainPointer
  query_name_buffer : List Nat
  edns0 : EDNS0

/-- The capacity of the record-offset table. -/
def MAX_RRs (dns : DNS_Incoming) : Nat := dns.rr_offset.length

/-- How a section loop of `proto_dns_parse` ends: by a `return` of the whole
function, or by leaving the loop with the current `offset`. -/
inductive Flow where
  | returned (dns : DNS_Incoming) (tr : Trace)
  | continues (dns : DNS_Incoming) (offset : Nat) (tr : Trace)

/-- The stores of lines 167-183: the header fields. -/
def parse_header (dns : DNS_Incoming) (px : Buffer) (offset : Nat) : DNS_Incoming :=
  { dns with
    id := (rd px (u32 (offset + 0)) <<< 8) ||| rd px (u32 (offset + 1))
    qr := (rd px (u32 (offset + 2)) >>> 7) &&& 1
    aa := (rd px (u32 (offset + 2)) >>> 2) &&& 1
    tc := (rd px (u32 (offset + 2)) >>> 1) &&& 1
    rd := (rd px (u32 (offset + 2)) >>> 0) &&& 1
    ra := (rd px (u32 (offset + 3)) >>> 7) &&& 1
    z := (rd px (u32 (offset + 3)) >>> 4) &&& 7
    opcode := (rd px (u32 (offset + 2)) >>> 3) &&& 0xf
    rcode := (rd px (u32 (offset + 3)) >>> 0) &&& 0xf
    qdcount := (rd px (u32 (offset + 4)) <<< 8) ||| rd px (u32 (offset + 5))
    ancount := (rd px (u32 (offset + 6)) <<< 8) ||| rd px (u32 (offset + 7))
    nscount := (rd px (u32 (offset + 8)) <<< 8) ||| rd px (u32 (offset + 9))
    arcount := (rd px (u32 (offset + 10)) <<< 8) ||| rd px (u32 (offset + 11))
    rr_count := 0
    is_valid := true
    is_formerr := true }

/-- The reads of lines 167-179, in program order. -/
def header_reads (offset : Nat) : Trace :=
  [0, 1, 2, 2, 2, 2, 3, 3, 2, 3, 4, 5, 6, 7, 8, 9, 10, 11].map
    (fun k => Access.read (u32 (offset + k)))

/-- The question loop (lines 200-216), with `n` iterations left. -/
def question_loop (fuel : Nat) (px : Buffer) (max : Nat) :
    Nat → DNS_Incoming → Nat → Trace → Option Flow
  | 0, dns, offset, tr => some (Flow.continues dns offset tr)
  | n + 1, dns, offset, tr =>
    if dns.rr_count ≥ MAX_RRs dns then some (Flow.returned dns tr)
    else
      let dns1 := { dns with
        rr_offset := dns.rr_offset.set dns.rr_count (offset % 65536)
        rr_count := dns.rr_count + 1 }
      match dns_name_skip fuel px offset max (tr ++ [Access.rr_write dns.rr_count]) with
      | none => none
      | some (skipped, tr1) =>
        let offset1 := u32 (skipped + 4)
        if offset1 > max then some (Flow.returned dns1 tr1)
        else
          let xclass := (rd px (u32sub offset1 2) <<< 8) ||| rd px (u32sub offset1 1)
          let tr2 := tr1 ++ [Access.read (u32sub offset1 2), Access.read (u32sub offset1 1)]
          if xclass ≠ 1 ∧ xclass ≠ 255 ∧ xclass ≠ 3 then some (Flow.returned dns1 tr2)
          else
            let xtype := (rd px (u32sub offset1 4) <<< 8) ||| rd px (u32sub offset1 3)
            question_loop fuel px max n
              { dns1 with query_type := xtype, query_class := xclass } offset1
              (tr2 ++ [Access.read (u32sub offset1 4), Access.read (u32sub offset1 3)])

/-- The answer and authority loop (lines 240-253), with `n` iterations left;
its `break` leaves the loop with the offset past `max`. -/
def answer_loop (fuel : Nat) (px : Buffer) (max : Nat) :
    Nat → DNS_Incoming → Nat → Trace → Option Flow
  | 0, dns, offset, tr => some (Flow.continues dns offset tr)
  | n + 1, dns, offset, tr =>
    if dns.rr_count ≥ MAX_RRs dns then some (Flow.returned dns tr)
    else
      let dns1 := { dns with
        rr_offset := dns.rr_offset.set dns.rr_count (offset % 65536)
        rr_count := dns.rr_count + 1 }
      match dns_name_skip fuel px offset max (tr ++ [Access.rr_write dns.rr_count]) with
      | none => none
      | some (skipped, tr1) =>
        let offset1 := u32 (skipped + 10)
        if offset1 > max then some (Flow.returned dns1 tr1)
        else
          let rdlength := (rd px (u32sub offset1 2) <<< 8) ||| rd px (u32sub offset1 1)
          let tr2 := tr1 ++ [Access.read (u32sub offset1 2), Access.read (u32sub offset1 1)]
          let offset2 := u32 (offset1 + rdlength)
          if offset2 > max then some (Flow.continues dns1 offset2 tr2)
          else answer_loop fuel px max n dns1 offset2 tr2

/-- The reads of the OPT test of line 261, whose `&&` stops at the first
operand that is false. -/
def opt_test_reads (px : Buffer) (offset max : Nat) : Trace :=
  if u32 (offset + 11) ≤ max then
    Access.read offset ::
      (if rd px offset = 0 then
        Access.read (u32 (offset + 1)) ::
          (if rd px (u32 (offset + 1)) = 0 then [Access.read (u32 (offset + 2))] else [])
      else [])
  else []

/-- The EDNS0 OPT parsing of lines 260-268, inside the additional loop: it
either returns from `proto_dns_parse` (payload size below 512) or goes on with
the record at the same `offset`. -/
def opt_record (px : Buffer) (offset max : Nat) (dns : DNS_Incoming) (tr : Trace) : Flow :=
  let tr1 := tr ++ opt_test_reads px offset max
  if u32 (offset + 11) ≤ max ∧ rd px offset = 0 ∧ rd px (u32 (offset + 1)) = 0 ∧
      rd px (u32 (offset + 2)) = 0x29 then
    let payload_size := (rd px (u32 (offset + 3)) <<< 8) ||| rd px (u32 (offset + 4))
    let dns1 := { dns with edns0 := { dns.edns0 with payload_size := payload_size } }
    let tr2 := tr1 ++ [Access.read (u32 (offset + 3)), Access.read (u32 (offset + 4))]
    if payload_size < 512 then Flow.returned dns1 tr2
    else
      Flow.continues
        { dns1 with
          rcode := dns1.rcode ||| (rd px (u32 (offset + 5)) <<< 4)
          edns0 := { dns1.edns0 with version := rd px (u32 (offset + 6)) }
          is_edns0 := true }
        offset
        (tr2 ++ [Access.read (u32 (offset + 5)), Access.read (u32 (offset + 6))])
  else Flow.continues dns offset tr1

/-- The additional loop (lines 254-278), with `n` iterations left. -/
def additional_loop (fuel : Nat) (px : Buffer) (max : Nat) :
    Nat → DNS_Incoming → Nat → Trace → Option Flow
  | 0, dns, offset, tr => some (Flow.continues dns offset tr)
  | n + 1, dns, offset, tr =>
    if dns.rr_count ≥ MAX_RRs dns then some (Flow.returned dns tr)
    else
      let dns1 := { dns with
        rr_offset := dns.rr_offset.set dns.rr_count (offset % 65536)
        rr_count := dns.rr_count + 1 }
      match opt_record px offset max dns1 (tr ++ [Access.rr_write dns.rr_count]) with
      | Flow.returned dns2 tr1 => some (Flow.returned dns2 tr1)
      | Flow.continues dns2 _ tr1 =>
        match dns_name_skip fuel px offset max tr1 with
        | none => none
        | some (skipped, tr2) =>
          let offset1 := u32 (skipped + 10)
          if offset1 > max then some (Flow.returned dns2 tr2)
          else
            let rdlength := (rd px (u32sub offset1 2) <<< 8) ||| rd px (u32sub offset1 1)
            let tr3 := tr2 ++ [Access.read (u32sub offset1 2), Access.read (u32sub offset1 1)]
            let offset2 := u32 (offset1 + rdlength)
            if offset2 > max then some (Flow.returned dns2 tr3)
            else additional_loop fuel px max n dns2 offset2 tr3

/-- The end of `proto_dns_parse` (lines 280-284): the question name is
expanded from the first table entry into `query_name_buffer` and the
format-error flag is cleared. -/
def parse_finish (fuel : Nat) (px : Buffer) (max : Nat) (dns : DNS_Incoming) (tr : Trace) :
    Option (DNS_Incoming × Trace) :=
  match dns_extract_name fuel px (dns.rr_offset.getD 0 0) max
      { name := dns.query_name_buffer, length := dns.query_name.length } tr with
  | none => none
  | some (name, _, tr1) =>
    some ({ dns with
      query_name := name
      query_name_buffer := name.name
      is_formerr := false }, tr1)

/-- The sections of `proto_dns_parse` (lines 198-284), entered after the
header with `offset` at the first question. -/
def parse_sections (fuel : Nat) (px : Buffer) (max : Nat) (dns : DNS_Incoming) (offset : Nat)
    (tr : Trace) : Option (DNS_Incoming × Trace) :=
  if dns.qdcount = 0 then some (dns, tr)
  else
    match question_loop fuel px max dns.qdcount dns offset tr with
    | none => none
    | some (Flow.returned dns1 tr1) => some (dns1, tr1)
    | some (Flow.continues dns1 offset1 tr1) =>
      match answer_loop fuel px max (dns1.ancount + dns1.nscount) dns1 offset1 tr1 with
      | none => none
      | some (Flow.returned dns2 tr2) => some (dns2, tr2)
      | some (Flow.continues dns2 offset2 tr2) =>
        match additional_loop fuel px max dns2.arcount dns2 offset2 tr2 with
        | none => none
        | some (Flow.returned dns3 tr3) => some (dns3, tr3)
        | some (Flow.continues dns3 _ tr3) => parse_finish fuel px max dns3 tr3

/-- The function `proto_dns_parse` (lines 135-285).  `fuel` bounds each name
loop it runs; `tr` is the trace so far. -/
def proto_dns_parse (fuel : Nat) (dns : DNS_Incoming) (px : Buffer) (offset max : Nat)
    (tr : Trace) : Option (DNS_Incoming × Trace) :=
  let dns0 := { dns with
    is_valid := false
    req := px
    req_length := u32sub max offset
    edns0 := { dns.edns0 with payload_size := 512 } }
  if u32sub max offset < 12 then some (dns0, tr)
  else
    parse_sections fuel px max (parse_header dns0 px offset) (u32 (offset + 12))
      (tr ++ header_reads offset)

/-! ## Concrete inputs -/

/-- A packet given by its first bytes; every cell beyond them is zero. -/
def buf (bs : List Nat) : Buffer := fun i => bs.getD i 0

/-- A state of `struct DNS_Incoming` before parsing: every field zero, a table
of `cap` record offsets and a name buffer of 255 bytes. -/
def blank (cap : Nat) : DNS_Incoming :=
  { is_valid := false, is_formerr := false, is_edns0 := false
    req := fun _ => 0, req_length := 0
    id := 0, qr := 0, aa := 0, tc := 0, rd := 0, ra := 0, z := 0, opcode := 0, rcode := 0
    qdcount := 0, ancount := 0, nscount := 0, arcount := 0
    rr_count := 0, rr_offset := List.replicate cap 0
    query_type := 0, query_class := 0
    query_name := { name := [], length := 0 }
    query_name_buffer := List.replicate 255 0
    edns0 := { payload_size := 0, version := 0 } }

/-- The minimal query of the specification: header with id 0x1234, RD set and
one question, the name `example.com`, type 1 and class 1. -/
def minimal_query : List Nat :=
  [0x12, 0x34, 0x01, 0x00, 0x00, 0x01, 0x00, 0x00, 0x00, 0x00, 0x00, 0x00,
   7, 101, 120, 97, 109, 112, 108, 101, 3, 99, 111, 109, 0,
   0x00, 0x01, 0x00, 0x01]

/-! ## Auxiliary definitions for the statements -/

/-- The target of the compression pointer at `offset`, in arithmetic form. -/
def pointer_target (px : Buffer) (offset : Nat) : Nat :=
  rd px offset % 64 * 256 + rd px (offset + 1)

/-- An access that stays inside its array: the packet below `max`, the
record-offset table below `cap`, the name buffer below 255. -/
def Access.in_bounds (max cap : Nat) : Access → Bool
  | Access.read i => decide (i < max)
  | Access.rr_write i => decide (i < cap)
  | Access.name_write i => decide (i < 255)

/-- Every access of the trace stays inside its array. -/
def Safe (max cap : Nat) (tr : Trace) : Prop :=
  ∀ a ∈ tr, a.in_bounds max cap = true

/-- Stepping over plain labels: `PlainReach px a p` when `p` is reached from
`a` by skipping labels of 1 to 63 bytes. -/
inductive PlainReach (px : Buffer) : Nat → Nat → Prop
  | here (p : Nat) : PlainReach px p p
  | label (a p : Nat) : 0 < rd px a → rd px a < 64 →
      PlainReach px (a + (rd px a + 1)) p → PlainReach px a p

/-- The state a section loop ends with. -/
def Flow.dns : Flow → DNS_Incoming
  | Flow.returned d _ => d
  | Flow.continues d _ _ => d

/-- The trace a section loop ends with. -/
def Flow.trace : Flow → Trace
  | Flow.returned _ t => t
  | Flow.continues _ _ t => t

/-- What every section loop keeps: the accesses stay in bounds, the table
keeps its capacity, the record count does not decrease, the first table entry
stays once it is written, and the offset stays a 32-bit value. -/
def FlowInv (max cap : Nat) (dns : DNS_Incoming) (fl : Flow) : Prop :=
  Safe max cap fl.trace ∧ fl.dns.rr_offset.length = cap ∧ dns.rr_count ≤ fl.dns.rr_count ∧
  (0 < dns.rr_count → fl.dns.rr_offset.getD 0 0 = dns.rr_offset.getD 0 0) ∧
  (∀ d o t, fl = Flow.continues d o t → o ≤ max + 65535)

/-- The wire form of a sequence of labels, without terminator: each label is
its length byte followed by its content. -/
def encode_labels : List (List Nat) → List Nat
  | [] => []
  | l :: ls => (l.length :: l) ++ encode_labels ls

/-- The wire form of an uncompressed name: the labels and the terminating
zero byte. -/
def encode_name (ls : List (List Nat)) : List Nat := encode_labels ls ++ [0]

/-- Every label has 1 to 63 bytes. -/
def valid_labels (ls : List (List Nat)) : Prop := ∀ l ∈ ls, 1 ≤ l.length ∧ l.length ≤ 63

/-- A packet whose bytes from index `base` on are `bs`; every other cell is
zero. -/
def buf_at (base : Nat) (bs : List Nat) : Buffer :=
  fun i => if base ≤ i then bs.getD (i - base) 0 else 0

/-- A single-question message at `offset`: QDCOUNT is 1 and the three other
counts are 0, the header is followed by the uncompressed name with labels
`ls` (1 to 63 bytes each, at most 255 bytes on the wire), the type `qtype` and
the class `qclass`, one of 1, 3, 255, all inside the bound `max`. -/
def single_question (px : Buffer) (offset max : Nat) (ls : List (List Nat))
    (qtype qclass : Nat) : Prop :=
  bytes_at px (offset + 4) 8 = [0, 1, 0, 0, 0, 0, 0, 0] ∧
  valid_labels ls ∧ (encode_name ls).length ≤ 255 ∧
  bytes_at px (offset + 12) (encode_name ls).length = encode_name ls ∧
  bytes_at px (offset + 12 + (encode_name ls).length) 4
    = [qtype / 256, qtype % 256, qclass / 256, qclass % 256] ∧
  qtype < 65536 ∧ (qclass = 1 ∨ qclass = 3 ∨ qclass = 255) ∧
  offset + 12 + (encode_name ls).length + 4 ≤ max ∧ max < 4294967296

/-- The labels of `example.com`. -/
def example_com : List (List Nat) := [[101, 120, 97, 109, 112, 108, 101], [99, 111, 109]]

/-- Resolving the name at an offset follows at least `k` compression
pointers, however they are interleaved with plain labels:
`Follows px max o k`. -/
inductive Follows (px : Buffer) (max : Nat) : Nat → Nat → Prop
  | start (o : Nat) : Follows px max o 0
  | label (o k : Nat) : o < max → 0 < rd px o → rd px o < 64 →
      Follows px max (o + (rd px o + 1)) k → Follows px max o k
  | pointer (o k : Nat) : o + 1 < max → 192 ≤ rd px o →
      Follows px max (pointer_target px o) k → Follows px max o (k + 1)

/-- Resolving the name at an offset reaches the position `p`, through plain
labels and compression pointers: `Resolves px max o p`. -/
inductive Resolves (px : Buffer) (max : Nat) : Nat → Nat → Prop
  | here (o : Nat) : Resolves px max o o
  | label (o p : Nat) : o < max → 0 < rd px o → rd px o < 64 →
      Resolves px max (o + (rd px o + 1)) p → Resolves px max o p
  | pointer (o p : Nat) : o + 1 < max → 192 ≤ rd px o →
      Resolves px max (pointer_target px o) p → Resolves px max o p

/-- From position `o` on, `k` compression pointers follow one another with no
label between them: `PointerChain px max o k`. -/
inductive PointerChain (px : Buffer) (max : Nat) : Nat → Nat → Prop
  | done (o : Nat) : PointerChain px max o 0
  | pointer (o k : Nat) : o + 1 < max → 192 ≤ rd px o →
      PointerChain px max (pointer_target px o) k → PointerChain px max o (k + 1)

/-- A name with five compression pointers, each but the first after a label:
at 17 a pointer to 13; at 13, 9, 5 and 1 the label `a` and a pointer to 9, 5, 1
and 0; at 0 the terminator. -/
def five_pointers : List Nat :=
  [0, 1, 97, 192, 0, 1, 97, 192, 1, 1, 97, 192, 5, 1, 97, 192, 9, 192, 13]

/-- The number of bytes stored into the name buffer along a trace. -/
def bytes_copied (tr : Trace) : Nat :=
  tr.countP (fun a => match a with
    | Access.name_write _ => true
    | _ => false)

/-- A legal question class: Internet, Chaos or Any. -/
def legal_class (c : Nat) : Prop := c = 1 ∨ c = 3 ∨ c = 255

/-- An additional record that is an OPT record with a payload size below 512:
root name, type 41 and the two payload bytes. -/
def small_opt : List Nat := [0, 0, 41, 1, 0, 0, 0, 0, 0, 0, 0]

/-- The reply packet, `struct Packet` (declared in a header that is not part of
the sources at hand): the buffer `buf`, the position `offset` and the limit
`max`, each taken wide enough for the values stored in it. -/
structure Packet where
  buf : List Nat
  offset : Nat
  max : Nat
deriving DecidableEq

/-- What `proto_dns_process` asks of the transport: `frame_create_response`
allocates a reply packet, `frame_xmit_response` transmits one. -/
inductive Effect where
  | create
  | xmit (pkt : Packet)
deriving DecidableEq

/-- The literal copied by the format-error path (lines 303-308). -/
def formerr_header : List Nat := [0, 0, 0x80, 1, 0, 0, 0, 0, 0, 0, 0, 0]

/-- The table `xx` of `proto_dns_process` (lines 320-341): the fixed reply to
the Chaos query `version.bind`. -/
def xx : List Nat :=
  [0x87, 0x31,
   0x85, 0x00,
   0x00, 0x01, 0x00, 0x01, 0x00, 0x01, 0x00, 0x00,
   0x07, 0x76, 0x65, 0x72, 0x73, 0x69, 0x6f, 0x6e, 0x04, 0x62, 0x69, 0x6e, 0x64, 0x00,
   0x00, 0x10,
   0x00, 0x03,
   0xc0, 0x0c,
   0x00, 0x10,
   0x00, 0x03,
   0x00, 0x00, 0x00, 0x00,
   0x00, 0x09,
   0x08,
   114, 111, 98, 100, 110, 115, 47, 49,
   0xc0, 0x0c,
   0x00, 0x02,
   0x00, 0x03,
   0x00, 0x00, 0x00, 0x00, 0x00, 0x02, 0xc0, 0x0c]

/-- The string literal of line 347, `07 version 04 bind 00`, with the
terminating zero byte of a C string. -/
def version_bind : List Nat :=
  [7, 118, 101, 114, 115, 105, 111, 110, 4, 98, 105, 110, 100, 0, 0]

/-- Modelled from the spec: the lower-case form of an ASCII byte, as used by
the case-insensitive compare `memcasecmp`, whose source (`string_s`) is not
part of the sources at hand. -/
def ascii_lower (c : Nat) : Nat := if 65 ≤ c ∧ c ≤ 90 then c + 32 else c

/-- Modelled from the spec: `memcasecmp(lhs, rhs, n)` of `string_s.h`, whose
source is not part of the sources at hand: the case-insensitive compare of the
first `n` bytes, 0 exactly when they are equal up to the case of ASCII
letters. -/
def memcasecmp (lhs rhs : List Nat) (n : Nat) : Nat :=
  if (lhs.take n).map ascii_lower = (rhs.take n).map ascii_lower then 0 else 1

/-- The block at the label `formerr` of `proto_dns_process` (lines 299-316);
`fresh` is the packet `frame_create_response` hands out. -/
def formerr_reply (fresh : Packet) (request : DNS_Incoming) : List Effect :=
  let pkt : Packet :=
    if fresh.offset + 12 ≤ fresh.max then
      { fresh with
        buf := ((memcpy fresh.buf fresh.offset formerr_header).set (fresh.offset + 0)
          ((request.id >>> 8) % 256)).set (fresh.offset + 1) ((request.id >>> 0) % 256) }
    else fresh
  [Effect.create, Effect.xmit { pkt with offset := pkt.offset + 12, max := pkt.offset + 12 }]

/-- The function `proto_dns_process` (lines 289-385).  `fresh` is the packet
`frame_create_response` hands out; `resolve` stands for the resolver and the
serializer (`resolver_init`, `resolver_algorithm`, `dns_format_response`),
which are outside the sources at hand: it maps the request and the fresh packet
to the packet that is transmitted. -/
def proto_dns_process (fresh : Packet) (resolve : DNS_Incoming → Packet → Packet)
    (request : DNS_Incoming) : List Effect :=
  if request.is_valid = false then []
  else if request.is_formerr = true then formerr_reply fresh request
  else if request.query_class = 3 then
    if request.query_type ≠ 16 then formerr_reply fresh request
    else if request.query_name.length ≠ 13 then formerr_reply fresh request
    else if memcasecmp request.query_name.name version_bind 13 ≠ 0 then
      formerr_reply fresh request
    else if fresh.offset + xx.length ≤ fresh.max then
      [Effect.create,
       Effect.xmit
        { buf := ((memcpy fresh.buf fresh.offset xx).set (fresh.offset + 0)
            ((request.id >>> 8) % 256)).set (fresh.offset + 1) ((request.id >>> 0) % 256),
          offset := fresh.offset + xx.length,
          max := fresh.offset + xx.length }]
    else [Effect.create]
  else [Effect.create, Effect.xmit (resolve request fresh)]

/-- The bytes of a transmitted packet from position `start` up to its limit:
what the reply adds after the headers the transport wrote. -/
def sent_bytes (start : Nat) (pkt : Packet) : List Nat :=
  (pkt.buf.take pkt.max).drop start

/-- The minimal query with class 7 in place of class 1. -/
def class7_query : List Nat :=
  [0x12, 0x34, 0x01, 0x00, 0x00, 0x01, 0x00, 0x00, 0x00, 0x00, 0x00, 0x00,
   7, 101, 120, 97, 109, 112, 108, 101, 3, 99, 111, 109, 0,
   0x00, 0x01, 0x00, 0x07]

/-- The state after parsing the bytes `bs` at offset 0 into a blank state with
64 table entries (the blank state itself if the parse does not return). -/
def parsed (bs : List Nat) : DNS_Incoming :=
  ((proto_dns_parse 1282 (blank 64) (buf bs) 0 bs.length []).map Prod.fst).getD (blank 64)

/-- A reply packet of 100 zero bytes with 14 bytes of headers in front. -/
def reply_packet : Packet := { buf := List.replicate 100 0, offset := 14, max := 100 }

/-- The Chaos query for `version.bind`: header with id 0x1234 and one
question, the name `07 version 04 bind 00`, type 16 and class 3. -/
def version_query : List Nat :=
  [0x12, 0x34, 0x01, 0x00, 0x00, 0x01, 0x00, 0x00, 0x00, 0x00, 0x00, 0x00,
   7, 118, 101, 114, 115, 105, 111, 110, 4, 98, 105, 110, 100, 0,
   0x00, 0x10, 0x00, 0x03]

/-- A reply packet of 100 zero bytes at position 14 whose limit leaves room
for 36 bytes only. -/
def small_packet : Packet := { buf := List.replicate 100 0, offset := 14, max := 50 }

/-- The header of the message at `offset`, as laid out on the wire, is what the
state `d` holds (the response code in its low 4 bits). -/
def HeaderDecoded (px : Buffer) (offset : Nat) (d : DNS_Incoming) : Prop :=
  d.is_valid = true ∧
  d.id = rd px offset * 256 + rd px (offset + 1) ∧
  d.qr = rd px (offset + 2) / 128 ∧
  d.opcode = rd px (offset + 2) / 8 % 16 ∧
  d.aa = rd px (offset + 2) / 4 % 2 ∧
  d.tc = rd px (offset + 2) / 2 % 2 ∧
  d.rd = rd px (offset + 2) % 2 ∧
  d.ra = rd px (offset + 3) / 128 ∧
  d.z = rd px (offset + 3) / 16 % 8 ∧
  d.rcode % 16 = rd px (offset + 3) % 16 ∧
  d.qdcount = rd px (offset + 4) * 256 + rd px (offset + 5) ∧
  d.ancount = rd px (offset + 6) * 256 + rd px (offset + 7) ∧
  d.nscount = rd px (offset + 8) * 256 + rd px (offset + 9) ∧
  d.arcount = rd px (offset + 10) * 256 + rd px (offset + 11)

/-- One step of the traversal the name functions make from `o`: over a plain
label to the byte after it, through a compression pointer to its target; no
step from a terminator, a reserved label type or a position off the packet. -/
def name_next (px : Buffer) (max o : Nat) : Option Nat :=
  if max ≤ o then none
  else if rd px o = 0 then none
  else if rd px o < 64 then some (u32 (o + (rd px o + 1)))
  else if rd px o < 192 then none
  else if max ≤ o + 1 then none
  else some (pointer_target px o)

/-- The position after `k` steps of the traversal, if it gets that far. -/
def name_walk (px : Buffer) (max : Nat) : Nat → Nat → Option Nat
  | 0, o => some o
  | k + 1, o => (name_next px max o).bind (name_walk px max k)

/-- The traversal of the name at `o` is cyclic: it reaches a position from
which a positive number of steps leads back to that position. -/
def Cyclic (px : Buffer) (max o : Nat) : Prop :=
  ∃ j k p, 0 < k ∧ name_walk px max j o = some p ∧ name_walk px max k p = some p

/-- A label `a` followed by a pointer back to that label. -/
def label_loop : List Nat := [1, 97, 192, 0]

/-- The positions of the first `n` steps of the traversal from `o`, `o`
itself first. -/
def name_path (px : Buffer) (max : Nat) : Nat → Nat → List Nat
  | 0, o => [o]
  | n + 1, o => o :: (match name_next px max o with
    | none => []
    | some o' => name_path px max n o')

/-- The byte at `p` is the length byte of a plain label. -/
def is_label (px : Buffer) (p : Nat) : Bool := decide (0 < rd px p) && decide (rd px p < 64)

/-- The label offsets among the first `n` steps of the traversal from `o`. -/
def name_labels (px : Buffer) (max n o : Nat) : List Nat :=
  (name_path px max n o).filter (is_label px)

/-- The sum of (label length + 1) over the labels at the offsets `ls`. -/
def labels_length (px : Buffer) : List Nat → Nat
  | [] => 0
  | p :: ls => (rd px p + 1) + labels_length px ls

/-- The length byte and the bytes of each label at the offsets `ls`, one
after the other. -/
def labels_bytes (px : Buffer) : List Nat → List Nat
  | [] => []
  | p :: ls => bytes_at px p (rd px p + 1) ++ labels_bytes px ls

/-- The name `a.com`, compressed: `com` at 0, and at 5 the label `a` followed
by a pointer to 0. -/
def compressed_name : List Nat := [3, 99, 111, 109, 0, 1, 97, 192, 0]

/-- The entries of the record-offset table in use, `rr_offset[0 .. rr_count-1]`. -/
def table (dns : DNS_Incoming) : List Nat := dns.rr_offset.take dns.rr_count

/-- A name begins at `e`: `dns_name_skip` accepts it there. -/
def Accepted (fuel : Nat) (px : Buffer) (max e : Nat) : Prop :=
  ∃ r t t', dns_name_skip fuel px e max t = some (r, t') ∧ r ≤ max

/-- What the section loops keep of the table `ro` with `rc` entries in use,
at the current `offset`: the entries in use are strictly increasing, each one
is below the current offset and below `max` and a name begins there, and the
first one is `first` (the current offset, while there is none). -/
def TableInv (fuel : Nat) (px : Buffer) (max first : Nat) (ro : List Nat) (rc offset : Nat) :
    Prop :=
  rc ≤ ro.length ∧ (ro.take rc).Pairwise (fun a b => a < b) ∧
  (∀ e ∈ ro.take rc, e < offset ∧ e < max ∧ Accepted fuel px max e) ∧
  ((ro.take rc).head? = some first ∨ (rc = 0 ∧ offset = first))

/-- The state after the header stage of `proto_dns_parse` (lines 160-183), for
a packet with at least 12 bytes. -/
def after_header (dns : DNS_Incoming) (px : Buffer) (offset max : Nat) : DNS_Incoming :=
  parse_header { dns with
    is_valid := false
    req := px
    req_length := u32sub max offset
    edns0 := { dns.edns0 with payload_size := 512 } } px offset

/-- Of `n` answer or authority records from `o` on, the records that start at
the offsets `starts` are scanned one after the other, and the last of them has
its name and its 10 fixed bytes inside the packet and a declared rdata length
that runs past `max`; the rdata of the earlier ones is inside the packet. -/
inductive OverrunAt (fuel : Nat) (px : Buffer) (max : Nat) : Nat → Nat → List Nat → Prop
  | last (n o r : Nat) (t t' : Trace) :
      dns_name_skip fuel px o max t = some (r, t') → r + 10 ≤ max →
      max < r + 10 + (rd px (r + 8) * 256 + rd px (r + 9)) →
      OverrunAt fuel px max (n + 1) o [o]
  | next (n o r : Nat) (t t' : Trace) (l : List Nat) :
      dns_name_skip fuel px o max t = some (r, t') → r + 10 ≤ max →
      r + 10 + (rd px (r + 8) * 256 + rd px (r + 9)) ≤ max →
      OverrunAt fuel px max n (r + 10 + (rd px (r + 8) * 256 + rd px (r + 9))) l →
      OverrunAt fuel px max (n + 1) o (o :: l)

/-- A response of 42 bytes: the question `example.com`, type 1, class 1, and
one answer record (root name, type 1, class 1, TTL 60) that declares 4 bytes of
rdata of which only 2 are in the packet. -/
def truncated_answer : List Nat :=
  [0x12, 0x34, 0x81, 0x80, 0x00, 0x01, 0x00, 0x01, 0x00, 0x00, 0x00, 0x00,
   7, 101, 120, 97, 109, 112, 108, 101, 3, 99, 111, 109, 0,
   0x00, 0x01, 0x00, 0x01,
   0x00, 0x00, 0x01, 0x00, 0x01, 0x00, 0x00, 0x00, 0x3C, 0x00, 0x04, 1, 2]

/-- The value `b` is `a`, or else it is `t`. -/
def Kept {α : Type} (t a b : α) : Prop := b = a ∨ b = t

/-- The relation between a run of the parser on state `a` and a run on state
`b` at the same program point, with respect to a state `T`: the fields the
header stage has set are equal, the table entries in use are equal, and every
other field or table cell of `b` is that of `a`, or else that of `T`. -/
def TwoRun (T a b : DNS_Incoming) : Prop :=
  (b.is_valid = a.is_valid ∧ b.is_formerr = a.is_formerr ∧ b.req = a.req ∧
    b.req_length = a.req_length ∧ b.id = a.id ∧ b.qr = a.qr ∧ b.aa = a.aa ∧ b.tc = a.tc ∧
    b.rd = a.rd ∧ b.ra = a.ra ∧ b.z = a.z ∧ b.opcode = a.opcode ∧ b.rcode = a.rcode ∧
    b.qdcount = a.qdcount ∧ b.ancount = a.ancount ∧ b.nscount = a.nscount ∧
    b.arcount = a.arcount ∧ b.edns0.payload_size = a.edns0.payload_size) ∧
  (b.rr_count = a.rr_count ∧ b.rr_offset.length = a.rr_offset.length ∧
    (∀ i : Nat, i < a.rr_count → b.rr_offset[i]? = a.rr_offset[i]?) ∧
    (∀ i : Nat, Kept (T.rr_offset[i]?) (a.rr_offset[i]?) (b.rr_offset[i]?))) ∧
  (Kept T.query_type a.query_type b.query_type ∧
    Kept T.query_class a.query_class b.query_class) ∧
  (Kept T.is_edns0 a.is_edns0 b.is_edns0 ∧
    Kept T.edns0.version a.edns0.version b.edns0.version) ∧
  (Kept T.query_name a.query_name b.query_name ∧
    Kept T.query_name_buffer a.query_name_buffer b.query_name_buffer)

/-- Two flows that left a loop the same way, with related states. -/
inductive FlowTwo (T : DNS_Incoming) : Flow → Flow → Prop
  | returned (a b : DNS_Incoming) (t : Trace) : TwoRun T a b →
      FlowTwo T (Flow.returned a t) (Flow.returned b t)
  | continues (a b : DNS_Incoming) (o : Nat) (t : Trace) : TwoRun T a b →
      FlowTwo T (Flow.continues a o t) (Flow.continues b o t)

/-- Of `n` questions from `o` on, the parser reaches one that carries a class
outside 1, 3, 255: the questions before it have their name and their 4 fixed
bytes inside the packet and a class among 1, 3, 255, and that one has its name
and its 4 fixed bytes inside the packet and, in the two bytes of its class
field, a value outside 1, 3, 255. -/
inductive BadClassAt (fuel : Nat) (px : Buffer) (max : Nat) : Nat → Nat → Prop
  | here (n o r : Nat) (t t' : Trace) :
      dns_name_skip fuel px o max t = some (r, t') → r + 4 ≤ max →
      ¬ legal_class (rd px (r + 2) * 256 + rd px (r + 3)) →
      BadClassAt fuel px max (n + 1) o
  | next (n o r : Nat) (t t' : Trace) :
      dns_name_skip fuel px o max t = some (r, t') → r + 4 ≤ max →
      legal_class (rd px (r + 2) * 256 + rd px (r + 3)) →
      BadClassAt fuel px max n (r + 4) →
      BadClassAt fuel px max (n + 1) o

/-- Of `n` additional records from `o` on, the parser reaches one whose bytes
match the OPT signature (root name `00`, type `00 29`, at least 11 bytes left)
and whose payload size is below 512: the records before it have their name,
their 10 fixed bytes and their rdata inside the packet. -/
inductive SmallOptAt (fuel : Nat) (px : Buffer) (max : Nat) : Nat → Nat → Prop
  | here (n o : Nat) :
      o + 11 ≤ max → rd px o = 0 → rd px (o + 1) = 0 → rd px (o + 2) = 0x29 →
      rd px (o + 3) * 256 + rd px (o + 4) < 512 →
      SmallOptAt fuel px max (n + 1) o
  | next (n o r : Nat) (t t' : Trace) :
      dns_name_skip fuel px o max t = some (r, t') → r + 10 ≤ max →
      r + 10 + (rd px (r + 8) * 256 + rd px (r + 9)) ≤ max →
      SmallOptAt fuel px max n (r + 10 + (rd px (r + 8) * 256 + rd px (r + 9))) →
      SmallOptAt fuel px max (n + 1) o

/-- A query of 40 bytes: the question `example.com`, type 1, class 1, and one
additional record, the OPT record `small_opt` with payload size 256. -/
def small_opt_query : List Nat :=
  [0x12, 0x34, 0x01, 0x00, 0x00, 0x01, 0x00, 0x00, 0x00, 0x00, 0x00, 0x01,
   7, 101, 120, 97, 109, 112, 108, 101, 3, 99, 111, 109, 0,
   0x00, 0x01, 0x00, 0x01] ++ small_opt

/-- The number of fixed bytes after the name of a record: type and class of a
question, or type, class, TTL and rdata length of another record. -/
def fixed_bytes (question : Bool) : Nat := if question then 4 else 10

/-- Where a record ends whose name ends at `r`: after the 4 fixed bytes of a
question, or after the 10 fixed bytes and the rdata, of the length in the last
two of them, of another record. -/
def record_end (px : Buffer) (question : Bool) (r : Nat) : Nat :=
  if question then r + 4 else r + 10 + (rd px (r + 8) * 256 + rd px (r + 9))

/-- The offsets `l` are the starts of consecutive records (questions if
`question` is set), the first one at `s`: at each of them a name begins that
`dns_name_skip` steps over, the name and the fixed bytes after it are inside
the packet, and the next record starts where this one ends; `e` is where the
last one ends (`s` itself if there is none). -/
inductive Chain (fuel : Nat) (px : Buffer) (max : Nat) (question : Bool) :
    Nat → List Nat → Nat → Prop
  | nil (s : Nat) : Chain fuel px max question s [] s
  | cons (o r : Nat) (t t' : Trace) (l : List Nat) (e : Nat) :
      dns_name_skip fuel px o max t = some (r, t') → r + fixed_bytes question ≤ max →
      Chain fuel px max question (record_end px question r) l e →
      Chain fuel px max question o (o :: l) e

/-! # Theorems -/

/-! ## Bytes and bit patterns -/

theorem rd_lt (px : Buffer) (i : Nat) : rd px i < 256 :=
  Nat.mod_lt _ (by decide)

theorem land_C0_eq_zero_iff : ∀ b < 256, (b &&& 0xC0 = 0 ↔ b < 64) := by decide!

theorem land_C0_eq_C0_iff : ∀ b < 256, (b &&& 0xC0 = 0xC0 ↔ 192 ≤ b) := by decide!

theorem shr6_eq (b : Nat) : b >>> 6 = b / 64 := by
  rw [Nat.shiftRight_eq_div_pow]

theorem pointer_bits (px : Buffer) (offset : Nat) :
    ((rd px offset &&& 0x3F) <<< 8) ||| rd px (offset + 1) = pointer_target px offset := by
  have h1 : rd px offset &&& 0x3F = rd px offset % 64 :=
    Nat.and_pow_two_sub_one_eq_mod (rd px offset) 6
  have h2 := Nat.mul_add_lt_is_or (i := 8) (b := rd px (offset + 1))
    (by simpa using rd_lt px (offset + 1)) (rd px offset % 64)
  rw [h1, Nat.shiftLeft_eq, pointer_target, Nat.mul_comm]
  exact h2.symm

theorem pointer_target_lt (px : Buffer) (offset : Nat) : pointer_target px offset < 16384 := by
  have h1 := rd_lt px (offset + 1)
  have h2 : rd px offset % 64 < 64 := Nat.mod_lt _ (by decide)
  unfold pointer_target
  omega

theorem validate_loop_succ (px : Buffer) (length ERROR result fuel offset nl rec : Nat)
    (tr : Trace) :
    dns_name_skip_validate_loop px length ERROR result (fuel + 1) offset nl rec tr =
      if 255 ≤ nl then some (ERROR, tr)
      else if length ≤ offset then some (ERROR, tr)
      else if rd px offset < 64 then
        (if rd px offset = 0 then some (result, tr ++ [Access.read offset])
         else dns_name_skip_validate_loop px length ERROR result fuel
            (u32 (offset + (rd px offset + 1))) (nl + (rd px offset + 1)) 0
            (tr ++ [Access.read offset]))
      else if rd px offset < 192 then some (ERROR, tr ++ [Access.read offset])
      else if length ≤ offset + 1 then some (ERROR, tr ++ [Access.read offset])
      else if 4 ≤ rec then
        some (ERROR, tr ++ [Access.read offset, Access.read offset, Access.read (offset + 1)])
      else dns_name_skip_validate_loop px length ERROR result fuel
        (pointer_target px offset) nl (rec + 1)
        (tr ++ [Access.read offset, Access.read offset, Access.read (offset + 1)]) := by
  have hb := rd_lt px offset
  have h0 := land_C0_eq_zero_iff _ hb
  have h3 := land_C0_eq_C0_iff _ hb
  rw [dns_name_skip_validate_loop]
  simp only [pointer_bits, List.append_assoc, List.singleton_append, ge_iff_le]
  by_cases c1 : 255 ≤ nl
  · simp [c1]
  by_cases c2 : length ≤ offset
  · simp [c1, c2]
  by_cases c3 : rd px offset < 64
  · have : rd px offset &&& 0xC0 = 0 := h0.2 c3
    simp [c1, c2, c3, this]
  by_cases c4 : rd px offset < 192
  · have e1 : ¬ rd px offset &&& 0xC0 = 0 := fun h => c3 (h0.1 h)
    have e2 : ¬ rd px offset &&& 0xC0 = 0xC0 := fun h => by have := h3.1 h; omega
    simp [c1, c2, c3, c4, e1, e2]
  · have e1 : ¬ rd px offset &&& 0xC0 = 0 := fun h => c3 (h0.1 h)
    have e2 : rd px offset &&& 0xC0 = 0xC0 := h3.2 (by omega)
    by_cases c5 : length ≤ offset + 1
    · simp [c1, c2, c3, c4, e1, e2, c5]
    · by_cases c6 : 4 ≤ rec
      · have : 4 < rec + 1 := by omega
        simp [c1, c2, c3, c4, e1, e2, c5, c6, this]
      · have : ¬ 4 < rec + 1 := by omega
        simp [c1, c2, c3, c4, e1, e2, c5, c6, this]

theorem skip_loop_succ (px : Buffer) (max fuel offset nl : Nat) (tr : Trace) :
    dns_name_skip_loop px max (fuel + 1) offset nl tr =
      if 255 ≤ nl then some (u32 (max + 1), tr)
      else if max ≤ offset then some (u32 (max + 1), tr)
      else if rd px offset < 64 then
        (if rd px offset = 0 then some (offset + 1, tr ++ [Access.read offset, Access.read offset])
         else dns_name_skip_loop px max fuel
            (u32 (offset + (rd px offset + 1))) (nl + (rd px offset + 1))
            (tr ++ [Access.read offset, Access.read offset, Access.read offset,
              Access.read offset]))
      else if rd px offset < 192 then some (u32 (max + 1), tr ++ [Access.read offset])
      else dns_name_skip_validate fuel px offset max nl (tr ++ [Access.read offset]) := by
  have hb := rd_lt px offset
  rw [dns_name_skip_loop]
  simp only [shr6_eq, List.append_assoc, List.singleton_append, ge_iff_le, List.cons_append,
    List.nil_append]
  by_cases c1 : 255 ≤ nl
  · simp [c1]
  by_cases c2 : max ≤ offset
  · simp [c1, c2]
  by_cases c3 : rd px offset < 64
  · have : rd px offset / 64 = 0 := by omega
    simp [c1, c2, c3, this]
  by_cases c4 : rd px offset < 192
  · have e0 : ¬ rd px offset / 64 = 0 := by omega
    have e3 : ¬ rd px offset / 64 = 3 := by omega
    have e12 : rd px offset / 64 = 2 ∨ rd px offset / 64 = 1 := by omega
    rcases e12 with e | e <;> simp [c1, c2, c3, c4, e]
  · have e0 : ¬ rd px offset / 64 = 0 := by omega
    have e3 : rd px offset / 64 = 3 := by omega
    simp [c1, c2, c3, c4, e3]

theorem extract_loop_succ (px : Buffer) (max fuel offset : Nat) (name : DomainPointer)
    (tr : Trace) :
    dns_extract_name_loop px max (fuel + 1) offset name tr =
      if max ≤ offset then some (name, Exit.offset_out_of_bounds, tr)
      else if rd px offset < 64 then
        (if rd px offset = 0 then some (name, Exit.end_of_name, tr ++ [Access.read offset])
         else dns_extract_name_loop px max fuel (u32 (offset + (rd px offset + 1)))
            { name := memcpy name.name name.length (bytes_at px offset (rd px offset + 1)),
              length := (name.length + rd px offset + 1) % 256 }
            (tr ++ [Access.read offset] ++ reads_at offset (rd px offset + 1) ++
              name_writes_at name.length (rd px offset + 1)))
      else if rd px offset < 192 then some (name, Exit.reserved_label, tr ++ [Access.read offset])
      else if max ≤ offset + 1 then
        some (name, Exit.pointer_out_of_bounds, tr ++ [Access.read offset])
      else dns_extract_name_loop px max fuel (pointer_target px offset) name
        (tr ++ [Access.read offset, Access.read offset, Access.read (offset + 1)]) := by
  have hb := rd_lt px offset
  have h0 := land_C0_eq_zero_iff _ hb
  have h3 := land_C0_eq_C0_iff _ hb
  rw [dns_extract_name_loop]
  simp only [pointer_bits, List.append_assoc, List.singleton_append, ge_iff_le]
  by_cases c2 : max ≤ offset
  · simp [c2]
  by_cases c3 : rd px offset < 64
  · have : rd px offset &&& 0xC0 = 0 := h0.2 c3
    simp [c2, c3, this]
  by_cases c4 : rd px offset < 192
  · have e1 : ¬ rd px offset &&& 0xC0 = 0 := fun h => c3 (h0.1 h)
    have e2 : ¬ rd px offset &&& 0xC0 = 0xC0 := fun h => by have := h3.1 h; omega
    simp [c2, c3, c4, e1, e2]
  · have e1 : ¬ rd px offset &&& 0xC0 = 0 := fun h => c3 (h0.1 h)
    have e2 : rd px offset &&& 0xC0 = 0xC0 := h3.2 (by omega)
    by_cases c5 : max ≤ offset + 1
    · simp [c2, c3, c4, e1, e2, c5]
    · simp [c2, c3, c4, e1, e2, c5]

theorem safe_nil (max cap : Nat) : Safe max cap [] := by
  intro a ha; cases ha

theorem safe_append {max cap : Nat} {t1 t2 : Trace} :
    Safe max cap (t1 ++ t2) ↔ Safe max cap t1 ∧ Safe max cap t2 := by
  unfold Safe
  constructor
  · intro h
    exact ⟨fun a ha => h a (List.mem_append_left _ ha), fun a ha => h a (List.mem_append_right _ ha)⟩
  · rintro ⟨h1, h2⟩ a ha
    rcases List.mem_append.1 ha with h | h
    · exact h1 a h
    · exact h2 a h

theorem safe_cons {max cap : Nat} {a : Access} {t : Trace} :
    Safe max cap (a :: t) ↔ a.in_bounds max cap = true ∧ Safe max cap t := by
  unfold Safe
  simp

theorem safe_reads {max cap : Nat} {l : List Nat} (h : ∀ i ∈ l, i < max) :
    Safe max cap (l.map Access.read) := by
  intro a ha
  obtain ⟨i, hi, rfl⟩ := List.mem_map.1 ha
  simpa [Access.in_bounds] using h i hi

theorem safe_reads_at {max cap offset n : Nat} (h : offset + n ≤ max) :
    Safe max cap (reads_at offset n) := by
  intro a ha
  obtain ⟨k, hk, rfl⟩ := List.mem_map.1 ha
  have := List.mem_range.1 hk
  simp only [Access.in_bounds, decide_eq_true_eq]
  omega

theorem safe_name_writes_at {max cap pos n : Nat} (h : pos + n ≤ 255) :
    Safe max cap (name_writes_at pos n) := by
  intro a ha
  obtain ⟨k, hk, rfl⟩ := List.mem_map.1 ha
  have := List.mem_range.1 hk
  simp only [Access.in_bounds, decide_eq_true_eq]
  omega

theorem safe_read1 {max cap i : Nat} (h : i < max) : Safe max cap [Access.read i] := by
  intro a ha
  simp only [List.mem_singleton] at ha
  subst ha
  simpa [Access.in_bounds] using h

/-! ## The validating skip -/

theorem validate_loop_safe (px : Buffer) (length ERROR result cap : Nat) :
    ∀ (fuel offset nl rec : Nat) (tr : Trace) (r : Nat) (tr' : Trace),
      dns_name_skip_validate_loop px length ERROR result fuel offset nl rec tr = some (r, tr') →
      Safe length cap tr → Safe length cap tr' := by
  intro fuel
  induction fuel with
  | zero => intro offset nl rec tr r tr' h; simp [dns_name_skip_validate_loop] at h
  | succ fuel ih =>
    intro offset nl rec tr r tr' h hs
    rw [validate_loop_succ] at h
    split_ifs at h with c1 c2 c3 c4 c5 c6 c7
    all_goals first
      | (simp only [Option.some.injEq, Prod.mk.injEq] at h
         obtain ⟨-, rfl⟩ := h
         first
          | exact hs
          | exact safe_append.2 ⟨hs, safe_read1 (by omega)⟩
          | exact safe_append.2 ⟨hs, safe_reads (l := [offset, offset, offset + 1])
              (by intro i hi; simp at hi; omega)⟩)
      | (refine ih _ _ _ _ _ _ h ?_
         first
          | exact safe_append.2 ⟨hs, safe_read1 (by omega)⟩
          | exact safe_append.2 ⟨hs, safe_reads (l := [offset, offset, offset + 1])
              (by intro i hi; simp at hi; omega)⟩)

theorem validate_loop_value (px : Buffer) (length ERROR result : Nat) :
    ∀ (fuel offset nl rec : Nat) (tr : Trace) (r : Nat) (tr' : Trace),
      dns_name_skip_validate_loop px length ERROR result fuel offset nl rec tr = some (r, tr') →
      r = ERROR ∨ r = result := by
  intro fuel
  induction fuel with
  | zero => intro offset nl rec tr r tr' h; simp [dns_name_skip_validate_loop] at h
  | succ fuel ih =>
    intro offset nl rec tr r tr' h
    rw [validate_loop_succ] at h
    split_ifs at h
    all_goals first
      | (simp only [Option.some.injEq, Prod.mk.injEq] at h
         obtain ⟨rfl, -⟩ := h
         simp)
      | exact ih _ _ _ _ _ _ h

/-- Enough fuel: `dns_name_skip_validate` returns. -/
theorem validate_loop_terminates (px : Buffer) (length ERROR result : Nat) :
    ∀ (fuel offset nl rec : Nat) (tr : Trace), rec ≤ 4 → (255 - nl) * 5 + 5 - rec ≤ fuel →
      ∃ r tr', dns_name_skip_validate_loop px length ERROR result fuel offset nl rec tr
        = some (r, tr') := by
  intro fuel
  induction fuel with
  | zero => intro offset nl rec tr h1 h2; omega
  | succ fuel ih =>
    intro offset nl rec tr h1 h2
    rw [validate_loop_succ]
    split_ifs with c1 c2 c3 c4 c5 c6 c7
    all_goals first
      | exact ⟨_, _, rfl⟩
      | (apply ih <;> omega)

theorem u32_of_lt {x : Nat} (h : x < 4294967296) : u32 x = x := by
  unfold u32; omega

theorem validate_terminates (px : Buffer) (fuel offset length nl : Nat) (tr : Trace)
    (h : (255 - nl) * 5 + 5 ≤ fuel) :
    ∃ r tr', dns_name_skip_validate fuel px offset length nl tr = some (r, tr') :=
  validate_loop_terminates px length _ _ fuel offset nl 0 tr (by omega) (by omega)

/-- Called at a compression pointer, the validating skip either fails or
returns the offset after the two bytes of that pointer. -/
theorem validate_at_pointer (px : Buffer) (fuel p max nl : Nat) (tr : Trace) (r : Nat)
    (tr' : Trace) (hmax : max + 64 < 4294967296) (hp : p < max)
    (h : dns_name_skip_validate fuel px p max nl tr = some (r, tr')) (hb : 192 ≤ rd px p) :
    r = max + 1 ∨ (r = p + 2 ∧ p + 1 < max) := by
  unfold dns_name_skip_validate at h
  rw [u32_of_lt (by omega : max + 1 < 4294967296),
    u32_of_lt (by omega : p + 2 < 4294967296)] at h
  cases fuel with
  | zero => simp [dns_name_skip_validate_loop] at h
  | succ fuel =>
    rw [validate_loop_succ] at h
    split_ifs at h with c1 c2 c3 c4 c5 c6
    all_goals first
      | omega
      | (simp only [Option.some.injEq, Prod.mk.injEq] at h
         obtain ⟨rfl, -⟩ := h
         left; rfl)
      | (rcases validate_loop_value _ _ _ _ _ _ _ _ _ _ _ h with e | e
         · left; exact e
         · right; exact ⟨e, by omega⟩)

/-! ## The fast skip -/

theorem skip_loop_safe (px : Buffer) (max cap : Nat) :
    ∀ (fuel offset nl : Nat) (tr : Trace) (r : Nat) (tr' : Trace),
      dns_name_skip_loop px max fuel offset nl tr = some (r, tr') →
      Safe max cap tr → Safe max cap tr' := by
  intro fuel
  induction fuel with
  | zero => intro offset nl tr r tr' h; simp [dns_name_skip_loop] at h
  | succ fuel ih =>
    intro offset nl tr r tr' h hs
    rw [skip_loop_succ] at h
    split_ifs at h with c1 c2 c3 c4 c5
    all_goals first
      | (simp only [Option.some.injEq, Prod.mk.injEq] at h
         obtain ⟨-, rfl⟩ := h
         first
          | exact hs
          | exact safe_append.2 ⟨hs, safe_read1 (by omega)⟩
          | exact safe_append.2 ⟨hs, safe_reads (l := [offset, offset])
              (by intro i hi; simp at hi; omega)⟩)
      | (refine ih _ _ _ _ _ h ?_
         exact safe_append.2 ⟨hs, safe_reads (l := [offset, offset, offset, offset])
              (by intro i hi; simp at hi; omega)⟩)
      | (refine validate_loop_safe _ _ _ _ _ _ _ _ _ _ _ _ h ?_
         exact safe_append.2 ⟨hs, safe_read1 (by omega)⟩)

/-- Enough fuel: `dns_name_skip` returns. -/
theorem skip_loop_terminates (px : Buffer) (max : Nat) :
    ∀ (fuel offset nl : Nat) (tr : Trace), (255 - nl) * 5 + 7 ≤ fuel →
      ∃ r tr', dns_name_skip_loop px max fuel offset nl tr = some (r, tr') := by
  intro fuel
  induction fuel with
  | zero => intro offset nl tr h; omega
  | succ fuel ih =>
    intro offset nl tr h
    rw [skip_loop_succ]
    split_ifs with c1 c2 c3 c4 c5
    all_goals first
      | exact ⟨_, _, rfl⟩
      | (apply ih; omega)
      | (apply validate_terminates; omega)

theorem skip_terminates (px : Buffer) (fuel offset max : Nat) (tr : Trace) (h : 1282 ≤ fuel) :
    ∃ r tr', dns_name_skip fuel px offset max tr = some (r, tr') :=
  skip_loop_terminates px max fuel offset 0 tr (by omega)

theorem skip_loop_value (px : Buffer) (max : Nat) (hmax : max + 64 < 4294967296) :
    ∀ (fuel offset nl : Nat) (tr : Trace) (r : Nat) (tr' : Trace),
      dns_name_skip_loop px max fuel offset nl tr = some (r, tr') →
      r = max + 1 ∨ (offset < r ∧ r ≤ max ∧ ∃ p, PlainReach px offset p ∧
        ((rd px p = 0 ∧ r = p + 1) ∨ (192 ≤ rd px p ∧ r = p + 2))) := by
  intro fuel
  induction fuel with
  | zero => intro offset nl tr r tr' h; simp [dns_name_skip_loop] at h
  | succ fuel ih =>
    intro offset nl tr r tr' h
    rw [skip_loop_succ, u32_of_lt (by omega : max + 1 < 4294967296)] at h
    split_ifs at h with c1 c2 c3 c4 c5
    · simp only [Option.some.injEq, Prod.mk.injEq] at h; left; exact h.1.symm
    · simp only [Option.some.injEq, Prod.mk.injEq] at h; left; exact h.1.symm
    · simp only [Option.some.injEq, Prod.mk.injEq] at h
      obtain ⟨rfl, -⟩ := h
      right
      exact ⟨by omega, by omega, offset, PlainReach.here _, Or.inl ⟨c4, rfl⟩⟩
    · rw [u32_of_lt (by omega)] at h
      rcases ih _ _ _ _ _ h with e | ⟨e1, e2, p, hp, e3⟩
      · left; exact e
      · right
        exact ⟨by omega, e2, p, PlainReach.label _ _ (by omega) c3 hp, e3⟩
    · simp only [Option.some.injEq, Prod.mk.injEq] at h; left; exact h.1.symm
    · rcases validate_at_pointer px fuel offset max nl _ r tr' hmax (by omega) h (by omega)
        with e | ⟨e1, e2⟩
      · left; exact e
      · right
        exact ⟨by omega, by omega, offset, PlainReach.here _, Or.inr ⟨by omega, e1⟩⟩

/-! ## The expand operation -/

theorem extract_loop_mono (px : Buffer) (max : Nat) :
    ∀ (fuel offset : Nat) (name : DomainPointer) (tr : Trace)
      (x : DomainPointer × Exit × Trace),
      dns_extract_name_loop px max fuel offset name tr = some x →
      dns_extract_name_loop px max (fuel + 1) offset name tr = some x := by
  intro fuel
  induction fuel with
  | zero => intro offset name tr x h; simp [dns_extract_name_loop] at h
  | succ fuel ih =>
    intro offset name tr x h
    rw [extract_loop_succ] at h
    rw [extract_loop_succ]
    by_cases c1 : max ≤ offset
    · simpa [c1] using h
    by_cases c2 : rd px offset < 64
    · by_cases c3 : rd px offset = 0
      · simpa [c1, c2, c3] using h
      · simp only [c1, c2, c3, if_true, if_false] at h ⊢
        exact ih _ _ _ _ h
    by_cases c4 : rd px offset < 192
    · simpa [c1, c2, c4] using h
    by_cases c5 : max ≤ offset + 1
    · simpa [c1, c2, c4, c5] using h
    · simp only [c1, c2, c4, c5, if_true, if_false] at h ⊢
      exact ih _ _ _ _ h

theorem extract_loop_mono_le (px : Buffer) (max : Nat) (fuel fuel' offset : Nat)
    (name : DomainPointer) (tr : Trace) (x : DomainPointer × Exit × Trace)
    (hle : fuel ≤ fuel')
    (h : dns_extract_name_loop px max fuel offset name tr = some x) :
    dns_extract_name_loop px max fuel' offset name tr = some x := by
  induction hle with
  | refl => exact h
  | step _ ih => exact extract_loop_mono _ _ _ _ _ _ _ ih

theorem validate_loop_head (px : Buffer) (length ERROR result : Nat)
    (fuel offset nl rec : Nat) (tr : Trace) (r : Nat) (tr' : Trace)
    (h : dns_name_skip_validate_loop px length ERROR result fuel offset nl rec tr = some (r, tr'))
    (hr : r ≠ ERROR) : nl < 255 ∧ offset < length := by
  cases fuel with
  | zero => simp [dns_name_skip_validate_loop] at h
  | succ fuel =>
    rw [validate_loop_succ] at h
    split_ifs at h with c1 c2
    · simp only [Option.some.injEq, Prod.mk.injEq] at h; exact absurd h.1.symm hr
    · simp only [Option.some.injEq, Prod.mk.injEq] at h; exact absurd h.1.symm hr
    all_goals omega

/-- A name the validating skip accepts is expanded by `dns_extract_name`
within the same fuel, up to its terminator, inside the packet and inside the
name buffer. -/
theorem validate_extract (px : Buffer) (max ERROR result cap : Nat)
    (hmax : max + 64 < 4294967296) :
    ∀ (fuel offset nl rec : Nat) (tr : Trace) (r : Nat) (tr' : Trace),
      dns_name_skip_validate_loop px max ERROR result fuel offset nl rec tr = some (r, tr') →
      r ≠ ERROR →
      ∀ (name : DomainPointer) (etr : Trace), name.length ≤ nl → Safe max cap etr →
        ∃ name' etr', dns_extract_name_loop px max fuel offset name etr
            = some (name', Exit.end_of_name, etr') ∧
          Safe max cap etr' ∧ name'.length < 255 := by
  intro fuel
  induction fuel with
  | zero => intro offset nl rec tr r tr' h; simp [dns_name_skip_validate_loop] at h
  | succ fuel ih =>
    intro offset nl rec tr r tr' h hr name etr hn hs
    have hb := rd_lt px offset
    rw [validate_loop_succ] at h
    rw [extract_loop_succ]
    by_cases c1 : 255 ≤ nl
    · simp only [c1, if_true, Option.some.injEq, Prod.mk.injEq] at h
      exact absurd h.1.symm hr
    by_cases c2 : max ≤ offset
    · simp only [c1, c2, if_true, if_false, Option.some.injEq, Prod.mk.injEq] at h
      exact absurd h.1.symm hr
    by_cases c3 : rd px offset < 64
    · by_cases c4 : rd px offset = 0
      · simp only [c2, c3, c4, if_true, if_false]
        exact ⟨_, _, rfl, safe_append.2 ⟨hs, safe_read1 (by omega)⟩, by omega⟩
      · simp only [c1, c2, c3, c4, if_true, if_false] at h ⊢
        have hh := validate_loop_head _ _ _ _ _ _ _ _ _ _ _ h hr
        rw [u32_of_lt (by omega)] at hh
        have hlen : (name.length + rd px offset + 1) % 256 = name.length + rd px offset + 1 :=
          Nat.mod_eq_of_lt (by omega)
        refine ih _ _ _ _ _ _ h hr _ _ ?_ ?_
        · simp only [hlen]; omega
        · refine safe_append.2 ⟨safe_append.2 ⟨safe_append.2 ⟨hs, safe_read1 (by omega)⟩,
            safe_reads_at (by omega)⟩, safe_name_writes_at (by omega)⟩
    by_cases c5 : rd px offset < 192
    · simp only [c1, c2, c3, c5, if_true, if_false, Option.some.injEq, Prod.mk.injEq] at h
      exact absurd h.1.symm hr
    by_cases c6 : max ≤ offset + 1
    · simp only [c1, c2, c3, c5, c6, if_true, if_false, Option.some.injEq, Prod.mk.injEq] at h
      exact absurd h.1.symm hr
    by_cases c7 : 4 ≤ rec
    · simp only [c1, c2, c3, c5, c6, c7, if_true, if_false, Option.some.injEq,
        Prod.mk.injEq] at h
      exact absurd h.1.symm hr
    · simp only [c1, c2, c3, c5, c6, c7, if_true, if_false] at h ⊢
      refine ih _ _ _ _ _ _ h hr _ _ hn ?_
      exact safe_append.2 ⟨hs, safe_reads (l := [offset, offset, offset + 1])
        (by intro i hi; simp at hi; omega)⟩

theorem skip_loop_head (px : Buffer) (max : Nat) (hmax : max + 64 < 4294967296)
    (fuel offset nl : Nat) (tr : Trace) (r : Nat) (tr' : Trace)
    (h : dns_name_skip_loop px max fuel offset nl tr = some (r, tr'))
    (hr : r ≤ max) : nl < 255 ∧ offset < max := by
  cases fuel with
  | zero => simp [dns_name_skip_loop] at h
  | succ fuel =>
    rw [skip_loop_succ, u32_of_lt (by omega : max + 1 < 4294967296)] at h
    split_ifs at h with c1 c2
    · simp only [Option.some.injEq, Prod.mk.injEq] at h; omega
    · simp only [Option.some.injEq, Prod.mk.injEq] at h; omega
    all_goals omega

/-- A name `dns_name_skip` accepts is expanded by `dns_extract_name` within
the same fuel, up to its terminator, inside the packet and inside the name
buffer. -/
theorem skip_extract (px : Buffer) (max cap : Nat) (hmax : max + 64 < 4294967296) :
    ∀ (fuel offset nl : Nat) (tr : Trace) (r : Nat) (tr' : Trace),
      dns_name_skip_loop px max fuel offset nl tr = some (r, tr') → r ≤ max →
      ∀ (name : DomainPointer) (etr : Trace), name.length ≤ nl → Safe max cap etr →
        ∃ name' etr', dns_extract_name_loop px max fuel offset name etr
            = some (name', Exit.end_of_name, etr') ∧
          Safe max cap etr' ∧ name'.length < 255 := by
  intro fuel
  induction fuel with
  | zero => intro offset nl tr r tr' h; simp [dns_name_skip_loop] at h
  | succ fuel ih =>
    intro offset nl tr r tr' h hr name etr hn hs
    have hb := rd_lt px offset
    have hE : u32 (max + 1) = max + 1 := u32_of_lt (by omega)
    rw [skip_loop_succ, hE] at h
    by_cases c1 : 255 ≤ nl
    · simp only [c1, if_true, Option.some.injEq, Prod.mk.injEq] at h; omega
    by_cases c2 : max ≤ offset
    · simp only [c1, c2, if_true, if_false, Option.some.injEq, Prod.mk.injEq] at h; omega
    by_cases c3 : rd px offset < 64
    · rw [extract_loop_succ]
      by_cases c4 : rd px offset = 0
      · simp only [c2, c3, c4, if_true, if_false]
        exact ⟨_, _, rfl, safe_append.2 ⟨hs, safe_read1 (by omega)⟩, by omega⟩
      · simp only [c1, c2, c3, c4, if_true, if_false] at h ⊢
        have hh := skip_loop_head _ _ hmax _ _ _ _ _ _ h hr
        rw [u32_of_lt (by omega)] at hh
        have hlen : (name.length + rd px offset + 1) % 256 = name.length + rd px offset + 1 :=
          Nat.mod_eq_of_lt (by omega)
        refine ih _ _ _ _ _ h hr _ _ ?_ ?_
        · simp only [hlen]; omega
        · refine safe_append.2 ⟨safe_append.2 ⟨safe_append.2 ⟨hs, safe_read1 (by omega)⟩,
            safe_reads_at (by omega)⟩, safe_name_writes_at (by omega)⟩
    by_cases c5 : rd px offset < 192
    · simp only [c1, c2, c3, c5, if_true, if_false, Option.some.injEq, Prod.mk.injEq] at h
      omega
    · simp only [c1, c2, c3, c5, if_true, if_false] at h
      unfold dns_name_skip_validate at h
      rw [hE] at h
      obtain ⟨name', etr', h1, h2, h3⟩ :=
        validate_extract px max _ _ cap hmax _ _ _ _ _ _ _ h (by omega) name etr hn hs
      exact ⟨name', etr', extract_loop_mono _ _ _ _ _ _ _ h1, h2, h3⟩

/-! ## The message parser: termination and memory safety -/

@[simp] theorem flow_dns_returned (d : DNS_Incoming) (t : Trace) :
    (Flow.returned d t).dns = d := rfl

@[simp] theorem flow_dns_continues (d : DNS_Incoming) (o : Nat) (t : Trace) :
    (Flow.continues d o t).dns = d := rfl

@[simp] theorem flow_trace_returned (d : DNS_Incoming) (t : Trace) :
    (Flow.returned d t).trace = t := rfl

@[simp] theorem flow_trace_continues (d : DNS_Incoming) (o : Nat) (t : Trace) :
    (Flow.continues d o t).trace = t := rfl

theorem shl8_or (a b : Nat) (hb : b < 256) : (a <<< 8) ||| b = a * 256 + b := by
  have h2 := Nat.mul_add_lt_is_or (i := 8) (b := b) (by simpa using hb) a
  rw [Nat.shiftLeft_eq, Nat.mul_comm]
  exact h2.symm

theorem be16_lt (px : Buffer) (i j : Nat) : (rd px i <<< 8) ||| rd px j < 65536 := by
  have h1 := rd_lt px i
  have h2 := rd_lt px j
  rw [shl8_or _ _ h2]
  omega

theorem getD_set_succ (l : List Nat) (k v : Nat) (hk : 0 < k) :
    (l.set k v).getD 0 0 = l.getD 0 0 := by
  cases l with
  | nil => rfl
  | cons a t =>
    cases k with
    | zero => omega
    | succ k => rfl

theorem getD_set_zero (l : List Nat) (v : Nat) (hl : 0 < l.length) :
    (l.set 0 v).getD 0 0 = v := by
  cases l with
  | nil => simp at hl
  | cons a t => rfl

theorem skip_value (px : Buffer) (fuel offset max : Nat) (tr : Trace) (r : Nat) (tr' : Trace)
    (hmax : max + 64 < 4294967296)
    (h : dns_name_skip fuel px offset max tr = some (r, tr')) :
    r = max + 1 ∨ (offset < r ∧ r ≤ max) := by
  rcases skip_loop_value px max hmax _ _ _ _ _ _ h with e | ⟨e1, e2, -⟩
  · left; exact e
  · right; exact ⟨e1, e2⟩

theorem skip_safe (px : Buffer) (fuel offset max cap : Nat) (tr : Trace) (r : Nat)
    (tr' : Trace) (h : dns_name_skip fuel px offset max tr = some (r, tr'))
    (hs : Safe max cap tr) : Safe max cap tr' :=
  skip_loop_safe px max cap _ _ _ _ _ _ h hs

theorem safe_rr_write {max cap i : Nat} (h : i < cap) : Safe max cap [Access.rr_write i] := by
  intro a ha
  simp only [List.mem_singleton] at ha
  subst ha
  simpa [Access.in_bounds] using h

theorem question_loop_terminates (px : Buffer) (fuel max : Nat) (hf : 1282 ≤ fuel) :
    ∀ (n : Nat) (dns : DNS_Incoming) (offset : Nat) (tr : Trace),
      ∃ fl, question_loop fuel px max n dns offset tr = some fl := by
  intro n
  induction n with
  | zero => intro dns offset tr; exact ⟨_, rfl⟩
  | succ n ih =>
    intro dns offset tr
    obtain ⟨r, tr1, hs⟩ := skip_terminates px fuel offset max
      (tr ++ [Access.rr_write dns.rr_count]) hf
    simp only [question_loop, hs]
    split_ifs
    · exact ⟨_, rfl⟩
    · exact ⟨_, rfl⟩
    · exact ⟨_, rfl⟩
    · exact ih _ _ _

theorem question_loop_inv (px : Buffer) (fuel max cap : Nat) (hmax : max ≤ 65535) :
    ∀ (n : Nat) (dns : DNS_Incoming) (offset : Nat) (tr : Trace) (fl : Flow),
      question_loop fuel px max n dns offset tr = some fl →
      Safe max cap tr → dns.rr_offset.length = cap → offset ≤ max + 65535 →
      FlowInv max cap dns fl := by
  intro n
  induction n with
  | zero =>
    intro dns offset tr fl h hs hc ho
    simp only [question_loop, Option.some.injEq] at h
    subst h
    refine ⟨hs, hc, le_refl _, fun _ => rfl, ?_⟩
    intro d o t e
    simp only [Flow.continues.injEq] at e
    omega
  | succ n ih =>
    intro dns offset tr fl h hs hc ho
    rw [question_loop] at h
    by_cases c1 : dns.rr_count ≥ MAX_RRs dns
    · simp only [c1, if_true, Option.some.injEq] at h
      subst h
      exact ⟨hs, hc, le_refl _, fun _ => rfl, by intro d o t e; cases e⟩
    simp only [c1, if_false] at h
    have hlt : dns.rr_count < cap := by unfold MAX_RRs at c1; omega
    cases hsk : dns_name_skip fuel px offset max (tr ++ [Access.rr_write dns.rr_count]) with
    | none => simp [hsk] at h
    | some res =>
      obtain ⟨r, tr1⟩ := res
      simp only [hsk] at h
      have hs1 : Safe max cap tr1 :=
        skip_safe _ _ _ _ _ _ _ _ hsk (safe_append.2 ⟨hs, safe_rr_write hlt⟩)
      have hv := skip_value _ _ _ _ _ _ _ (by omega) hsk
      have hu : u32 (r + 4) = r + 4 := u32_of_lt (by omega)
      have hkeep : ∀ v, 0 < dns.rr_count →
          (dns.rr_offset.set dns.rr_count v).getD 0 0 = dns.rr_offset.getD 0 0 :=
        fun v hpos => getD_set_succ _ _ _ hpos
      rw [hu] at h
      split_ifs at h with c2 c3
      · simp only [Option.some.injEq] at h
        subst h
        exact ⟨hs1, by simpa using hc, by simp, fun hp => hkeep _ hp,
          by intro d o t e; cases e⟩
      · simp only [Option.some.injEq] at h
        subst h
        have e2 : u32sub (r + 4) 2 = r + 2 := by unfold u32sub; omega
        have e1 : u32sub (r + 4) 1 = r + 3 := by unfold u32sub; omega
        refine ⟨?_, by simpa using hc, by simp, fun hp => hkeep _ hp,
          by intro d o t e; cases e⟩
        simp only [flow_trace_returned, e1, e2]
        exact safe_append.2 ⟨hs1, safe_reads (l := [r + 2, r + 3])
          (by intro i hi; simp at hi; omega)⟩
      · have e2 : u32sub (r + 4) 2 = r + 2 := by unfold u32sub; omega
        have e1 : u32sub (r + 4) 1 = r + 3 := by unfold u32sub; omega
        have e4 : u32sub (r + 4) 4 = r := by unfold u32sub; omega
        have e3 : u32sub (r + 4) 3 = r + 1 := by unfold u32sub; omega
        simp only [e1, e2, e3, e4] at h
        have := ih _ _ _ _ h
          (safe_append.2 ⟨safe_append.2 ⟨hs1, safe_reads (l := [r + 2, r + 3])
            (by intro i hi; simp at hi; omega)⟩, safe_reads (l := [r, r + 1])
            (by intro i hi; simp at hi; omega)⟩)
          (by simpa using hc) (by omega)
        obtain ⟨i1, i2, i3, i4, i5⟩ := this
        refine ⟨i1, i2, ?_, ?_, i5⟩
        · simp only at i3; omega
        · intro hp
          rw [i4 (by simp)]
          exact hkeep _ hp

theorem answer_loop_terminates (px : Buffer) (fuel max : Nat) (hf : 1282 ≤ fuel) :
    ∀ (n : Nat) (dns : DNS_Incoming) (offset : Nat) (tr : Trace),
      ∃ fl, answer_loop fuel px max n dns offset tr = some fl := by
  intro n
  induction n with
  | zero => intro dns offset tr; exact ⟨_, rfl⟩
  | succ n ih =>
    intro dns offset tr
    obtain ⟨r, tr1, hs⟩ := skip_terminates px fuel offset max
      (tr ++ [Access.rr_write dns.rr_count]) hf
    simp only [answer_loop, hs]
    split_ifs
    · exact ⟨_, rfl⟩
    · exact ⟨_, rfl⟩
    · exact ⟨_, rfl⟩
    · exact ih _ _ _

theorem answer_loop_inv (px : Buffer) (fuel max cap : Nat) (hmax : max ≤ 65535) :
    ∀ (n : Nat) (dns : DNS_Incoming) (offset : Nat) (tr : Trace) (fl : Flow),
      answer_loop fuel px max n dns offset tr = some fl →
      Safe max cap tr → dns.rr_offset.length = cap → offset ≤ max + 65535 →
      FlowInv max cap dns fl := by
  intro n
  induction n with
  | zero =>
    intro dns offset tr fl h hs hc ho
    simp only [answer_loop, Option.some.injEq] at h
    subst h
    refine ⟨hs, hc, le_refl _, fun _ => rfl, ?_⟩
    intro d o t e
    simp only [Flow.continues.injEq] at e
    omega
  | succ n ih =>
    intro dns offset tr fl h hs hc ho
    rw [answer_loop] at h
    by_cases c1 : dns.rr_count ≥ MAX_RRs dns
    · simp only [c1, if_true, Option.some.injEq] at h
      subst h
      exact ⟨hs, hc, le_refl _, fun _ => rfl, by intro d o t e; cases e⟩
    simp only [c1, if_false] at h
    have hlt : dns.rr_count < cap := by unfold MAX_RRs at c1; omega
    cases hsk : dns_name_skip fuel px offset max (tr ++ [Access.rr_write dns.rr_count]) with
    | none => simp [hsk] at h
    | some res =>
      obtain ⟨r, tr1⟩ := res
      simp only [hsk] at h
      have hs1 : Safe max cap tr1 :=
        skip_safe _ _ _ _ _ _ _ _ hsk (safe_append.2 ⟨hs, safe_rr_write hlt⟩)
      have hv := skip_value _ _ _ _ _ _ _ (by omega) hsk
      have hu : u32 (r + 10) = r + 10 := u32_of_lt (by omega)
      have hkeep : ∀ v, 0 < dns.rr_count →
          (dns.rr_offset.set dns.rr_count v).getD 0 0 = dns.rr_offset.getD 0 0 :=
        fun v hpos => getD_set_succ _ _ _ hpos
      rw [hu] at h
      have e2 : u32sub (r + 10) 2 = r + 8 := by unfold u32sub; omega
      have e1 : u32sub (r + 10) 1 = r + 9 := by unfold u32sub; omega
      simp only [e1, e2] at h
      have hrl := be16_lt px (r + 8) (r + 9)
      by_cases c2 : r + 10 > max
      · simp only [c2, if_true, Option.some.injEq] at h
        subst h
        exact ⟨hs1, by simpa using hc, by simp, fun hp => hkeep _ hp,
          by intro d o t e; cases e⟩
      simp only [c2, if_false] at h
      have hs2 : Safe max cap (tr1 ++ [Access.read (r + 8), Access.read (r + 9)]) :=
        safe_append.2 ⟨hs1, safe_reads (l := [r + 8, r + 9])
          (by intro i hi; simp at hi; omega)⟩
      have hu2 : u32 (r + 10 + ((rd px (r + 8) <<< 8) ||| rd px (r + 9)))
          = r + 10 + ((rd px (r + 8) <<< 8) ||| rd px (r + 9)) := u32_of_lt (by omega)
      rw [hu2] at h
      split_ifs at h with c3
      · simp only [Option.some.injEq] at h
        subst h
        refine ⟨hs2, by simpa using hc, by simp, fun hp => hkeep _ hp, ?_⟩
        intro d o t e
        simp only [Flow.continues.injEq] at e
        omega
      · obtain ⟨i1, i2, i3, i4, i5⟩ := ih _ _ _ _ h hs2 (by simpa using hc) (by omega)
        refine ⟨i1, i2, ?_, ?_, i5⟩
        · simp only at i3; omega
        · intro hp
          rw [i4 (by simp)]
          exact hkeep _ hp

theorem opt_record_inv (px : Buffer) (offset max cap : Nat) (dns : DNS_Incoming) (tr : Trace)
    (ho : offset ≤ max + 65535) (hmax : max ≤ 65535) (hs : Safe max cap tr) :
    Safe max cap (opt_record px offset max dns tr).trace ∧
      (opt_record px offset max dns tr).dns.rr_offset = dns.rr_offset ∧
      (opt_record px offset max dns tr).dns.rr_count = dns.rr_count ∧
      ∀ d o t, opt_record px offset max dns tr = Flow.continues d o t → o = offset := by
  have hu : ∀ k, k ≤ 11 → u32 (offset + k) = offset + k := fun k hk => u32_of_lt (by omega)
  have hs1 : Safe max cap (tr ++ opt_test_reads px offset max) := by
    refine safe_append.2 ⟨hs, ?_⟩
    unfold opt_test_reads
    rw [hu 11 (by omega), hu 1 (by omega), hu 2 (by omega)]
    split_ifs
    · exact safe_reads (l := [offset, offset + 1, offset + 2])
        (by intro i hi; simp at hi; omega)
    · exact safe_reads (l := [offset, offset + 1]) (by intro i hi; simp at hi; omega)
    · exact safe_reads (l := [offset]) (by intro i hi; simp at hi; omega)
    · exact safe_nil _ _
  simp only [opt_record, hu 11 (by omega), hu 3 (by omega), hu 4 (by omega),
    hu 5 (by omega), hu 6 (by omega)]
  split_ifs with c1 c2
  · refine ⟨?_, rfl, rfl, by intro d o t e; cases e⟩
    exact safe_append.2 ⟨hs1, safe_reads (l := [offset + 3, offset + 4])
      (by intro i hi; simp at hi; omega)⟩
  · refine ⟨?_, rfl, rfl, by intro d o t e; simp only [Flow.continues.injEq] at e; omega⟩
    exact safe_append.2 ⟨safe_append.2 ⟨hs1, safe_reads (l := [offset + 3, offset + 4])
      (by intro i hi; simp at hi; omega)⟩, safe_reads (l := [offset + 5, offset + 6])
      (by intro i hi; simp at hi; omega)⟩
  · exact ⟨hs1, rfl, rfl, by intro d o t e; simp only [Flow.continues.injEq] at e; omega⟩

theorem additional_loop_terminates (px : Buffer) (fuel max : Nat) (hf : 1282 ≤ fuel) :
    ∀ (n : Nat) (dns : DNS_Incoming) (offset : Nat) (tr : Trace),
      ∃ fl, additional_loop fuel px max n dns offset tr = some fl := by
  intro n
  induction n with
  | zero => intro dns offset tr; exact ⟨_, rfl⟩
  | succ n ih =>
    intro dns offset tr
    rw [additional_loop]
    by_cases c1 : dns.rr_count ≥ MAX_RRs dns
    · simp only [c1, if_true]; exact ⟨_, rfl⟩
    simp only [c1, if_false]
    generalize opt_record px offset max _ _ = fl0
    cases fl0 with
    | returned d t => exact ⟨_, rfl⟩
    | continues d o t =>
      obtain ⟨r, tr1, hs⟩ := skip_terminates px fuel offset max t hf
      simp only [hs]
      split_ifs
      · exact ⟨_, rfl⟩
      · exact ⟨_, rfl⟩
      · exact ih _ _ _

theorem additional_loop_inv (px : Buffer) (fuel max cap : Nat) (hmax : max ≤ 65535) :
    ∀ (n : Nat) (dns : DNS_Incoming) (offset : Nat) (tr : Trace) (fl : Flow),
      additional_loop fuel px max n dns offset tr = some fl →
      Safe max cap tr → dns.rr_offset.length = cap → offset ≤ max + 65535 →
      FlowInv max cap dns fl := by
  intro n
  induction n with
  | zero =>
    intro dns offset tr fl h hs hc ho
    simp only [additional_loop, Option.some.injEq] at h
    subst h
    refine ⟨hs, hc, le_refl _, fun _ => rfl, ?_⟩
    intro d o t e
    simp only [Flow.continues.injEq] at e
    omega
  | succ n ih =>
    intro dns offset tr fl h hs hc ho
    rw [additional_loop] at h
    by_cases c1 : dns.rr_count ≥ MAX_RRs dns
    · simp only [c1, if_true, Option.some.injEq] at h
      subst h
      exact ⟨hs, hc, le_refl _, fun _ => rfl, by intro d o t e; cases e⟩
    simp only [c1, if_false] at h
    have hlt : dns.rr_count < cap := by unfold MAX_RRs at c1; omega
    have hkeep : ∀ v, 0 < dns.rr_count →
        (dns.rr_offset.set dns.rr_count v).getD 0 0 = dns.rr_offset.getD 0 0 :=
      fun v hpos => getD_set_succ _ _ _ hpos
    obtain ⟨o1, o2, o3, -⟩ := opt_record_inv px offset max cap
      { dns with
        rr_offset := dns.rr_offset.set dns.rr_count (offset % 65536)
        rr_count := dns.rr_count + 1 }
      (tr ++ [Access.rr_write dns.rr_count]) ho hmax
      (safe_append.2 ⟨hs, safe_rr_write hlt⟩)
    generalize opt_record px offset max _ _ = fl0 at h o1 o2 o3
    cases fl0 with
    | returned d t =>
      simp only [Option.some.injEq] at h
      subst h
      simp only [flow_dns_returned, flow_trace_returned] at o1 o2 o3
      refine ⟨o1, ?_, ?_, ?_, by intro d o t e; cases e⟩
      · simp only [flow_dns_returned, o2]; simpa using hc
      · simp only [flow_dns_returned, o3]; omega
      · intro hp; simp only [flow_dns_returned, o2]; exact hkeep _ hp
    | continues d o t =>
      simp only [flow_dns_continues, flow_trace_continues] at o1 o2 o3
      simp only at h
      cases hsk : dns_name_skip fuel px offset max t with
      | none => simp [hsk] at h
      | some res =>
        obtain ⟨r, tr1⟩ := res
        simp only [hsk] at h
        have hs1 : Safe max cap tr1 := skip_safe _ _ _ _ _ _ _ _ hsk o1
        have hv := skip_value _ _ _ _ _ _ _ (by omega) hsk
        have hu : u32 (r + 10) = r + 10 := u32_of_lt (by omega)
        rw [hu] at h
        have e2 : u32sub (r + 10) 2 = r + 8 := by unfold u32sub; omega
        have e1 : u32sub (r + 10) 1 = r + 9 := by unfold u32sub; omega
        simp only [e1, e2] at h
        have hrl := be16_lt px (r + 8) (r + 9)
        have hd0 : 0 < dns.rr_count → d.rr_offset.getD 0 0 = dns.rr_offset.getD 0 0 := by
          intro hp; rw [o2]; exact hkeep _ hp
        have hdl : d.rr_offset.length = cap := by rw [o2]; simpa using hc
        by_cases c2 : r + 10 > max
        · simp only [c2, if_true, Option.some.injEq] at h
          subst h
          exact ⟨hs1, hdl, by simp only [flow_dns_returned, o3]; omega, hd0,
            by intro d o t e; cases e⟩
        simp only [c2, if_false] at h
        have hs2 : Safe max cap (tr1 ++ [Access.read (r + 8), Access.read (r + 9)]) :=
          safe_append.2 ⟨hs1, safe_reads (l := [r + 8, r + 9])
            (by intro i hi; simp at hi; omega)⟩
        have hu2 : u32 (r + 10 + ((rd px (r + 8) <<< 8) ||| rd px (r + 9)))
            = r + 10 + ((rd px (r + 8) <<< 8) ||| rd px (r + 9)) := u32_of_lt (by omega)
        rw [hu2] at h
        split_ifs at h with c3
        · simp only [Option.some.injEq] at h
          subst h
          exact ⟨hs2, hdl, by simp only [flow_dns_returned, o3]; omega, hd0,
            by intro d o t e; cases e⟩
        · obtain ⟨i1, i2, i3, i4, i5⟩ := ih _ _ _ _ h hs2 hdl (by omega)
          refine ⟨i1, i2, ?_, ?_, i5⟩
          · rw [o3] at i3; omega
          · intro hp
            rw [i4 (by rw [o3]; omega)]
            exact hd0 hp

/-- The first iteration of the question loop: when the loop is left normally,
the first table entry is the offset the loop started at, and the name there was
accepted by `dns_name_skip`. -/
theorem question_loop_first (px : Buffer) (fuel max cap : Nat) (hmax : max ≤ 65535)
    (n : Nat) (dns : DNS_Incoming) (offset : Nat) (tr : Trace)
    (d : DNS_Incoming) (o : Nat) (t : Trace)
    (h : question_loop fuel px max (n + 1) dns offset tr = some (Flow.continues d o t))
    (hs : Safe max cap tr) (hc : dns.rr_offset.length = cap) (ho : offset ≤ 65535)
    (h0 : dns.rr_count = 0) :
    d.rr_offset.getD 0 0 = offset ∧ 0 < d.rr_count ∧
      ∃ r t1 t2, dns_name_skip fuel px offset max t1 = some (r, t2) ∧ r ≤ max := by
  rw [question_loop] at h
  by_cases c1 : dns.rr_count ≥ MAX_RRs dns
  · simp [c1] at h
  simp only [c1, if_false] at h
  have hlt : dns.rr_count < cap := by unfold MAX_RRs at c1; omega
  cases hsk : dns_name_skip fuel px offset max (tr ++ [Access.rr_write dns.rr_count]) with
  | none => simp [hsk] at h
  | some res =>
    obtain ⟨r, tr1⟩ := res
    simp only [hsk] at h
    have hs1 : Safe max cap tr1 :=
      skip_safe _ _ _ _ _ _ _ _ hsk (safe_append.2 ⟨hs, safe_rr_write hlt⟩)
    have hv := skip_value _ _ _ _ _ _ _ (by omega) hsk
    have hu : u32 (r + 4) = r + 4 := u32_of_lt (by omega)
    rw [hu] at h
    split_ifs at h with c2 c3
    · simp at h
    · simp at h
    · have e2 : u32sub (r + 4) 2 = r + 2 := by unfold u32sub; omega
      have e1 : u32sub (r + 4) 1 = r + 3 := by unfold u32sub; omega
      have e4 : u32sub (r + 4) 4 = r := by unfold u32sub; omega
      have e3 : u32sub (r + 4) 3 = r + 1 := by unfold u32sub; omega
      simp only [e1, e2, e3, e4] at h
      obtain ⟨-, -, i3, i4, -⟩ := question_loop_inv px fuel max cap hmax _ _ _ _ _ h
        (safe_append.2 ⟨safe_append.2 ⟨hs1, safe_reads (l := [r + 2, r + 3])
          (by intro i hi; simp at hi; omega)⟩, safe_reads (l := [r, r + 1])
          (by intro i hi; simp at hi; omega)⟩)
        (by simpa using hc) (by omega)
      simp only [flow_dns_continues] at i3 i4
      refine ⟨?_, by omega, r, _, _, hsk, by omega⟩
      rw [i4 (by omega), h0]
      rw [getD_set_zero _ _ (by omega)]
      omega

theorem header_reads_safe (offset max cap : Nat) (h : offset + 12 ≤ max)
    (hmax : max < 4294967296) : Safe max cap (header_reads offset) := by
  intro a ha
  simp only [header_reads, List.mem_map] at ha
  obtain ⟨k, hk, rfl⟩ := ha
  have hk' : k ≤ 11 := by
    simp at hk
    omega
  rw [u32_of_lt (by omega)]
  simp only [Access.in_bounds, decide_eq_true_eq]
  omega

/-- After a name that `dns_name_skip` accepted at the first table entry, the
end of the parser returns and stays in bounds. -/
theorem parse_finish_safe (px : Buffer) (fuel max cap : Nat) (hmax : max ≤ 65535)
    (dns : DNS_Incoming) (tr : Trace) (hs : Safe max cap tr)
    (r : Nat) (t1 t2 : Trace)
    (hsk : dns_name_skip fuel px (dns.rr_offset.getD 0 0) max t1 = some (r, t2))
    (hr : r ≤ max) :
    ∃ dns' tr', parse_finish fuel px max dns tr = some (dns', tr') ∧ Safe max cap tr' ∧
      dns'.is_formerr = false ∧ dns'.query_name.length < 255 := by
  obtain ⟨name', etr', h1, h2, h3⟩ := skip_extract px max cap (by omega) _ _ _ _ _ _ hsk hr
    { name := dns.query_name_buffer, length := 0 } tr (le_refl _) hs
  refine ⟨{ dns with
      query_name := name'
      query_name_buffer := name'.name
      is_formerr := false }, etr', ?_, h2, rfl, h3⟩
  simp only [parse_finish, dns_extract_name, h1]

theorem parse_sections_safe (px : Buffer) (fuel max cap : Nat) (hf : 1282 ≤ fuel)
    (hmax : max ≤ 65535) (dns : DNS_Incoming) (offset : Nat) (tr : Trace)
    (hs : Safe max cap tr) (hc : dns.rr_offset.length = cap) (ho : offset ≤ max)
    (h0 : dns.rr_count = 0) :
    ∃ dns' tr', parse_sections fuel px max dns offset tr = some (dns', tr') ∧
      Safe max cap tr' := by
  unfold parse_sections
  by_cases c0 : dns.qdcount = 0
  · simp only [c0, if_true]
    exact ⟨_, _, rfl, hs⟩
  simp only [c0, if_false]
  obtain ⟨n, hn⟩ : ∃ n, dns.qdcount = n + 1 := ⟨dns.qdcount - 1, by omega⟩
  obtain ⟨fl1, hq⟩ := question_loop_terminates px fuel max hf dns.qdcount dns offset tr
  have inv1 := question_loop_inv px fuel max cap hmax _ _ _ _ _ hq hs hc (by omega)
  rw [hq]
  cases fl1 with
  | returned d1 t1 => exact ⟨_, _, rfl, inv1.1⟩
  | continues d1 o1 t1 =>
    rw [hn] at hq
    obtain ⟨f1, f2, r, u1, u2, f3, f4⟩ :=
      question_loop_first px fuel max cap hmax n dns offset tr d1 o1 t1 hq hs hc (by omega) h0
    obtain ⟨i1, i2, -, -, i5⟩ := inv1
    simp only [flow_dns_continues, flow_trace_continues] at i1 i2
    have ho1 : o1 ≤ max + 65535 := i5 _ _ _ rfl
    simp only
    obtain ⟨fl2, ha⟩ := answer_loop_terminates px fuel max hf (d1.ancount + d1.nscount) d1 o1 t1
    obtain ⟨j1, j2, j3, j4, j5⟩ := answer_loop_inv px fuel max cap hmax _ _ _ _ _ ha i1 i2 ho1
    rw [ha]
    cases fl2 with
    | returned d2 t2 => exact ⟨_, _, rfl, j1⟩
    | continues d2 o2 t2 =>
      simp only [flow_dns_continues, flow_trace_continues] at j1 j2 j3 j4
      have ho2 : o2 ≤ max + 65535 := j5 _ _ _ rfl
      simp only
      obtain ⟨fl3, hd⟩ := additional_loop_terminates px fuel max hf d2.arcount d2 o2 t2
      obtain ⟨k1, k2, k3, k4, -⟩ :=
        additional_loop_inv px fuel max cap hmax _ _ _ _ _ hd j1 j2 ho2
      rw [hd]
      cases fl3 with
      | returned d3 t3 => exact ⟨_, _, rfl, k1⟩
      | continues d3 o3 t3 =>
        simp only [flow_dns_continues, flow_trace_continues] at k1 k2 k3 k4
        simp only
        have e0 : d3.rr_offset.getD 0 0 = offset := by
          rw [k4 (by omega), j4 f2, f1]
        obtain ⟨dns', tr', p1, p2, -⟩ := parse_finish_safe px fuel max cap hmax d3 t3 k1 r u1 u2
          (by rw [e0]; exact f3) f4
        exact ⟨dns', tr', p1, p2⟩

theorem parse_safe (fuel : Nat) (dns : DNS_Incoming) (px : Buffer) (offset max : Nat)
    (hf : 1282 ≤ fuel) (hmax : max ≤ 65535) (ho : offset ≤ max) :
    ∃ dns' tr, proto_dns_parse fuel dns px offset max [] = some (dns', tr) ∧
      Safe max (MAX_RRs dns) tr := by
  have hsub : u32sub max offset = max - offset := by unfold u32sub; omega
  unfold proto_dns_parse
  simp only [hsub]
  by_cases c : max - offset < 12
  · simp only [c, if_true]
    exact ⟨_, _, rfl, safe_nil _ _⟩
  simp only [c, if_false]
  rw [u32_of_lt (by omega)]
  exact parse_sections_safe px fuel max _ hf hmax _ _ _
    (safe_append.2 ⟨safe_nil _ _, header_reads_safe _ _ _ (by omega) (by omega)⟩)
    rfl (by omega) rfl

/-- C1: for every packet, every bound `max ≤ 65535` and every start offset
`offset ≤ max`, `proto_dns_parse` terminates (any fuel from 1282 on gives a
result) and stays in bounds: every index of `px` it reads, directly or inside
`dns_name_skip`, `dns_name_skip_validate` and `dns_extract_name`, is below
`max`; every index of the record-offset table it writes is below the capacity
of the table; every byte it writes into the question-name buffer is at an
index below 255. -/
theorem proto_dns_parse_in_bounds (fuel : Nat) (dns : DNS_Incoming) (px : Buffer)
    (offset max : Nat) (hf : 1282 ≤ fuel) (hmax : max ≤ 65535) (ho : offset ≤ max) :
    ∃ dns' tr, proto_dns_parse fuel dns px offset max [] = some (dns', tr) ∧
      (∀ i, Access.read i ∈ tr → i < max) ∧
      (∀ i, Access.rr_write i ∈ tr → i < MAX_RRs dns) ∧
      (∀ i, Access.name_write i ∈ tr → i < 255) := by
  obtain ⟨d, t, h1, h2⟩ := parse_safe fuel dns px offset max hf hmax ho
  refine ⟨d, t, h1, ?_, ?_, ?_⟩
  · intro i hi; simpa [Access.in_bounds] using h2 _ hi
  · intro i hi; simpa [Access.in_bounds] using h2 _ hi
  · intro i hi; simpa [Access.in_bounds] using h2 _ hi

/-- Witness of C1: the minimal query, at offset 0 with bound 29. -/
theorem proto_dns_parse_in_bounds_witness :
    ∃ dns' tr, proto_dns_parse 1282 (blank 64) (buf minimal_query) 0 29 [] = some (dns', tr) ∧
      (∀ i, Access.read i ∈ tr → i < 29) ∧
      (∀ i, Access.rr_write i ∈ tr → i < MAX_RRs (blank 64)) ∧
      (∀ i, Access.name_write i ∈ tr → i < 255) :=
  proto_dns_parse_in_bounds 1282 (blank 64) (buf minimal_query) 0 29 (by decide) (by decide)
    (by decide)

/-! ## Uncompressed names and the single-question message (C2, C3) -/

theorem bytes_at_length (px : Buffer) (o n : Nat) : (bytes_at px o n).length = n := by
  simp [bytes_at]

theorem bytes_at_succ (px : Buffer) (o n : Nat) :
    bytes_at px o (n + 1) = rd px o :: bytes_at px (o + 1) n := by
  simp only [bytes_at, List.range_succ_eq_map, List.map_cons, List.map_map, Nat.add_zero]
  congr 1
  apply List.map_congr_left
  intro k _
  simp only [Function.comp_apply]
  congr 1
  omega

theorem bytes_at_add (px : Buffer) (o m n : Nat) :
    bytes_at px o (m + n) = bytes_at px o m ++ bytes_at px (o + m) n := by
  induction m generalizing o with
  | zero => simp [bytes_at]
  | succ m ih =>
    rw [show m + 1 + n = (m + n) + 1 by omega, bytes_at_succ, bytes_at_succ, ih]
    simp only [List.cons_append]
    congr 3
    omega

theorem bytes_at_append (px : Buffer) (o : Nat) (a b : List Nat)
    (h : bytes_at px o (a ++ b).length = a ++ b) :
    bytes_at px o a.length = a ∧ bytes_at px (o + a.length) b.length = b := by
  rw [List.length_append, bytes_at_add] at h
  exact List.append_inj h (bytes_at_length _ _ _)

theorem bytes_at_cons (px : Buffer) (o : Nat) (x : Nat) (b : List Nat)
    (h : bytes_at px o (x :: b).length = x :: b) :
    rd px o = x ∧ bytes_at px (o + 1) b.length = b := by
  rw [List.length_cons, bytes_at_succ] at h
  simp only [List.cons.injEq] at h
  exact h

theorem encode_labels_cons_length (l : List Nat) (ls : List (List Nat)) :
    (encode_labels (l :: ls)).length = l.length + 1 + (encode_labels ls).length := by
  simp [encode_labels]
  omega

/-- Over uncompressed labels `dns_name_skip` advances label by label. -/
theorem skip_loop_labels (px : Buffer) (max : Nat) (hmax : max < 4294967296) :
    ∀ (ls : List (List Nat)) (k offset nl : Nat) (tr : Trace),
      valid_labels ls →
      bytes_at px offset (encode_labels ls).length = encode_labels ls →
      nl + (encode_labels ls).length ≤ 255 →
      offset + (encode_labels ls).length ≤ max →
      ∃ tr', dns_name_skip_loop px max (ls.length + k) offset nl tr =
        dns_name_skip_loop px max k (offset + (encode_labels ls).length)
          (nl + (encode_labels ls).length) tr' := by
  intro ls
  induction ls with
  | nil =>
    intro k offset nl tr _ _ _ _
    exact ⟨tr, by simp [encode_labels]⟩
  | cons l ls ih =>
    intro k offset nl tr hv hb hn ho
    have hl := hv l (List.mem_cons_self _ _)
    have hlen := encode_labels_cons_length l ls
    have hb' : bytes_at px offset ((l.length :: l) ++ encode_labels ls).length
        = (l.length :: l) ++ encode_labels ls := hb
    obtain ⟨h1, h2⟩ := bytes_at_append _ _ _ _ hb'
    obtain ⟨h3, -⟩ := bytes_at_cons _ _ _ _ h1
    simp only [List.length_cons] at h2
    rw [show (l :: ls).length + k = (ls.length + k) + 1 by simp; omega, skip_loop_succ]
    have c1 : ¬ 255 ≤ nl := by omega
    have c2 : ¬ max ≤ offset := by omega
    have c3 : rd px offset < 64 := by omega
    have c4 : ¬ rd px offset = 0 := by omega
    simp only [c1, c2, c3, c4, if_true, if_false]
    rw [h3, u32_of_lt (by omega)]
    obtain ⟨tr', e⟩ := ih k (offset + (l.length + 1)) (nl + (l.length + 1)) _
      (fun x hx => hv x (List.mem_cons_of_mem _ hx)) h2 (by omega) (by omega)
    refine ⟨tr', ?_⟩
    rw [e, hlen]
    congr 1 <;> omega

theorem memcpy_nil (d : List Nat) (p : Nat) : memcpy d p [] = d := by
  simp [memcpy]

theorem memcpy_length_ge (d : List Nat) (p : Nat) (a : List Nat) (hp : p ≤ d.length) :
    p + a.length ≤ (memcpy d p a).length := by
  simp only [memcpy, List.length_append, List.length_take, List.length_drop]
  omega

theorem memcpy_length (d : List Nat) (p : Nat) (a : List Nat) (hp : p + a.length ≤ d.length) :
    (memcpy d p a).length = d.length := by
  simp only [memcpy, List.length_append, List.length_take, List.length_drop]
  omega

theorem memcpy_take (d : List Nat) (p : Nat) (a : List Nat) (hp : p ≤ d.length) :
    (memcpy d p a).take (p + a.length) = d.take p ++ a := by
  have h1 : (d.take p ++ a).length = p + a.length := by
    simp only [List.length_append, List.length_take]; omega
  unfold memcpy
  rw [← h1, List.take_left']
  rfl

theorem memcpy_memcpy (d : List Nat) (p : Nat) (a b : List Nat) (hp : p ≤ d.length) :
    memcpy (memcpy d p a) (p + a.length) b = memcpy d p (a ++ b) := by
  have h1 : (d.take p ++ a).length = p + a.length := by
    simp only [List.length_append, List.length_take]; omega
  have h2 : (memcpy d p a).drop (p + a.length + b.length) = d.drop (p + (a ++ b).length) := by
    unfold memcpy
    rw [show p + a.length + b.length = (d.take p ++ a).length + b.length by omega,
      List.drop_append, List.drop_drop, List.length_append]
    congr 1
    omega
  rw [memcpy, memcpy_take d p a hp, h2, memcpy]
  simp only [List.append_assoc]

/-- Over uncompressed labels `dns_extract_name` copies label by label: the
labels land in the name buffer as one block. -/
theorem extract_loop_labels (px : Buffer) (max : Nat) (hmax : max < 4294967296) :
    ∀ (ls : List (List Nat)) (k offset : Nat) (name : DomainPointer) (tr : Trace),
      valid_labels ls →
      bytes_at px offset (encode_labels ls).length = encode_labels ls →
      name.length + (encode_labels ls).length ≤ 255 →
      name.length ≤ name.name.length →
      offset + (encode_labels ls).length ≤ max →
      ∃ tr', dns_extract_name_loop px max (ls.length + k) offset name tr =
        dns_extract_name_loop px max k (offset + (encode_labels ls).length)
          { name := memcpy name.name name.length (encode_labels ls),
            length := name.length + (encode_labels ls).length } tr' := by
  intro ls
  induction ls with
  | nil =>
    intro k offset name tr _ _ _ _ _
    exact ⟨tr, by simp [encode_labels, memcpy_nil]⟩
  | cons l ls ih =>
    intro k offset name tr hv hb hn hcap ho
    have hl := hv l (List.mem_cons_self _ _)
    have hlen := encode_labels_cons_length l ls
    have hb' : bytes_at px offset ((l.length :: l) ++ encode_labels ls).length
        = (l.length :: l) ++ encode_labels ls := hb
    obtain ⟨h1, h2⟩ := bytes_at_append _ _ _ _ hb'
    obtain ⟨h3, -⟩ := bytes_at_cons _ _ _ _ h1
    simp only [List.length_cons] at h1 h2
    rw [show (l :: ls).length + k = (ls.length + k) + 1 by simp; omega, extract_loop_succ]
    have c2 : ¬ max ≤ offset := by omega
    have c3 : rd px offset < 64 := by omega
    have c4 : ¬ rd px offset = 0 := by omega
    simp only [c2, c3, c4, if_true, if_false]
    rw [h3, u32_of_lt (by omega), h1, Nat.mod_eq_of_lt (by omega : name.length + l.length + 1 < 256)]
    obtain ⟨tr', e⟩ := ih k (offset + (l.length + 1))
      { name := memcpy name.name name.length (l.length :: l),
        length := name.length + l.length + 1 } _
      (fun x hx => hv x (List.mem_cons_of_mem _ hx)) h2 (by simp only; omega)
      (by have := memcpy_length_ge name.name name.length (l.length :: l) hcap
          simp only [List.length_cons] at this ⊢; omega)
      (by omega)
    refine ⟨tr', ?_⟩
    rw [e, hlen]
    have hm : memcpy (memcpy name.name name.length (l.length :: l))
        (name.length + l.length + 1) (encode_labels ls)
        = memcpy name.name name.length (encode_labels (l :: ls)) := by
      have := memcpy_memcpy name.name name.length (l.length :: l) (encode_labels ls) hcap
      simp only [List.length_cons] at this
      rw [show name.length + l.length + 1 = name.length + (l.length + 1) by omega, this]
      rfl
    have e1 : offset + (l.length + 1) + (encode_labels ls).length
        = offset + (l.length + 1 + (encode_labels ls).length) := by omega
    have e2 : name.length + l.length + 1 + (encode_labels ls).length
        = name.length + (l.length + 1 + (encode_labels ls).length) := by omega
    simp only [hm, e1, e2]

theorem encode_name_length (ls : List (List Nat)) :
    (encode_name ls).length = (encode_labels ls).length + 1 := by
  simp [encode_name]

/-- On an uncompressed name inside the packet `dns_name_skip` returns the
offset after the terminating zero byte. -/
theorem skip_uncompressed (px : Buffer) (fuel offset max : Nat) (ls : List (List Nat))
    (tr : Trace) (hmax : max < 4294967296) (hv : valid_labels ls)
    (hb : bytes_at px offset (encode_name ls).length = encode_name ls)
    (hn : (encode_name ls).length ≤ 255) (ho : offset + (encode_name ls).length ≤ max)
    (hf : ls.length + 1 ≤ fuel) :
    ∃ tr', dns_name_skip fuel px offset max tr
      = some (offset + (encode_name ls).length, tr') := by
  obtain ⟨k, rfl⟩ : ∃ k, fuel = ls.length + (k + 1) := ⟨fuel - ls.length - 1, by omega⟩
  rw [encode_name_length] at hn ho ⊢
  obtain ⟨h1, h2⟩ := bytes_at_append _ _ _ _ hb
  obtain ⟨h3, -⟩ := bytes_at_cons _ _ _ _ h2
  obtain ⟨tr', e⟩ := skip_loop_labels px max hmax ls (k + 1) offset 0 tr hv h1 (by omega)
    (by omega)
  unfold dns_name_skip
  rw [e, skip_loop_succ]
  have c1 : ¬ 255 ≤ 0 + (encode_labels ls).length := by omega
  have c2 : ¬ max ≤ offset + (encode_labels ls).length := by omega
  simp only [c1, c2, h3, if_true, if_false]
  exact ⟨_, rfl⟩

/-- On an uncompressed name inside the packet `dns_extract_name` stops at the
terminator with the labels copied to the start of the name buffer. -/
theorem extract_uncompressed (px : Buffer) (fuel offset max : Nat) (ls : List (List Nat))
    (name : DomainPointer) (tr : Trace) (hmax : max < 4294967296) (hv : valid_labels ls)
    (hb : bytes_at px offset (encode_name ls).length = encode_name ls)
    (hn : (encode_labels ls).length ≤ 255) (ho : offset + (encode_name ls).length ≤ max)
    (hf : ls.length + 1 ≤ fuel) :
    ∃ tr', dns_extract_name fuel px offset max name tr
      = some ({ name := memcpy name.name 0 (encode_labels ls),
                length := (encode_labels ls).length }, Exit.end_of_name, tr') := by
  obtain ⟨k, rfl⟩ : ∃ k, fuel = ls.length + (k + 1) := ⟨fuel - ls.length - 1, by omega⟩
  rw [encode_name_length] at ho
  obtain ⟨h1, h2⟩ := bytes_at_append _ _ _ _ hb
  obtain ⟨h3, -⟩ := bytes_at_cons _ _ _ _ h2
  obtain ⟨tr', e⟩ := extract_loop_labels px max hmax ls (k + 1) offset
    { name with length := 0 } tr hv h1 (by simp only; omega) (by simp only; omega) (by omega)
  unfold dns_extract_name
  rw [e, extract_loop_succ]
  have c2 : ¬ max ≤ offset + (encode_labels ls).length := by omega
  simp only [c2, h3, if_true, if_false, Nat.zero_add]
  exact ⟨_, rfl⟩

/-- The sections of a message with one question and no other record: when the
name of the question is skipped up to `e` and the class there is legal, the
parse succeeds with one table entry. -/
theorem parse_sections_single (px : Buffer) (fuel max : Nat) (dns : DNS_Incoming)
    (offset e : Nat) (tr : Trace) (nm : DomainPointer)
    (hq : dns.qdcount = 1) (ha : dns.ancount = 0) (hns : dns.nscount = 0)
    (har : dns.arcount = 0) (h0 : dns.rr_count = 0) (hcap : 0 < dns.rr_offset.length)
    (ho : offset < 65536) (he : e + 4 ≤ max) (hmax : max < 4294967296)
    (hsk : ∀ t, ∃ t', dns_name_skip fuel px offset max t = some (e, t'))
    (hex : ∀ t, ∃ x t', dns_extract_name fuel px offset max
      { name := dns.query_name_buffer, length := dns.query_name.length } t = some (nm, x, t'))
    (hcl : ((rd px (e + 2) <<< 8) ||| rd px (e + 3)) = 1 ∨
      ((rd px (e + 2) <<< 8) ||| rd px (e + 3)) = 3 ∨
      ((rd px (e + 2) <<< 8) ||| rd px (e + 3)) = 255) :
    ∃ dns' tr', parse_sections fuel px max dns offset tr = some (dns', tr') ∧
      dns'.is_valid = dns.is_valid ∧ dns'.is_formerr = false ∧ dns'.rr_count = 1 ∧
      dns'.rr_offset.getD 0 0 = offset ∧
      dns'.query_type = ((rd px e <<< 8) ||| rd px (e + 1)) ∧
      dns'.query_class = ((rd px (e + 2) <<< 8) ||| rd px (e + 3)) ∧
      dns'.query_name = nm := by
  obtain ⟨t1, hs1⟩ := hsk (tr ++ [Access.rr_write dns.rr_count])
  have hu : u32 (e + 4) = e + 4 := u32_of_lt (by omega)
  have e2 : u32sub (e + 4) 2 = e + 2 := by unfold u32sub; omega
  have e1 : u32sub (e + 4) 1 = e + 3 := by unfold u32sub; omega
  have e4 : u32sub (e + 4) 4 = e := by unfold u32sub; omega
  have e3 : u32sub (e + 4) 3 = e + 1 := by unfold u32sub; omega
  have c1 : ¬ dns.rr_count ≥ MAX_RRs dns := by unfold MAX_RRs; omega
  have c2 : ¬ e + 4 > max := by omega
  have c3 : ¬ (((rd px (e + 2) <<< 8) ||| rd px (e + 3)) ≠ 1 ∧
      ((rd px (e + 2) <<< 8) ||| rd px (e + 3)) ≠ 255 ∧
      ((rd px (e + 2) <<< 8) ||| rd px (e + 3)) ≠ 3) := by
    rcases hcl with h | h | h <;> simp [h]
  have hql : question_loop fuel px max 1 dns offset tr = some (Flow.continues
      { dns with
        rr_offset := dns.rr_offset.set dns.rr_count (offset % 65536)
        rr_count := dns.rr_count + 1
        query_type := ((rd px e <<< 8) ||| rd px (e + 1))
        query_class := ((rd px (e + 2) <<< 8) ||| rd px (e + 3)) } (e + 4)
      (t1 ++ [Access.read (e + 2), Access.read (e + 3)] ++
        [Access.read e, Access.read (e + 1)])) := by
    simp only [question_loop, c1, if_false, hs1, hu, c2, e1, e2, e3, e4, c3]
  obtain ⟨x, t2, hx⟩ := hex (t1 ++ [Access.read (e + 2), Access.read (e + 3)] ++
        [Access.read e, Access.read (e + 1)])
  have hg : (dns.rr_offset.set dns.rr_count (offset % 65536)).getD 0 0 = offset := by
    rw [h0, getD_set_zero _ _ hcap]; omega
  refine ⟨{ dns with
      rr_offset := dns.rr_offset.set dns.rr_count (offset % 65536)
      rr_count := dns.rr_count + 1
      query_type := ((rd px e <<< 8) ||| rd px (e + 1))
      query_class := ((rd px (e + 2) <<< 8) ||| rd px (e + 3))
      query_name := nm
      query_name_buffer := nm.name
      is_formerr := false }, t2, ?_, rfl, rfl, by simp only [h0], hg, rfl, rfl, rfl⟩
  simp only [parse_sections, hq, hql, ha, hns, har, answer_loop, additional_loop,
    parse_finish, hg, hx, one_ne_zero, if_false]

theorem bytes_at_get (px : Buffer) (o : Nat) (bs : List Nat)
    (h : bytes_at px o bs.length = bs) (k : Nat) (hk : k < bs.length) :
    rd px (o + k) = bs.getD k 0 := by
  conv_rhs => rw [← h]
  simp [bytes_at, List.getD_eq_getElem?_getD, List.getElem?_map, List.getElem?_range hk]

/-- C2 (amended): for every single-question message at `offset` whose first
question starts at an offset that fits the 16-bit table entry
(`offset + 12 ≤ 65535`), parsed into a state whose table has room for one entry,
`proto_dns_parse` finishes (any fuel above the number of labels) with `is_valid`
true, `is_formerr` false, `rr_count = 1`, `rr_offset[0] = offset + 12`, and
`query_type`, `query_class` equal to the big-endian type and class fields. -/
theorem parse_single_question (fuel : Nat) (dns : DNS_Incoming) (px : Buffer)
    (offset max : Nat) (ls : List (List Nat)) (qtype qclass : Nat)
    (h : single_question px offset max ls qtype qclass) (ho : offset + 12 ≤ 65535)
    (hcap : 0 < MAX_RRs dns) (hf : ls.length + 1 ≤ fuel) :
    ∃ dns' tr, proto_dns_parse fuel dns px offset max [] = some (dns', tr) ∧
      dns'.is_valid = true ∧ dns'.is_formerr = false ∧ dns'.rr_count = 1 ∧
      dns'.rr_offset.getD 0 0 = offset + 12 ∧
      dns'.query_type = qtype ∧ dns'.query_class = qclass := by
  obtain ⟨hh, hv, hn, hb, htc, hqt, hqc, hm, hmax⟩ := h
  have hsub : u32sub max offset = max - offset := by unfold u32sub; omega
  have hu : ∀ k, k ≤ 12 → u32 (offset + k) = offset + k := fun k hk => u32_of_lt (by omega)
  have g : ∀ k, k < 8 → rd px (offset + (4 + k)) = [0, 1, 0, 0, 0, 0, 0, 0].getD k 0 := by
    intro k hk
    have := bytes_at_get px (offset + 4) [0, 1, 0, 0, 0, 0, 0, 0] hh k hk
    rwa [Nat.add_assoc] at this
  have t : ∀ k, k < 4 → rd px (offset + 12 + (encode_name ls).length + k)
      = [qtype / 256, qtype % 256, qclass / 256, qclass % 256].getD k 0 :=
    fun k hk => bytes_at_get px _ _ htc k hk
  have t0 := t 0 (by decide)
  have t1 := t 1 (by decide)
  have t2 := t 2 (by decide)
  have t3 := t 3 (by decide)
  simp only [List.getD_cons_zero, List.getD_cons_succ, Nat.add_zero] at t0 t1 t2 t3
  have hty : ((rd px (offset + 12 + (encode_name ls).length) <<< 8) |||
      rd px (offset + 12 + (encode_name ls).length + 1)) = qtype := by
    rw [shl8_or _ _ (rd_lt _ _), t0, t1]; omega
  have hqc' : qclass < 256 := by omega
  have hcl : ((rd px (offset + 12 + (encode_name ls).length + 2) <<< 8) |||
      rd px (offset + 12 + (encode_name ls).length + 3)) = qclass := by
    rw [shl8_or _ _ (rd_lt _ _), t2, t3]; omega
  unfold proto_dns_parse
  have c : ¬ max - offset < 12 := by omega
  simp only [hsub, c, if_false, hu 12 (le_refl _)]
  obtain ⟨d, tr, p1, p2, p3, p4, p5, p6, p7, -⟩ := parse_sections_single px fuel max
    (parse_header { dns with
      is_valid := false
      req := px
      req_length := max - offset
      edns0 := { dns.edns0 with payload_size := 512 } } px offset)
    (offset + 12) (offset + 12 + (encode_name ls).length) ([] ++ header_reads offset)
    { name := memcpy dns.query_name_buffer 0 (encode_labels ls),
      length := (encode_labels ls).length }
    (by simp only [parse_header, hu 4 (by omega), hu 5 (by omega)]
        rw [g 0 (by decide), show offset + 5 = offset + (4 + 1) by omega, g 1 (by decide)]
        decide)
    (by simp only [parse_header, hu 6 (by omega), hu 7 (by omega)]
        rw [show offset + 6 = offset + (4 + 2) by omega, g 2 (by decide),
          show offset + 7 = offset + (4 + 3) by omega, g 3 (by decide)]
        decide)
    (by simp only [parse_header, hu 8 (by omega), hu 9 (by omega)]
        rw [show offset + 8 = offset + (4 + 4) by omega, g 4 (by decide),
          show offset + 9 = offset + (4 + 5) by omega, g 5 (by decide)]
        decide)
    (by simp only [parse_header, hu 10 (by omega), hu 11 (by omega)]
        rw [show offset + 10 = offset + (4 + 6) by omega, g 6 (by decide),
          show offset + 11 = offset + (4 + 7) by omega, g 7 (by decide)]
        decide)
    rfl hcap (by omega) (by omega) hmax
    (fun t => skip_uncompressed px fuel (offset + 12) max ls t hmax hv hb hn (by omega) hf)
    (fun t => by
      obtain ⟨t', e⟩ := extract_uncompressed px fuel (offset + 12) max ls
        { name := dns.query_name_buffer, length := dns.query_name.length } t hmax hv hb
        (by rw [encode_name_length] at hn; omega) (by omega) hf
      exact ⟨_, t', e⟩)
    (by rw [hcl]; rcases hqc with h | h | h <;> simp [h])
  refine ⟨d, tr, p1, ?_, p3, p4, p5, ?_, ?_⟩
  · rw [p2]; rfl
  · rw [p6, hty]
  · rw [p7, hcl]

/-- Witness of C2 (amended): the minimal query at offset 0. -/
theorem parse_single_question_witness :
    ∃ dns' tr, proto_dns_parse 3 (blank 64) (buf minimal_query) 0 29 [] = some (dns', tr) ∧
      dns'.is_valid = true ∧ dns'.is_formerr = false ∧ dns'.rr_count = 1 ∧
      dns'.rr_offset.getD 0 0 = 0 + 12 ∧
      dns'.query_type = 1 ∧ dns'.query_class = 1 :=
  parse_single_question 3 (blank 64) (buf minimal_query) 0 29 example_com 1 1
    (by unfold single_question valid_labels; decide) (by decide) (by decide) (by decide)

/-- C2 (counterexample): the minimal query placed at offset 65524 is a
well-formed single-question message inside `max = 65553`; the parser finishes
with `is_formerr` false, but the first table entry is `(unsigned short)65536 = 0`
and not `offset + 12 = 65536`. -/
theorem single_question_offset_wraps :
    single_question (buf_at 65524 minimal_query) 65524 65553 example_com 1 1 ∧
    0 < MAX_RRs (blank 64) ∧
    (proto_dns_parse 1282 (blank 64) (buf_at 65524 minimal_query) 65524 65553 []).map
      (fun r => (r.1.is_formerr, r.1.rr_offset.getD 0 0)) = some (false, 0) ∧
    0 ≠ 65524 + 12 := by
  refine ⟨by unfold single_question valid_labels; decide, by decide, by decide, by decide⟩

theorem encode_labels_append (a b : List (List Nat)) :
    encode_labels (a ++ b) = encode_labels a ++ encode_labels b := by
  induction a with
  | nil => rfl
  | cons l a ih => simp [encode_labels, ih]

/-- C3 (amended): parsing the minimal query (header with id 0x1234, RD set,
QDCOUNT 1; name `07 example 03 com 00`; type 1; class 1; 29 bytes at offset 0
with bound 29) yields `is_formerr = false`, `query_type = 1`, `query_class = 1`
and a decoded question name of length 12: the two labels with their length
bytes, without the terminating zero byte. -/
theorem minimal_query_parsed :
    (proto_dns_parse 1282 (blank 64) (buf minimal_query) 0 29 []).map
      (fun r => (r.1.is_formerr, r.1.query_type, r.1.query_class, r.1.query_name.length,
        r.1.query_name.name.take r.1.query_name.length))
      = some (false, 1, 1, 12, [7, 101, 120, 97, 109, 112, 108, 101, 3, 99, 111, 109]) := by
  decide

/-- C3 (counterexample): the decoded name of the minimal query does not have
length 13. -/
theorem minimal_query_name_length_not_13 :
    (proto_dns_parse 1282 (blank 64) (buf minimal_query) 0 29 []).map
      (fun r => r.1.query_name.length) ≠ some 13 := by
  decide

/-! ## Compressed names (C4) and the result of the fast skip (C5) -/

/-- C4: for labels `pre ++ post` (1 to 63 bytes each, decompressed length at
most 255), a packet `px` holding at `offset` the labels `pre` followed by a
compression pointer to an earlier in-bounds position `t` where `post` is
encoded uncompressed and zero-terminated, and a packet `px'` holding the direct
encoding of the same name, `dns_extract_name` returns on both the same name:
the concatenation of every label's length byte and content, with that length. -/
theorem extract_compressed_eq_direct (px px' : Buffer) (offset max offset' max' t fuel : Nat)
    (pre post : List (List Nat)) (name : DomainPointer)
    (hv : valid_labels (pre ++ post))
    (hn : (encode_labels (pre ++ post)).length ≤ 255)
    (hmax : max < 4294967296) (hmax' : max' < 4294967296)
    (hc : bytes_at px offset (encode_labels pre ++ [192 + t / 256, t % 256]).length
      = encode_labels pre ++ [192 + t / 256, t % 256])
    (ht : t < 16384)
    (hp : bytes_at px t (encode_name post).length = encode_name post)
    (hearly : t + (encode_name post).length ≤ offset)
    (hb : offset + (encode_labels pre).length + 2 ≤ max)
    (hd : bytes_at px' offset' (encode_name (pre ++ post)).length = encode_name (pre ++ post))
    (hb' : offset' + (encode_name (pre ++ post)).length ≤ max')
    (hf : (pre ++ post).length + 2 ≤ fuel) :
    ∃ nm tr tr',
      dns_extract_name fuel px offset max name [] = some (nm, Exit.end_of_name, tr) ∧
      dns_extract_name fuel px' offset' max' name [] = some (nm, Exit.end_of_name, tr') ∧
      nm.length = (encode_labels (pre ++ post)).length ∧
      nm.name.take nm.length = encode_labels (pre ++ post) := by
  have hvpre : valid_labels pre := fun l hl => hv l (List.mem_append_left _ hl)
  have hvpost : valid_labels post := fun l hl => hv l (List.mem_append_right _ hl)
  have happ := encode_labels_append pre post
  have hlen : (encode_labels (pre ++ post)).length
      = (encode_labels pre).length + (encode_labels post).length := by
    rw [happ, List.length_append]
  -- the direct encoding
  obtain ⟨tr', hdirect⟩ := extract_uncompressed px' fuel offset' max' (pre ++ post) name []
    hmax' hv hd hn hb' (by omega)
  -- the compressed encoding
  obtain ⟨c1, c2⟩ := bytes_at_append _ _ _ _ hc
  have g0 := bytes_at_get px _ _ c2 0 (by simp)
  have g1 := bytes_at_get px _ _ c2 1 (by simp)
  simp only [List.getD_cons_zero, List.getD_cons_succ, Nat.add_zero] at g0 g1
  rw [encode_name_length] at hearly
  obtain ⟨p1, p2⟩ := bytes_at_append _ _ _ _ hp
  obtain ⟨p3, -⟩ := bytes_at_cons _ _ _ _ p2
  obtain ⟨k, rfl⟩ : ∃ k, fuel = pre.length + ((post.length + (k + 1)) + 1) :=
    ⟨fuel - (pre ++ post).length - 2, by
      have hl : (pre ++ post).length = pre.length + post.length := List.length_append _ _
      omega⟩
  obtain ⟨tr1, e1⟩ := extract_loop_labels px max hmax pre ((post.length + (k + 1)) + 1) offset
    { name with length := 0 } [] hvpre c1 (by simp only; omega) (by simp only; omega)
    (by omega)
  have hptr : pointer_target px (offset + (encode_labels pre).length) = t := by
    unfold pointer_target
    rw [g0, g1]
    omega
  have e2 := extract_loop_succ px max (post.length + (k + 1))
    (offset + (encode_labels pre).length)
    { name := memcpy name.name 0 (encode_labels pre), length := 0 + (encode_labels pre).length }
    tr1
  have d2 : ¬ max ≤ offset + (encode_labels pre).length := by omega
  have d3 : ¬ rd px (offset + (encode_labels pre).length) < 64 := by omega
  have d4 : ¬ rd px (offset + (encode_labels pre).length) < 192 := by omega
  have d5 : ¬ max ≤ offset + (encode_labels pre).length + 1 := by omega
  simp only [d2, d3, d4, d5, if_false, hptr] at e2
  have hcap := memcpy_length_ge name.name 0 (encode_labels pre) (Nat.zero_le _)
  obtain ⟨tr3, e3⟩ := extract_loop_labels px max hmax post (k + 1) t
    { name := memcpy name.name 0 (encode_labels pre), length := 0 + (encode_labels pre).length }
    (tr1 ++ [Access.read (offset + (encode_labels pre).length),
      Access.read (offset + (encode_labels pre).length),
      Access.read (offset + (encode_labels pre).length + 1)])
    hvpost p1 (by simp only; omega) (by simp only; omega) (by omega)
  have e4 := extract_loop_succ px max k (t + (encode_labels post).length)
    { name := memcpy (memcpy name.name 0 (encode_labels pre)) (0 + (encode_labels pre).length)
        (encode_labels post),
      length := 0 + (encode_labels pre).length + (encode_labels post).length } tr3
  have d6 : ¬ max ≤ t + (encode_labels post).length := by omega
  simp only [d6, p3, (by decide : (0 : Nat) < 64), if_true, if_false] at e4
  have hcomp : dns_extract_name (pre.length + ((post.length + (k + 1)) + 1)) px offset max
      name [] = some (DomainPointer.mk (memcpy name.name 0 (encode_labels (pre ++ post)))
        (encode_labels (pre ++ post)).length, Exit.end_of_name,
        tr3 ++ [Access.read (t + (encode_labels post).length)]) := by
    unfold dns_extract_name
    rw [e1, e2, e3, e4, memcpy_memcpy _ _ _ _ (Nat.zero_le _), ← happ, hlen]
    simp only [Nat.zero_add]
  refine ⟨_, _, tr', hcomp, hdirect, rfl, ?_⟩
  have := memcpy_take name.name 0 (encode_labels (pre ++ post)) (Nat.zero_le _)
  simpa using this

/-- Witness of C4: `example.com` with `com` at offset 0 and `example` followed
by a pointer to 0 at offset 5, against the direct encoding. -/
theorem extract_compressed_eq_direct_witness :
    ∃ nm tr tr',
      dns_extract_name 4 (buf [3, 99, 111, 109, 0, 7, 101, 120, 97, 109, 112, 108, 101, 192, 0])
        5 15 (DomainPointer.mk (List.replicate 255 0) 0) [] = some (nm, Exit.end_of_name, tr) ∧
      dns_extract_name 4 (buf [7, 101, 120, 97, 109, 112, 108, 101, 3, 99, 111, 109, 0])
        0 13 (DomainPointer.mk (List.replicate 255 0) 0) [] = some (nm, Exit.end_of_name, tr') ∧
      nm.length = (encode_labels ([[101, 120, 97, 109, 112, 108, 101]] ++ [[99, 111, 109]])).length ∧
      nm.name.take nm.length
        = encode_labels ([[101, 120, 97, 109, 112, 108, 101]] ++ [[99, 111, 109]]) :=
  extract_compressed_eq_direct
    (buf [3, 99, 111, 109, 0, 7, 101, 120, 97, 109, 112, 108, 101, 192, 0])
    (buf [7, 101, 120, 97, 109, 112, 108, 101, 3, 99, 111, 109, 0])
    5 15 0 13 0 4 [[101, 120, 97, 109, 112, 108, 101]] [[99, 111, 109]]
    (DomainPointer.mk (List.replicate 255 0) 0)
    (by unfold valid_labels; decide) (by decide) (by decide) (by decide) (by decide)
    (by decide) (by decide) (by decide) (by decide) (by decide) (by decide) (by decide)

/-- C5: for `max + 64 < 2^32`, `dns_name_skip` returns (any fuel from 1282 on)
either the failure sentinel `max + 1` or a value `r` with `offset < r ≤ max`;
such a value is `p + 1` for the terminating zero byte at `p`, or `p + 2` for
the first compression pointer at `p`, where `p` is reached from `offset` by
stepping over plain labels.  Hence a return value above `max` is the
sentinel. -/
theorem dns_name_skip_result (fuel : Nat) (px : Buffer) (offset max : Nat) (tr : Trace)
    (hmax : max + 64 < 4294967296) (hf : 1282 ≤ fuel) :
    ∃ r tr', dns_name_skip fuel px offset max tr = some (r, tr') ∧
      (r = max + 1 ∨ (offset < r ∧ r ≤ max ∧ ∃ p, PlainReach px offset p ∧
        ((rd px p = 0 ∧ r = p + 1) ∨ (192 ≤ rd px p ∧ r = p + 2)))) ∧
      (max < r ↔ r = max + 1) := by
  obtain ⟨r, tr', h⟩ := skip_terminates px fuel offset max tr hf
  have hv := skip_loop_value px max hmax _ _ _ _ _ _ h
  refine ⟨r, tr', h, hv, ?_⟩
  rcases hv with e | ⟨-, e, -⟩
  · subst e; simp
  · constructor <;> intro h' <;> omega

/-- Witness of C5: the question name of the minimal query. -/
theorem dns_name_skip_result_witness :
    ∃ r tr', dns_name_skip 1282 (buf minimal_query) 12 29 [] = some (r, tr') ∧
      (r = 29 + 1 ∨ (12 < r ∧ r ≤ 29 ∧ ∃ p, PlainReach (buf minimal_query) 12 p ∧
        ((rd (buf minimal_query) p = 0 ∧ r = p + 1) ∨
          (192 ≤ rd (buf minimal_query) p ∧ r = p + 2)))) ∧
      (29 < r ↔ r = 29 + 1) :=
  dns_name_skip_result 1282 (buf minimal_query) 12 29 [] (by decide) (by decide)

/-! ## The indirection bound (C6) -/

theorem chain_fails (px : Buffer) (max ERROR result : Nat) :
    ∀ (k o : Nat), PointerChain px max o k →
      ∀ (fuel nl rec : Nat) (tr : Trace) (r : Nat) (tr' : Trace), 1 ≤ k → 5 ≤ rec + k →
      dns_name_skip_validate_loop px max ERROR result fuel o nl rec tr = some (r, tr') →
      r = ERROR := by
  intro k o hc
  induction hc with
  | done o => intro fuel nl rec tr r tr' hk; omega
  | pointer o k h1 h2 _ ih =>
    intro fuel nl rec tr r tr' _ hrec h
    cases fuel with
    | zero => simp [dns_name_skip_validate_loop] at h
    | succ fuel =>
      rw [validate_loop_succ] at h
      split_ifs at h with c1 c2 c3 c4 c5 c6
      all_goals first
        | omega
        | (simp only [Option.some.injEq, Prod.mk.injEq] at h; exact h.1.symm)
        | exact ih _ _ _ _ _ _ (by omega) (by omega) h

theorem resolves_chain_fails (px : Buffer) (max ERROR result : Nat)
    (hmax : max + 64 < 4294967296) :
    ∀ (o p : Nat), Resolves px max o p → PointerChain px max p 5 →
      ∀ (fuel nl rec : Nat) (tr : Trace) (r : Nat) (tr' : Trace),
      dns_name_skip_validate_loop px max ERROR result fuel o nl rec tr = some (r, tr') →
      r = ERROR := by
  intro o p hr
  induction hr with
  | here o =>
    intro hc fuel nl rec tr r tr' h
    exact chain_fails px max ERROR result 5 o hc fuel nl rec tr r tr' (by omega) (by omega) h
  | label o p h1 h2 h3 _ ih =>
    intro hc fuel nl rec tr r tr' h
    cases fuel with
    | zero => simp [dns_name_skip_validate_loop] at h
    | succ fuel =>
      rw [validate_loop_succ] at h
      split_ifs at h with c1 c2 c3 c4 c5 c6
      all_goals first
        | omega
        | (simp only [Option.some.injEq, Prod.mk.injEq] at h; exact h.1.symm)
        | (rw [u32_of_lt (by have := rd_lt px o; omega)] at h
           exact ih hc _ _ _ _ _ _ h)
  | pointer o p h1 h2 _ ih =>
    intro hc fuel nl rec tr r tr' h
    cases fuel with
    | zero => simp [dns_name_skip_validate_loop] at h
    | succ fuel =>
      rw [validate_loop_succ] at h
      split_ifs at h with c1 c2 c3 c4 c5 c6
      all_goals first
        | omega
        | (simp only [Option.some.injEq, Prod.mk.injEq] at h; exact h.1.symm)
        | exact ih hc _ _ _ _ _ _ h

theorem skip_resolves_chain_fails (px : Buffer) (max : Nat) (hmax : max + 64 < 4294967296) :
    ∀ (o p : Nat), Resolves px max o p → PointerChain px max p 5 →
      ∀ (fuel nl : Nat) (tr : Trace) (r : Nat) (tr' : Trace),
      dns_name_skip_loop px max fuel o nl tr = some (r, tr') → r = max + 1 := by
  have hE : u32 (max + 1) = max + 1 := u32_of_lt (by omega)
  intro o p hr
  induction hr with
  | here o =>
    intro hc fuel nl tr r tr' h
    cases hc with
    | pointer _ _ h1 h2 hc' =>
      cases fuel with
      | zero => simp [dns_name_skip_loop] at h
      | succ fuel =>
        rw [skip_loop_succ, hE] at h
        split_ifs at h with c1 c2 c3 c4 c5
        all_goals first
          | omega
          | (simp only [Option.some.injEq, Prod.mk.injEq] at h; exact h.1.symm)
          | (unfold dns_name_skip_validate at h
             rw [hE] at h
             exact resolves_chain_fails px max _ _ hmax o o (Resolves.here o)
               (PointerChain.pointer _ _ h1 h2 hc') _ _ _ _ _ _ h)
  | label o p h1 h2 h3 _ ih =>
    intro hc fuel nl tr r tr' h
    cases fuel with
    | zero => simp [dns_name_skip_loop] at h
    | succ fuel =>
      rw [skip_loop_succ, hE] at h
      split_ifs at h with c1 c2 c3 c4 c5
      all_goals first
        | omega
        | (simp only [Option.some.injEq, Prod.mk.injEq] at h; exact h.1.symm)
        | (rw [u32_of_lt (by omega)] at h
           exact ih hc _ _ _ _ _ h)
  | pointer o p h1 h2 hr' _ =>
    intro hc fuel nl tr r tr' h
    cases fuel with
    | zero => simp [dns_name_skip_loop] at h
    | succ fuel =>
      rw [skip_loop_succ, hE] at h
      split_ifs at h with c1 c2 c3 c4 c5
      all_goals first
        | omega
        | (simp only [Option.some.injEq, Prod.mk.injEq] at h; exact h.1.symm)
        | (unfold dns_name_skip_validate at h
           rw [hE] at h
           exact resolves_chain_fails px max _ _ hmax o p (Resolves.pointer _ _ h1 h2 hr')
             hc _ _ _ _ _ _ h)

/-- C6 (amended): when resolving the name at `offset` reaches a position from
which more than 4 compression pointers follow one another with no label
between them, `dns_name_skip_validate` and `dns_name_skip` return (any fuel
from 1282 on) the failure sentinel `max + 1`, a value greater than the buffer
length. -/
theorem consecutive_pointers_fail (fuel : Nat) (px : Buffer) (offset max nl p : Nat)
    (tr : Trace) (hmax : max + 64 < 4294967296) (hf : 1282 ≤ fuel)
    (hr : Resolves px max offset p) (hc : PointerChain px max p 5) :
    (∃ tr', dns_name_skip_validate fuel px offset max nl tr = some (max + 1, tr')) ∧
    (∃ tr', dns_name_skip fuel px offset max tr = some (max + 1, tr')) ∧ max < max + 1 := by
  have hE : u32 (max + 1) = max + 1 := u32_of_lt (by omega)
  refine ⟨?_, ?_, by omega⟩
  · obtain ⟨r, tr', h⟩ := validate_terminates px fuel offset max nl tr (by omega)
    have h' := h
    unfold dns_name_skip_validate at h'
    rw [hE] at h'
    have := resolves_chain_fails px max _ _ hmax offset p hr hc _ _ _ _ _ _ h'
    subst this
    exact ⟨tr', h⟩
  · obtain ⟨r, tr', h⟩ := skip_terminates px fuel offset max tr hf
    have := skip_resolves_chain_fails px max hmax offset p hr hc _ _ _ _ _ h
    subst this
    exact ⟨tr', h⟩

theorem self_pointer_chain (px : Buffer) (max o : Nat) (h1 : o + 1 < max)
    (h2 : 192 ≤ rd px o) (h3 : pointer_target px o = o) :
    ∀ k, PointerChain px max o k := by
  intro k
  induction k with
  | zero => exact PointerChain.done o
  | succ k ih => exact PointerChain.pointer o k h1 h2 (by rw [h3]; exact ih)

/-- Witness of C6 (amended): a pointer at offset 0 to offset 0. -/
theorem consecutive_pointers_fail_witness :
    (∃ tr', dns_name_skip_validate 1282 (buf [192, 0]) 0 2 0 [] = some (2 + 1, tr')) ∧
    (∃ tr', dns_name_skip 1282 (buf [192, 0]) 0 2 [] = some (2 + 1, tr')) ∧ 2 < 2 + 1 :=
  consecutive_pointers_fail 1282 (buf [192, 0]) 0 2 0 0 [] (by decide) (by decide)
    (Resolves.here 0)
    (self_pointer_chain (buf [192, 0]) 2 0 (by decide) (by decide) (by decide) 5)

/-- C6 (counterexample): resolving the name at offset 17 of `five_pointers`
follows 5 compression pointers, and both `dns_name_skip_validate` and
`dns_name_skip` accept it: they return 19, which is not above the bound 19. -/
theorem five_pointers_accepted :
    Follows (buf five_pointers) 19 17 5 ∧
    (dns_name_skip_validate 1282 (buf five_pointers) 17 19 0 []).map Prod.fst = some 19 ∧
    (dns_name_skip 1282 (buf five_pointers) 17 19 []).map Prod.fst = some 19 := by
  refine ⟨?_, by decide, by decide⟩
  refine Follows.pointer 17 4 (by decide) (by decide) ?_
  rw [show pointer_target (buf five_pointers) 17 = 13 by decide]
  refine Follows.label 13 4 (by decide) (by decide) (by decide) ?_
  refine Follows.pointer _ 3 (by decide) (by decide) ?_
  rw [show pointer_target (buf five_pointers) (13 + (rd (buf five_pointers) 13 + 1)) = 9
    by decide]
  refine Follows.label 9 3 (by decide) (by decide) (by decide) ?_
  refine Follows.pointer _ 2 (by decide) (by decide) ?_
  rw [show pointer_target (buf five_pointers) (9 + (rd (buf five_pointers) 9 + 1)) = 5
    by decide]
  refine Follows.label 5 2 (by decide) (by decide) (by decide) ?_
  refine Follows.pointer _ 1 (by decide) (by decide) ?_
  rw [show pointer_target (buf five_pointers) (5 + (rd (buf five_pointers) 5 + 1)) = 1
    by decide]
  refine Follows.label 1 1 (by decide) (by decide) (by decide) ?_
  refine Follows.pointer _ 0 (by decide) (by decide) ?_
  exact Follows.start _

/-! ## Pointer cycles and early stops of the expand operation (C7, C8) -/

/-- On a compression pointer that points to itself the loop of
`dns_extract_name` never returns. -/
theorem extract_self_pointer_diverges (px : Buffer) (max o : Nat) (h1 : o + 1 < max)
    (h2 : 192 ≤ rd px o) (h3 : pointer_target px o = o) :
    ∀ (fuel : Nat) (name : DomainPointer) (tr : Trace),
      dns_extract_name_loop px max fuel o name tr = none := by
  intro fuel
  induction fuel with
  | zero => intro name tr; rfl
  | succ fuel ih =>
    intro name tr
    rw [extract_loop_succ]
    have c1 : ¬ max ≤ o := by omega
    have c2 : ¬ rd px o < 64 := by omega
    have c3 : ¬ rd px o < 192 := by omega
    have c4 : ¬ max ≤ o + 1 := by omega
    simp only [c1, c2, c3, c4, if_false, h3]
    exact ih _ _

/-- C7 (the code at the failing input): on the two-byte name `C0 00` at offset
0, a compression pointer to itself, `dns_extract_name` does not return, whatever
the fuel; `dns_name_skip_validate` on the same input returns the failure
sentinel 3. -/
theorem extract_name_self_pointer_loops :
    (∀ fuel, dns_extract_name fuel (buf [192, 0]) 0 2
      (DomainPointer.mk (List.replicate 255 0) 0) [] = none) ∧
    (dns_name_skip_validate 1282 (buf [192, 0]) 0 2 0 []).map Prod.fst = some 3 := by
  refine ⟨?_, by decide⟩
  intro fuel
  exact extract_self_pointer_diverges (buf [192, 0]) 2 0 (by decide) (by decide) (by decide)
    fuel _ _

theorem bytes_copied_append (a b : Trace) :
    bytes_copied (a ++ b) = bytes_copied a + bytes_copied b := by
  simp [bytes_copied, List.countP_append]

theorem bytes_copied_reads (l : List Nat) : bytes_copied (l.map Access.read) = 0 := by
  induction l with
  | nil => rfl
  | cons a l ih =>
    simp only [bytes_copied, List.map_cons, List.countP_cons] at ih ⊢
    simp [ih]

theorem bytes_copied_reads_at (o n : Nat) : bytes_copied (reads_at o n) = 0 := by
  have : reads_at o n = ((List.range n).map (fun k => o + k)).map Access.read := by
    simp [reads_at, List.map_map]
  rw [this, bytes_copied_reads]

theorem bytes_copied_name_writes (l : List Nat) :
    bytes_copied (l.map Access.name_write) = l.length := by
  induction l with
  | nil => rfl
  | cons a l ih =>
    simp only [bytes_copied, List.map_cons, List.countP_cons] at ih ⊢
    simp [ih]

theorem bytes_copied_name_writes_at (p n : Nat) : bytes_copied (name_writes_at p n) = n := by
  have : name_writes_at p n = ((List.range n).map (fun k => p + k)).map Access.name_write := by
    simp [name_writes_at, List.map_map]
  rw [this, bytes_copied_name_writes]
  simp

theorem extract_loop_length (px : Buffer) (max : Nat) :
    ∀ (fuel offset : Nat) (name : DomainPointer) (tr : Trace) (nm : DomainPointer)
      (e : Exit) (tr' : Trace),
      dns_extract_name_loop px max fuel offset name tr = some (nm, e, tr') →
      name.length = bytes_copied tr % 256 → nm.length = bytes_copied tr' % 256 := by
  intro fuel
  induction fuel with
  | zero => intro offset name tr nm e tr' h; simp [dns_extract_name_loop] at h
  | succ fuel ih =>
    intro offset name tr nm e tr' h hl
    have r1 : ∀ i, bytes_copied (tr ++ [Access.read i]) = bytes_copied tr := by
      intro i
      rw [bytes_copied_append, show [Access.read i] = [i].map Access.read by rfl,
        bytes_copied_reads]
      rfl
    have r3 : ∀ i j k, bytes_copied (tr ++ [Access.read i, Access.read j, Access.read k])
        = bytes_copied tr := by
      intro i j k
      rw [bytes_copied_append,
        show [Access.read i, Access.read j, Access.read k] = [i, j, k].map Access.read by rfl,
        bytes_copied_reads]
      rfl
    rw [extract_loop_succ] at h
    split_ifs at h with c1 c2 c3 c4 c5
    · simp only [Option.some.injEq, Prod.mk.injEq] at h
      obtain ⟨rfl, -, rfl⟩ := h
      exact hl
    · simp only [Option.some.injEq, Prod.mk.injEq] at h
      obtain ⟨rfl, -, rfl⟩ := h
      rw [r1]; exact hl
    · refine ih _ _ _ _ _ _ h ?_
      rw [bytes_copied_append, bytes_copied_append, r1, bytes_copied_reads_at,
        bytes_copied_name_writes_at]
      simp only [hl]
      omega
    · simp only [Option.some.injEq, Prod.mk.injEq] at h
      obtain ⟨rfl, -, rfl⟩ := h
      rw [r1]; exact hl
    · simp only [Option.some.injEq, Prod.mk.injEq] at h
      obtain ⟨rfl, -, rfl⟩ := h
      rw [r1]; exact hl
    · refine ih _ _ _ _ _ _ h ?_
      rw [r3]; exact hl

/-- C8 (amended): when `dns_extract_name` stops at an out-of-bounds condition
(the offset reaches `max`, the second byte of a pointer is not below `max`, or
a reserved label type is met), nothing is discarded: the output name length is
the number of bytes copied into the name buffer so far, modulo 256, and so is 0
only if that number is a multiple of 256 (as when no label was copied). -/
theorem extract_name_keeps_length (fuel : Nat) (px : Buffer) (offset max : Nat)
    (name nm : DomainPointer) (e : Exit) (tr : Trace)
    (h : dns_extract_name fuel px offset max name [] = some (nm, e, tr))
    (_he : e ≠ Exit.end_of_name) :
    nm.length = bytes_copied tr % 256 := by
  unfold dns_extract_name at h
  exact extract_loop_length px max _ _ _ _ _ _ _ h rfl

/-- Witness of C8 (amended): the one-byte label `a` at offset 0 with bound 2. -/
theorem extract_name_keeps_length_witness :
    (DomainPointer.mk
      (memcpy (List.replicate 255 0) 0 [1, 97]) 2).length
      = bytes_copied [Access.read 0, Access.read 0, Access.read 1, Access.name_write 0,
          Access.name_write 1] % 256 :=
  extract_name_keeps_length 5 (buf [1, 97]) 0 2 (DomainPointer.mk (List.replicate 255 0) 0)
    (DomainPointer.mk (memcpy (List.replicate 255 0) 0 [1, 97]) 2) Exit.offset_out_of_bounds
    [Access.read 0, Access.read 0, Access.read 1, Access.name_write 0, Access.name_write 1]
    (by rfl) (by decide)

/-- C8 (counterexample): on the one-byte label `a` at offset 0 with bound 2,
`dns_extract_name` stops because the offset reaches `max`, and the output name
length is 2, not 0. -/
theorem extract_name_length_not_reset :
    (dns_extract_name 5 (buf [1, 97]) 0 2 (DomainPointer.mk (List.replicate 255 0) 0) []).map
      (fun r => (r.2.1, r.1.length)) = some (Exit.offset_out_of_bounds, 2) := by
  decide

/-! ## What the sections change: question class and EDNS0 payload size (C9, C10) -/

/-- The question loop changes the table, the record count and the query type
and class only. -/
theorem question_loop_frame (px : Buffer) (fuel max : Nat) :
    ∀ (n : Nat) (dns : DNS_Incoming) (offset : Nat) (tr : Trace) (fl : Flow),
      question_loop fuel px max n dns offset tr = some fl →
      ∃ ro rc qt qc, fl.dns = { dns with
        rr_offset := ro, rr_count := rc, query_type := qt, query_class := qc } := by
  intro n
  induction n with
  | zero =>
    intro dns offset tr fl h
    simp only [question_loop, Option.some.injEq] at h
    subst h
    exact ⟨_, _, _, _, rfl⟩
  | succ n ih =>
    intro dns offset tr fl h
    rw [question_loop] at h
    split_ifs at h with c1
    · simp only [Option.some.injEq] at h
      subst h
      exact ⟨_, _, _, _, rfl⟩
    · cases hsk : dns_name_skip fuel px offset max (tr ++ [Access.rr_write dns.rr_count]) with
      | none => simp [hsk] at h
      | some res =>
        obtain ⟨r, tr1⟩ := res
        simp only [hsk] at h
        split_ifs at h with c2 c3
        · simp only [Option.some.injEq] at h
          subst h
          exact ⟨_, _, _, _, rfl⟩
        · simp only [Option.some.injEq] at h
          subst h
          exact ⟨_, _, _, _, rfl⟩
        · obtain ⟨ro, rc, qt, qc, e⟩ := ih _ _ _ _ h
          exact ⟨ro, rc, qt, qc, by rw [e]⟩

/-- When the question loop is left after at least one iteration, the recorded
class is legal. -/
theorem question_loop_class (px : Buffer) (fuel max : Nat) :
    ∀ (n : Nat) (dns : DNS_Incoming) (offset : Nat) (tr : Trace) (d : DNS_Incoming)
      (o : Nat) (t : Trace),
      question_loop fuel px max n dns offset tr = some (Flow.continues d o t) →
      1 ≤ n ∨ legal_class dns.query_class → legal_class d.query_class := by
  intro n
  induction n with
  | zero =>
    intro dns offset tr d o t h hn
    simp only [question_loop, Option.some.injEq, Flow.continues.injEq] at h
    obtain ⟨rfl, -, -⟩ := h
    rcases hn with h | h
    · omega
    · exact h
  | succ n ih =>
    intro dns offset tr d o t h _
    rw [question_loop] at h
    split_ifs at h with c1
    · simp at h
    cases hsk : dns_name_skip fuel px offset max (tr ++ [Access.rr_write dns.rr_count]) with
    | none => simp [hsk] at h
    | some res =>
      obtain ⟨r, tr1⟩ := res
      simp only [hsk] at h
      split_ifs at h with c2 c3
      · simp at h
      · simp at h
      refine ih _ _ _ _ _ _ h (Or.inr ?_)
      simp only [legal_class]
      omega

/-- The answer and authority loop changes the table and the record count
only. -/
theorem answer_loop_frame (px : Buffer) (fuel max : Nat) :
    ∀ (n : Nat) (dns : DNS_Incoming) (offset : Nat) (tr : Trace) (fl : Flow),
      answer_loop fuel px max n dns offset tr = some fl →
      ∃ ro rc, fl.dns = { dns with rr_offset := ro, rr_count := rc } := by
  intro n
  induction n with
  | zero =>
    intro dns offset tr fl h
    simp only [answer_loop, Option.some.injEq] at h
    subst h
    exact ⟨_, _, rfl⟩
  | succ n ih =>
    intro dns offset tr fl h
    rw [answer_loop] at h
    split_ifs at h with c1
    · simp only [Option.some.injEq] at h
      subst h
      exact ⟨_, _, rfl⟩
    · cases hsk : dns_name_skip fuel px offset max (tr ++ [Access.rr_write dns.rr_count]) with
      | none => simp [hsk] at h
      | some res =>
        obtain ⟨r, tr1⟩ := res
        simp only [hsk] at h
        split_ifs at h with c2 c3
        · simp only [Option.some.injEq] at h
          subst h
          exact ⟨_, _, rfl⟩
        · simp only [Option.some.injEq] at h
          subst h
          exact ⟨_, _, rfl⟩
        · obtain ⟨ro, rc, e⟩ := ih _ _ _ _ h
          exact ⟨ro, rc, by rw [e]⟩

/-- The OPT parsing changes the response code and the EDNS0 state only; when
it goes on, the payload size is 512 or more if it was before. -/
theorem opt_record_frame (px : Buffer) (offset max : Nat) (dns : DNS_Incoming) (tr : Trace) :
    (∃ rcd ed ie, (opt_record px offset max dns tr).dns = { dns with
        rcode := rcd, edns0 := ed, is_edns0 := ie }) ∧
      ∀ d o t, opt_record px offset max dns tr = Flow.continues d o t →
        512 ≤ dns.edns0.payload_size → 512 ≤ d.edns0.payload_size := by
  simp only [opt_record]
  split_ifs with c1 c2
  · exact ⟨⟨_, _, _, rfl⟩, by intro d o t e; cases e⟩
  · refine ⟨⟨_, _, _, rfl⟩, ?_⟩
    intro d o t e _
    simp only [Flow.continues.injEq] at e
    obtain ⟨rfl, -, -⟩ := e
    simp only
    omega
  · refine ⟨⟨_, _, _, rfl⟩, ?_⟩
    intro d o t e h
    simp only [Flow.continues.injEq] at e
    obtain ⟨rfl, -, -⟩ := e
    exact h

/-- The additional loop changes the table, the record count, the response code
and the EDNS0 state only; when it is left normally, the payload size is 512 or
more if it was before. -/
theorem additional_loop_frame (px : Buffer) (fuel max : Nat) :
    ∀ (n : Nat) (dns : DNS_Incoming) (offset : Nat) (tr : Trace) (fl : Flow),
      additional_loop fuel px max n dns offset tr = some fl →
      (∃ ro rc rcd ed ie, fl.dns = { dns with
        rr_offset := ro, rr_count := rc, rcode := rcd, edns0 := ed, is_edns0 := ie }) ∧
      ∀ d o t, fl = Flow.continues d o t →
        512 ≤ dns.edns0.payload_size → 512 ≤ d.edns0.payload_size := by
  intro n
  induction n with
  | zero =>
    intro dns offset tr fl h
    simp only [additional_loop, Option.some.injEq] at h
    subst h
    refine ⟨⟨_, _, _, _, _, rfl⟩, ?_⟩
    intro d o t e hp
    simp only [Flow.continues.injEq] at e
    obtain ⟨rfl, -, -⟩ := e
    exact hp
  | succ n ih =>
    intro dns offset tr fl h
    rw [additional_loop] at h
    split_ifs at h with c1
    · simp only [Option.some.injEq] at h
      subst h
      exact ⟨⟨_, _, _, _, _, rfl⟩, by intro d o t e; cases e⟩
    · obtain ⟨⟨rcd, ed, ie, f1⟩, f2⟩ := opt_record_frame px offset max
        { dns with
          rr_offset := dns.rr_offset.set dns.rr_count (offset % 65536)
          rr_count := dns.rr_count + 1 }
        (tr ++ [Access.rr_write dns.rr_count])
      simp only at h
      generalize opt_record px offset max _ _ = fl0 at h f1 f2
      cases fl0 with
      | returned d0 t0 =>
        simp only [Option.some.injEq] at h
        subst h
        simp only [flow_dns_returned] at f1
        exact ⟨⟨_, _, _, _, _, f1⟩, by intro d o t e; cases e⟩
      | continues d0 o0 t0 =>
        simp only [flow_dns_continues] at f1
        simp only at h
        have f3 := f2 d0 o0 t0 rfl
        cases hsk : dns_name_skip fuel px offset max t0 with
        | none => simp [hsk] at h
        | some res =>
          obtain ⟨r, tr1⟩ := res
          simp only [hsk] at h
          split_ifs at h with c2 c3
          · simp only [Option.some.injEq] at h
            subst h
            exact ⟨⟨_, _, _, _, _, f1⟩, by intro d o t e; cases e⟩
          · simp only [Option.some.injEq] at h
            subst h
            exact ⟨⟨_, _, _, _, _, f1⟩, by intro d o t e; cases e⟩
          · obtain ⟨⟨ro, rc, rcd', ed', ie', e⟩, g⟩ := ih _ _ _ _ h
            refine ⟨⟨ro, rc, rcd', ed', ie', by rw [e, f1]⟩, ?_⟩
            intro d o t hfl hp
            exact g d o t hfl (f3 hp)

theorem parse_finish_frame (px : Buffer) (fuel max : Nat) (dns : DNS_Incoming) (tr : Trace)
    (dns' : DNS_Incoming) (tr' : Trace)
    (h : parse_finish fuel px max dns tr = some (dns', tr')) :
    ∃ nm, dns' = { dns with
      query_name := nm, query_name_buffer := nm.name, is_formerr := false } := by
  unfold parse_finish at h
  cases hx : dns_extract_name fuel px (dns.rr_offset.getD 0 0) max
      { name := dns.query_name_buffer, length := dns.query_name.length } tr with
  | none => rw [hx] at h; exact absurd h (by simp)
  | some res =>
    obtain ⟨nm, x, t⟩ := res
    simp only [hx, Option.some.injEq, Prod.mk.injEq] at h
    exact ⟨nm, h.1.symm⟩

/-- What the sections leave behind: the validity flag is untouched; the
format-error flag is cleared only after a legal class was recorded and with a
payload size that is still 512 or more. -/
theorem parse_sections_result (px : Buffer) (fuel max : Nat) (dns : DNS_Incoming)
    (offset : Nat) (tr : Trace) (dns' : DNS_Incoming) (tr' : Trace)
    (h : parse_sections fuel px max dns offset tr = some (dns', tr'))
    (hfe : dns.is_formerr = true) :
    dns'.is_valid = dns.is_valid ∧
      (dns'.is_formerr = false → legal_class dns'.query_class ∧
        (512 ≤ dns.edns0.payload_size → 512 ≤ dns'.edns0.payload_size)) := by
  unfold parse_sections at h
  split_ifs at h with c0
  · simp only [Option.some.injEq, Prod.mk.injEq] at h
    obtain ⟨rfl, -⟩ := h
    exact ⟨rfl, fun hf => by rw [hfe] at hf; cases hf⟩
  cases hq : question_loop fuel px max dns.qdcount dns offset tr with
  | none => simp [hq] at h
  | some fl1 =>
    obtain ⟨ro1, rc1, qt1, qc1, f1⟩ := question_loop_frame px fuel max _ _ _ _ _ hq
    cases fl1 with
    | returned d1 t1 =>
      simp only [hq, Option.some.injEq, Prod.mk.injEq] at h
      obtain ⟨rfl, -⟩ := h
      simp only [flow_dns_returned] at f1
      rw [f1]
      exact ⟨rfl, fun hf => by simp only [hfe] at hf; cases hf⟩
    | continues d1 o1 t1 =>
      have hcl := question_loop_class px fuel max _ _ _ _ _ _ _ hq (Or.inl (by omega))
      simp only [flow_dns_continues] at f1
      simp only [hq] at h
      cases ha : answer_loop fuel px max (d1.ancount + d1.nscount) d1 o1 t1 with
      | none => simp [ha] at h
      | some fl2 =>
        obtain ⟨ro2, rc2, f2⟩ := answer_loop_frame px fuel max _ _ _ _ _ ha
        cases fl2 with
        | returned d2 t2 =>
          simp only [ha, Option.some.injEq, Prod.mk.injEq] at h
          obtain ⟨rfl, -⟩ := h
          simp only [flow_dns_returned] at f2
          rw [f2, f1]
          exact ⟨rfl, fun hf => by simp only [hfe] at hf; cases hf⟩
        | continues d2 o2 t2 =>
          simp only [flow_dns_continues] at f2
          simp only [ha] at h
          cases hd : additional_loop fuel px max d2.arcount d2 o2 t2 with
          | none => simp [hd] at h
          | some fl3 =>
            obtain ⟨⟨ro3, rc3, rcd3, ed3, ie3, f3⟩, g3⟩ :=
              additional_loop_frame px fuel max _ _ _ _ _ hd
            cases fl3 with
            | returned d3 t3 =>
              simp only [hd, Option.some.injEq, Prod.mk.injEq] at h
              obtain ⟨rfl, -⟩ := h
              simp only [flow_dns_returned] at f3
              rw [f3, f2, f1]
              exact ⟨rfl, fun hf => by simp only [hfe] at hf; cases hf⟩
            | continues d3 o3 t3 =>
              simp only [flow_dns_continues] at f3
              simp only [hd] at h
              obtain ⟨nm, f4⟩ := parse_finish_frame px fuel max _ _ _ _ h
              have g := g3 d3 o3 t3 rfl
              refine ⟨by rw [f4, f3, f2, f1], fun _ => ⟨?_, ?_⟩⟩
              · have : dns'.query_class = d1.query_class := by rw [f4, f3, f2]
                rw [this]; exact hcl
              · intro hp
                have h2 : d2.edns0 = dns.edns0 := by rw [f2, f1]
                have : dns'.edns0 = d3.edns0 := by rw [f4]
                rw [this]
                exact g (by rw [h2]; exact hp)

/-! ## Response selector -/

/-- C11: for every packet and every `offset ≤ max` with `max - offset < 12`,
`proto_dns_parse` returns with `is_valid` false, and `proto_dns_process` on the
resulting message has no effect at all: no packet is allocated, none is
transmitted. -/
theorem short_message_dropped (fuel : Nat) (dns : DNS_Incoming) (px : Buffer)
    (offset max : Nat) (tr : Trace) (hmax : max < 4294967296) (ho : offset ≤ max)
    (hlen : max - offset < 12) :
    ∃ dns' tr', proto_dns_parse fuel dns px offset max tr = some (dns', tr') ∧
      dns'.is_valid = false ∧
      ∀ (fresh : Packet) (resolve : DNS_Incoming → Packet → Packet),
        proto_dns_process fresh resolve dns' = [] := by
  have hsub : u32sub max offset = max - offset := by unfold u32sub; omega
  refine ⟨{ dns with
      is_valid := false
      req := px
      req_length := u32sub max offset
      edns0 := { dns.edns0 with payload_size := 512 } }, tr, ?_, rfl, ?_⟩
  · unfold proto_dns_parse
    simp only [hsub, hlen, if_true]
  · intro fresh resolve
    simp [proto_dns_process]

/-- Witness of C11: the first five bytes of the minimal query. -/
theorem short_message_dropped_witness :
    ∃ dns' tr', proto_dns_parse 0 (blank 64) (buf minimal_query) 0 5 [] = some (dns', tr') ∧
      dns'.is_valid = false ∧
      ∀ (fresh : Packet) (resolve : DNS_Incoming → Packet → Packet),
        proto_dns_process fresh resolve dns' = [] :=
  short_message_dropped 0 (blank 64) (buf minimal_query) 0 5 [] (by decide) (by decide)
    (by decide)

theorem memcpy_getElem? (d : List Nat) (p : Nat) (s : List Nat) (c : Nat)
    (hp : p ≤ d.length) :
    (memcpy d p s)[c]? =
      if c < p then d[c]? else if c < p + s.length then s[c - p]? else d[c]? := by
  have h1 : (d.take p).length = p := by simp only [List.length_take]; omega
  unfold memcpy
  rw [List.append_assoc, List.getElem?_append, h1]
  by_cases c1 : c < p
  · simp only [c1, if_true]
    exact List.getElem?_take_of_lt c1
  · simp only [c1, if_false]
    by_cases c2 : c < p + s.length
    · simp only [c2, if_true]
      rw [List.getElem?_append_left (by omega)]
    · simp only [c2, if_false]
      rw [List.getElem?_append_right (by omega), List.getElem?_drop]
      congr 1
      omega

/-- A reply literal copied to the position of the packet and patched with the
two bytes of the id: the bytes sent are the literal with its first two bytes
replaced. -/
theorem patched_reply (b : List Nat) (off : Nat) (lit : List Nat) (x y : Nat)
    (hoff : off + lit.length ≤ b.length) (hl : 2 ≤ lit.length) :
    ((((memcpy b off lit).set (off + 0) x).set (off + 1) y).take (off + lit.length)).drop off
      = (lit.set 0 x).set 1 y := by
  apply List.ext_getElem?
  intro n
  rw [List.getElem?_drop, List.getElem?_take, List.getElem?_set, List.getElem?_set,
    memcpy_getElem? _ _ _ _ (by omega), List.getElem?_set, List.getElem?_set]
  simp only [List.length_set, memcpy_length _ _ _ hoff, Nat.add_zero]
  by_cases h1 : n < lit.length
  · have c1 : off + n < off + lit.length := by omega
    have c2 : ¬ off + n < off := by omega
    have e : off + n - off = n := by omega
    simp only [c1, c2, if_true, if_false, e]
    by_cases h3 : n = 1
    · subst h3
      have : off + 1 < b.length := by omega
      simp [this, h1]
    · have h4 : ¬ off + 1 = off + n := by omega
      have h5 : ¬ 1 = n := by omega
      simp only [h4, h5, if_false]
      by_cases h6 : n = 0
      · subst h6
        have : off < b.length := by omega
        simp [this, h1]
      · have h7 : ¬ off = off + n := by omega
        have h8 : ¬ 0 = n := by omega
        simp only [h7, h8, if_false]
  · have c1 : ¬ off + n < off + lit.length := by omega
    have h4 : ¬ 1 = n := by omega
    have h8 : ¬ 0 = n := by omega
    simp only [c1, if_false, h4, h8]
    exact (List.getElem?_eq_none (by omega)).symm

theorem shr8_mod (x : Nat) : (x >>> 8) % 256 = x / 256 % 256 := by
  rw [Nat.shiftRight_eq_div_pow]

theorem shr0_mod (x : Nat) : (x >>> 0) % 256 = x % 256 := by
  rw [Nat.shiftRight_eq_div_pow]
  simp

/-- With room for 12 bytes the format-error block allocates one packet and
transmits it with the 12-byte header after the position of the packet. -/
theorem formerr_reply_sent (fresh : Packet) (request : DNS_Incoming)
    (hroom : fresh.offset + 12 ≤ fresh.max) (hbuf : fresh.max ≤ fresh.buf.length) :
    ∃ pkt, formerr_reply fresh request = [Effect.create, Effect.xmit pkt] ∧
      pkt.offset = fresh.offset + 12 ∧ pkt.max = pkt.offset ∧
      sent_bytes fresh.offset pkt =
        [request.id / 256 % 256, request.id % 256, 0x80, 0x01, 0, 0, 0, 0, 0, 0, 0, 0] := by
  refine ⟨Packet.mk
    (((memcpy fresh.buf fresh.offset formerr_header).set (fresh.offset + 0)
      ((request.id >>> 8) % 256)).set (fresh.offset + 1) ((request.id >>> 0) % 256))
    (fresh.offset + 12) (fresh.offset + 12), ?_, rfl, rfl, ?_⟩
  · simp only [formerr_reply, hroom, if_true]
  · have h := patched_reply fresh.buf fresh.offset formerr_header
      ((request.id >>> 8) % 256) ((request.id >>> 0) % 256)
      (by simp only [formerr_header, List.length_cons, List.length_nil]; omega)
      (by simp [formerr_header])
    simp only [sent_bytes]
    rw [show fresh.offset + formerr_header.length = fresh.offset + 12 by rfl] at h
    rw [h, shr8_mod, shr0_mod]
    rfl

/-- C13: for every message with `is_valid` true and `is_formerr` true and every
reply packet with room for 12 bytes, `proto_dns_process` allocates one packet
and transmits it with exactly 12 bytes after the position of the packet: the
two bytes of the request id in big-endian order, then `0x80 0x01` (QR set,
RCODE 1), then eight zero bytes; nothing of the question is echoed. -/
theorem formerr_message_reply (fresh : Packet) (resolve : DNS_Incoming → Packet → Packet)
    (request : DNS_Incoming) (hv : request.is_valid = true) (hf : request.is_formerr = true)
    (hroom : fresh.offset + 12 ≤ fresh.max) (hbuf : fresh.max ≤ fresh.buf.length) :
    ∃ pkt, proto_dns_process fresh resolve request = [Effect.create, Effect.xmit pkt] ∧
      pkt.offset = fresh.offset + 12 ∧ pkt.max = pkt.offset ∧
      sent_bytes fresh.offset pkt =
        [request.id / 256 % 256, request.id % 256, 0x80, 0x01, 0, 0, 0, 0, 0, 0, 0, 0] ∧
      (sent_bytes fresh.offset pkt).length = 12 := by
  obtain ⟨pkt, h1, h2, h3, h4⟩ := formerr_reply_sent fresh request hroom hbuf
  refine ⟨pkt, ?_, h2, h3, h4, by rw [h4]; rfl⟩
  simp only [proto_dns_process, hv, hf, if_true, Bool.true_eq_false, if_false]
  exact h1

/-- Witness of C13: the minimal query with class 7, parsed and then processed
with a reply packet of 100 bytes at position 14. -/
theorem formerr_message_reply_witness :
    ∃ pkt, proto_dns_process reply_packet (fun _ p => p) (parsed class7_query)
        = [Effect.create, Effect.xmit pkt] ∧
      pkt.offset = reply_packet.offset + 12 ∧ pkt.max = pkt.offset ∧
      sent_bytes reply_packet.offset pkt =
        [(parsed class7_query).id / 256 % 256, (parsed class7_query).id % 256,
          0x80, 0x01, 0, 0, 0, 0, 0, 0, 0, 0] ∧
      (sent_bytes reply_packet.offset pkt).length = 12 :=
  formerr_message_reply reply_packet (fun _ p => p) (parsed class7_query) (by decide)
    (by decide) (by decide) (by decide)

/-- C14 (counterexample): the query `version_query` parses with `is_valid`
true, `is_formerr` false, class 3, type 16 and the name `07 version 04 bind` of
length 13; processed with a reply packet that has room for 36 bytes, a packet
is allocated and nothing is transmitted. -/
theorem chaos_reply_needs_room :
    (parsed version_query).is_valid = true ∧ (parsed version_query).is_formerr = false ∧
    (parsed version_query).query_class = 3 ∧ (parsed version_query).query_type = 16 ∧
    (parsed version_query).query_name.length = 13 ∧
    (parsed version_query).query_name.name.take 13
      = [7, 118, 101, 114, 115, 105, 111, 110, 4, 98, 105, 110, 100] ∧
    proto_dns_process small_packet (fun _ p => p) (parsed version_query) = [Effect.create] := by
  refine ⟨by decide, by decide, by decide, by decide, by decide, by decide, by decide⟩

theorem header_bits : ∀ b < 256,
    ((b >>> 7) &&& 1 = b / 128 ∧ (b >>> 2) &&& 1 = b / 4 % 2 ∧ (b >>> 1) &&& 1 = b / 2 % 2 ∧
      (b >>> 0) &&& 1 = b % 2 ∧ (b >>> 4) &&& 7 = b / 16 % 8 ∧
      (b >>> 3) &&& 0xf = b / 8 % 16 ∧ (b >>> 0) &&& 0xf = b % 16) := by
  decide!

theorem or_shl4_mod16 (a x : Nat) : (a ||| (x <<< 4)) % 16 = a % 16 := by
  apply Nat.eq_of_testBit_eq
  intro i
  rw [show (16 : Nat) = 2 ^ 4 by rfl]
  simp only [Nat.testBit_mod_two_pow, Nat.testBit_or, Nat.testBit_shiftLeft]
  by_cases h : i < 4
  · have : ¬ i ≥ 4 := by omega
    simp [h, this]
  · simp [h]

/-- The additional loop leaves the low 4 bits of the response code as they
are: an OPT record only ORs bits 4 and above into `rcode`. -/
theorem additional_loop_rcode (px : Buffer) (fuel max : Nat) :
    ∀ (n : Nat) (dns : DNS_Incoming) (offset : Nat) (tr : Trace) (fl : Flow),
      additional_loop fuel px max n dns offset tr = some fl →
      fl.dns.rcode % 16 = dns.rcode % 16 := by
  intro n
  induction n with
  | zero =>
    intro dns offset tr fl h
    simp only [additional_loop, Option.some.injEq] at h
    subst h
    rfl
  | succ n ih =>
    intro dns offset tr fl h
    rw [additional_loop] at h
    split_ifs at h with c1
    · simp only [Option.some.injEq] at h
      subst h
      rfl
    · have key : (opt_record px offset max
          { dns with
            rr_offset := dns.rr_offset.set dns.rr_count (offset % 65536)
            rr_count := dns.rr_count + 1 }
          (tr ++ [Access.rr_write dns.rr_count])).dns.rcode % 16 = dns.rcode % 16 := by
        simp only [opt_record]
        split_ifs
        · rfl
        · simp only [flow_dns_continues]
          exact or_shl4_mod16 _ _
        · rfl
      simp only at h
      generalize opt_record px offset max _ _ = fl0 at h key
      cases fl0 with
      | returned d0 t0 =>
        simp only [Option.some.injEq] at h
        subst h
        exact key
      | continues d0 o0 t0 =>
        simp only [flow_dns_continues] at key
        simp only at h
        cases hsk : dns_name_skip fuel px offset max t0 with
        | none => simp [hsk] at h
        | some res =>
          obtain ⟨r, tr1⟩ := res
          simp only [hsk] at h
          split_ifs at h with c2 c3
          · simp only [Option.some.injEq] at h
            subst h
            exact key
          · simp only [Option.some.injEq] at h
            subst h
            exact key
          · rw [ih _ _ _ _ h]
            exact key

/-- The header fields survive the sections, but for bits 4 and above of the
response code. -/
theorem parse_sections_header (px : Buffer) (fuel max : Nat) (dns : DNS_Incoming)
    (offset : Nat) (tr : Trace) (dns' : DNS_Incoming) (tr' : Trace)
    (h : parse_sections fuel px max dns offset tr = some (dns', tr')) :
    dns'.is_valid = dns.is_valid ∧ dns'.id = dns.id ∧ dns'.qr = dns.qr ∧
      dns'.opcode = dns.opcode ∧ dns'.aa = dns.aa ∧ dns'.tc = dns.tc ∧ dns'.rd = dns.rd ∧
      dns'.ra = dns.ra ∧ dns'.z = dns.z ∧ dns'.rcode % 16 = dns.rcode % 16 ∧
      dns'.qdcount = dns.qdcount ∧ dns'.ancount = dns.ancount ∧
      dns'.nscount = dns.nscount ∧ dns'.arcount = dns.arcount := by
  unfold parse_sections at h
  split_ifs at h with c0
  · simp only [Option.some.injEq, Prod.mk.injEq] at h
    obtain ⟨rfl, -⟩ := h
    simp
  cases hq : question_loop fuel px max dns.qdcount dns offset tr with
  | none => simp [hq] at h
  | some fl1 =>
    obtain ⟨ro1, rc1, qt1, qc1, f1⟩ := question_loop_frame px fuel max _ _ _ _ _ hq
    cases fl1 with
    | returned d1 t1 =>
      simp only [hq, Option.some.injEq, Prod.mk.injEq] at h
      obtain ⟨rfl, -⟩ := h
      simp only [flow_dns_returned] at f1
      rw [f1]
      simp
    | continues d1 o1 t1 =>
      simp only [flow_dns_continues] at f1
      simp only [hq] at h
      cases ha : answer_loop fuel px max (d1.ancount + d1.nscount) d1 o1 t1 with
      | none => simp [ha] at h
      | some fl2 =>
        obtain ⟨ro2, rc2, f2⟩ := answer_loop_frame px fuel max _ _ _ _ _ ha
        cases fl2 with
        | returned d2 t2 =>
          simp only [ha, Option.some.injEq, Prod.mk.injEq] at h
          obtain ⟨rfl, -⟩ := h
          simp only [flow_dns_returned] at f2
          rw [f2, f1]
          simp
        | continues d2 o2 t2 =>
          simp only [flow_dns_continues] at f2
          simp only [ha] at h
          have e2 : d2.rcode = dns.rcode := by rw [f2, f1]
          cases hd : additional_loop fuel px max d2.arcount d2 o2 t2 with
          | none => simp [hd] at h
          | some fl3 =>
            obtain ⟨⟨ro3, rc3, rcd3, ed3, ie3, f3⟩, -⟩ :=
              additional_loop_frame px fuel max _ _ _ _ _ hd
            have hr := additional_loop_rcode px fuel max _ _ _ _ _ hd
            cases fl3 with
            | returned d3 t3 =>
              simp only [hd, Option.some.injEq, Prod.mk.injEq] at h
              obtain ⟨rfl, -⟩ := h
              simp only [flow_dns_returned] at f3 hr
              refine ⟨?_, ?_, ?_, ?_, ?_, ?_, ?_, ?_, ?_, by rw [hr, e2], ?_, ?_, ?_, ?_⟩
              all_goals rw [f3, f2, f1]
            | continues d3 o3 t3 =>
              simp only [flow_dns_continues] at f3 hr
              simp only [hd] at h
              obtain ⟨nm, f4⟩ := parse_finish_frame px fuel max _ _ _ _ h
              have e4 : dns'.rcode = d3.rcode := by rw [f4]
              refine ⟨?_, ?_, ?_, ?_, ?_, ?_, ?_, ?_, ?_, by rw [e4, hr, e2], ?_, ?_, ?_, ?_⟩
              all_goals rw [f4, f3, f2, f1]

theorem parse_header_decoded (dns : DNS_Incoming) (px : Buffer) (offset : Nat)
    (ho : offset + 12 ≤ 4294967296) : HeaderDecoded px offset (parse_header dns px offset) := by
  have hu : ∀ k, k ≤ 11 → u32 (offset + k) = offset + k := fun k hk => u32_of_lt (by omega)
  have hu0 : u32 offset = offset := u32_of_lt (by omega)
  have b2 := header_bits _ (rd_lt px (offset + 2))
  have b3 := header_bits _ (rd_lt px (offset + 3))
  simp only [HeaderDecoded, parse_header, hu0, hu 1 (by omega), hu 2 (by omega),
    hu 3 (by omega), hu 4 (by omega), hu 5 (by omega), hu 6 (by omega), hu 7 (by omega),
    hu 8 (by omega), hu 9 (by omega), hu 10 (by omega), hu 11 (by omega), Nat.add_zero,
    shl8_or _ _ (rd_lt px _)]
  refine ⟨trivial, trivial, b2.1, b2.2.2.2.2.2.1, b2.2.1, b2.2.2.1, b2.2.2.2.1, b3.1,
    b3.2.2.2.2.1, ?_, trivial, trivial, trivial, trivial⟩
  rw [b3.2.2.2.2.2.2]
  exact Nat.mod_mod _ _

/-- C12: for every packet with at least 12 bytes from `offset`,
`proto_dns_parse` first brings the state to one with `is_valid` true and the
header decoded as laid out (`id` the big-endian bytes 0-1; of byte 2, `qr` bit
7, `opcode` bits 6..3, `aa` bit 2, `tc` bit 1, `rd` bit 0; of byte 3, `ra` bit
7, `z` bits 6..4, the low 4 bits of `rcode` bits 3..0; the four counts the
big-endian 16-bit values at bytes 4, 6, 8, 10) and then runs the sections on
it; every state the parser returns still has the header so decoded, whatever
the rest of the message contains; and with `max ≤ 65535` and fuel from 1282 on
it does return. -/
theorem header_decoded (fuel : Nat) (dns : DNS_Incoming) (px : Buffer) (offset max : Nat)
    (hmax : max < 4294967296) (ho : offset ≤ max) (hlen : 12 ≤ max - offset) :
    (∀ tr, ∃ hdr, HeaderDecoded px offset hdr ∧
      proto_dns_parse fuel dns px offset max tr =
        parse_sections fuel px max hdr (offset + 12) (tr ++ header_reads offset)) ∧
    (∀ (dns' : DNS_Incoming) (tr tr' : Trace),
      proto_dns_parse fuel dns px offset max tr = some (dns', tr') →
      HeaderDecoded px offset dns') ∧
    (max ≤ 65535 → 1282 ≤ fuel →
      ∃ dns' tr', proto_dns_parse fuel dns px offset max [] = some (dns', tr')) := by
  have hsub : u32sub max offset = max - offset := by unfold u32sub; omega
  have c : ¬ max - offset < 12 := by omega
  have h12 : u32 (offset + 12) = offset + 12 := u32_of_lt (by omega)
  refine ⟨?_, ?_, ?_⟩
  · intro tr
    refine ⟨parse_header { dns with
      is_valid := false
      req := px
      req_length := u32sub max offset
      edns0 := { dns.edns0 with payload_size := 512 } } px offset,
      parse_header_decoded _ px offset (by omega), ?_⟩
    unfold proto_dns_parse
    simp only [hsub, c, if_false, h12]
  · intro dns' tr tr' h
    unfold proto_dns_parse at h
    simp only [hsub, c, if_false] at h
    obtain ⟨p1, p2, p3, p4, p5, p6, p7, p8, p9, p10, p11, p12, p13, p14⟩ :=
      parse_sections_header px fuel max _ _ _ _ _ h
    obtain ⟨q1, q2, q3, q4, q5, q6, q7, q8, q9, q10, q11, q12, q13, q14⟩ :=
      parse_header_decoded { dns with
        is_valid := false
        req := px
        req_length := max - offset
        edns0 := { dns.edns0 with payload_size := 512 } } px offset (by omega)
    exact ⟨p1.trans q1, p2.trans q2, p3.trans q3, p4.trans q4, p5.trans q5, p6.trans q6,
      p7.trans q7, p8.trans q8, p9.trans q9, p10.trans q10, p11.trans q11, p12.trans q12,
      p13.trans q13, p14.trans q14⟩
  · intro h1 h2
    obtain ⟨d, t, h, -⟩ := parse_safe fuel dns px offset max h2 h1 ho
    exact ⟨d, t, h⟩

/-- Witness of C12: the minimal query. -/
theorem header_decoded_witness :
    (∀ tr, ∃ hdr, HeaderDecoded (buf minimal_query) 0 hdr ∧
      proto_dns_parse 1282 (blank 64) (buf minimal_query) 0 29 tr =
        parse_sections 1282 (buf minimal_query) 29 hdr (0 + 12) (tr ++ header_reads 0)) ∧
    (∀ (dns' : DNS_Incoming) (tr tr' : Trace),
      proto_dns_parse 1282 (blank 64) (buf minimal_query) 0 29 tr = some (dns', tr') →
      HeaderDecoded (buf minimal_query) 0 dns') ∧
    ((29 : Nat) ≤ 65535 → (1282 : Nat) ≤ 1282 →
      ∃ dns' tr', proto_dns_parse 1282 (blank 64) (buf minimal_query) 0 29 [] =
        some (dns', tr')) :=
  header_decoded 1282 (blank 64) (buf minimal_query) 0 29 (by decide) (by decide) (by decide)

theorem name_walk_add (px : Buffer) (max : Nat) :
    ∀ (a b o : Nat), name_walk px max (a + b) o =
      (name_walk px max a o).bind (name_walk px max b) := by
  intro a
  induction a with
  | zero => intro b o; simp [name_walk]
  | succ a ih =>
    intro b o
    rw [show a + 1 + b = (a + b) + 1 by omega]
    simp only [name_walk]
    cases name_next px max o with
    | none => rfl
    | some x => simp only [Option.some_bind]; exact ih b x

theorem name_walk_cycle (px : Buffer) (max p k : Nat) (h : name_walk px max k p = some p) :
    ∀ m, name_walk px max (m * k) p = some p := by
  intro m
  induction m with
  | zero => simp [name_walk]
  | succ m ih =>
    rw [Nat.succ_mul, name_walk_add, ih]
    exact h

/-- A cyclic traversal never comes to a position it cannot step from. -/
theorem cyclic_never_stops (px : Buffer) (max o : Nat) (h : Cyclic px max o) (n q : Nat)
    (hw : name_walk px max n o = some q) : name_next px max q ≠ none := by
  obtain ⟨j, k, p, hk, hj, hc⟩ := h
  intro hq
  have h1 : name_walk px max (n + 1) o = none := by
    rw [name_walk_add, hw]
    simp [name_walk, hq]
  have hle : n + 1 ≤ j + (n + 1) * k := by
    have : (n + 1) * 1 ≤ (n + 1) * k := Nat.mul_le_mul_left _ hk
    omega
  have h2 : name_walk px max (j + (n + 1) * k) o = none := by
    rw [show j + (n + 1) * k = (n + 1) + (j + (n + 1) * k - (n + 1)) by omega, name_walk_add, h1]
    rfl
  rw [name_walk_add, hj] at h2
  simp only [Option.some_bind] at h2
  rw [name_walk_cycle px max p k hc] at h2
  exact absurd h2 (by simp)

theorem name_next_end (px : Buffer) (max o : Nat) (h : rd px o = 0) :
    name_next px max o = none := by
  unfold name_next
  simp [h]

theorem name_next_label (px : Buffer) (max o : Nat) (h1 : ¬ max ≤ o) (h2 : ¬ rd px o = 0)
    (h3 : rd px o < 64) : name_next px max o = some (u32 (o + (rd px o + 1))) := by
  unfold name_next
  simp [h1, h2, h3]

theorem name_next_pointer (px : Buffer) (max o : Nat) (h1 : ¬ max ≤ o + 1)
    (h2 : ¬ rd px o < 192) : name_next px max o = some (pointer_target px o) := by
  unfold name_next
  have a1 : ¬ max ≤ o := by omega
  have a2 : ¬ rd px o = 0 := by omega
  have a3 : ¬ rd px o < 64 := by omega
  simp [a1, a2, a3, h1, h2]

theorem name_walk_step (px : Buffer) (max o o' n q : Nat) (h : name_next px max o = some o')
    (hw : name_walk px max n o' = some q) : name_walk px max (n + 1) o = some q := by
  simp only [name_walk, h, Option.some_bind]
  exact hw

/-- A validating skip that does not fail has traversed the name to a position
with no further step. -/
theorem validate_loop_stops (px : Buffer) (max ERROR result : Nat) :
    ∀ (fuel o nl rec : Nat) (tr : Trace) (r : Nat) (tr' : Trace),
      dns_name_skip_validate_loop px max ERROR result fuel o nl rec tr = some (r, tr') →
      r ≠ ERROR → ∃ n q, name_walk px max n o = some q ∧ name_next px max q = none := by
  intro fuel
  induction fuel with
  | zero => intro o nl rec tr r tr' h; simp [dns_name_skip_validate_loop] at h
  | succ fuel ih =>
    intro o nl rec tr r tr' h hr
    rw [validate_loop_succ] at h
    split_ifs at h with c1 c2 c3 c4 c5 c6 c7
    · simp only [Option.some.injEq, Prod.mk.injEq] at h; exact absurd h.1.symm hr
    · simp only [Option.some.injEq, Prod.mk.injEq] at h; exact absurd h.1.symm hr
    · exact ⟨0, o, rfl, name_next_end px max o c4⟩
    · obtain ⟨n, q, hw, hq⟩ := ih _ _ _ _ _ _ h hr
      exact ⟨n + 1, q, name_walk_step px max o _ n q (name_next_label px max o c2 c4 c3) hw, hq⟩
    · simp only [Option.some.injEq, Prod.mk.injEq] at h; exact absurd h.1.symm hr
    · simp only [Option.some.injEq, Prod.mk.injEq] at h; exact absurd h.1.symm hr
    · simp only [Option.some.injEq, Prod.mk.injEq] at h; exact absurd h.1.symm hr
    · obtain ⟨n, q, hw, hq⟩ := ih _ _ _ _ _ _ h hr
      exact ⟨n + 1, q, name_walk_step px max o _ n q (name_next_pointer px max o c6 c5) hw, hq⟩

/-- A skip that does not fail has traversed the name to a position with no
further step. -/
theorem skip_loop_stops (px : Buffer) (max : Nat) :
    ∀ (fuel o nl : Nat) (tr : Trace) (r : Nat) (tr' : Trace),
      dns_name_skip_loop px max fuel o nl tr = some (r, tr') →
      r ≠ u32 (max + 1) → ∃ n q, name_walk px max n o = some q ∧ name_next px max q = none := by
  intro fuel
  induction fuel with
  | zero => intro o nl tr r tr' h; simp [dns_name_skip_loop] at h
  | succ fuel ih =>
    intro o nl tr r tr' h hr
    rw [skip_loop_succ] at h
    split_ifs at h with c1 c2 c3 c4 c5
    · simp only [Option.some.injEq, Prod.mk.injEq] at h; exact absurd h.1.symm hr
    · simp only [Option.some.injEq, Prod.mk.injEq] at h; exact absurd h.1.symm hr
    · exact ⟨0, o, rfl, name_next_end px max o c4⟩
    · obtain ⟨n, q, hw, hq⟩ := ih _ _ _ _ _ h hr
      exact ⟨n + 1, q, name_walk_step px max o _ n q (name_next_label px max o c2 c4 c3) hw, hq⟩
    · simp only [Option.some.injEq, Prod.mk.injEq] at h; exact absurd h.1.symm hr
    · exact validate_loop_stops px max _ _ fuel o nl 0 _ r tr' h hr

/-- A pointer that points to itself makes the traversal cyclic. -/
theorem self_pointer_cyclic (px : Buffer) (max o : Nat) (h1 : o + 1 < max)
    (h2 : 192 ≤ rd px o) (h3 : pointer_target px o = o) : Cyclic px max o := by
  refine ⟨0, 1, o, by decide, rfl, ?_⟩
  have hn := name_next_pointer px max o (by omega) (by omega)
  rw [h3] at hn
  exact name_walk_step px max o o 0 o hn rfl

/-- A label followed by a pointer back to that label makes the traversal
cyclic. -/
theorem label_pointer_cyclic (px : Buffer) (max o : Nat) (hmax : max < 4294967296)
    (h1 : o + rd px o + 2 < max) (h2 : 0 < rd px o) (h3 : rd px o < 64)
    (h4 : 192 ≤ rd px (o + rd px o + 1)) (h5 : pointer_target px (o + rd px o + 1) = o) :
    Cyclic px max o := by
  refine ⟨0, 2, o, by decide, rfl, ?_⟩
  have hl := name_next_label px max o (by omega) (by omega) h3
  rw [u32_of_lt (by omega), show o + (rd px o + 1) = o + rd px o + 1 by omega] at hl
  have hp := name_next_pointer px max (o + rd px o + 1) (by omega) (by omega)
  rw [h5] at hp
  exact name_walk_step px max o _ 1 o hl (name_walk_step px max _ o 0 o hp rfl)

/-- C19: for every buffer, offset and bound, `dns_name_skip` and
`dns_name_skip_validate` terminate (fuel 1282, five steps for each of the at
most 255 units of accumulated length and a few more, is enough for both to
return), and on every name whose traversal is cyclic they return the failure
sentinel, the 32-bit value of `max + 1`. -/
theorem name_skip_terminates (fuel : Nat) (px : Buffer) (offset max nl : Nat) (tr : Trace)
    (hf : 1282 ≤ fuel) :
    (∃ r tr', dns_name_skip fuel px offset max tr = some (r, tr') ∧
      (Cyclic px max offset → r = u32 (max + 1))) ∧
    (∃ r tr', dns_name_skip_validate fuel px offset max nl tr = some (r, tr') ∧
      (Cyclic px max offset → r = u32 (max + 1))) := by
  constructor
  · obtain ⟨r, tr', h⟩ := skip_terminates px fuel offset max tr hf
    refine ⟨r, tr', h, fun hc => ?_⟩
    by_contra hr
    obtain ⟨n, q, hw, hq⟩ := skip_loop_stops px max fuel offset 0 tr r tr' h hr
    exact cyclic_never_stops px max offset hc n q hw hq
  · obtain ⟨r, tr', h⟩ := validate_terminates px fuel offset max nl tr (by omega)
    refine ⟨r, tr', h, fun hc => ?_⟩
    by_contra hr
    obtain ⟨n, q, hw, hq⟩ := validate_loop_stops px max _ _ fuel offset nl 0 tr r tr' h hr
    exact cyclic_never_stops px max offset hc n q hw hq

/-- Witness of C19: a label followed by a pointer back to it is cyclic, and
both functions return the sentinel 5 on it. -/
theorem name_skip_terminates_witness :
    Cyclic (buf label_loop) 4 0 ∧
    (dns_name_skip 1282 (buf label_loop) 0 4 []).map Prod.fst = some 5 ∧
    ((∃ r tr', dns_name_skip 1282 (buf label_loop) 0 4 [] = some (r, tr') ∧
      (Cyclic (buf label_loop) 4 0 → r = u32 (4 + 1))) ∧
    (∃ r tr', dns_name_skip_validate 1282 (buf label_loop) 0 4 0 [] = some (r, tr') ∧
      (Cyclic (buf label_loop) 4 0 → r = u32 (4 + 1)))) :=
  ⟨label_pointer_cyclic (buf label_loop) 4 0 (by decide) (by decide) (by decide) (by decide)
      (by decide) (by decide),
    by decide!, name_skip_terminates 1282 (buf label_loop) 0 4 0 [] (by decide)⟩

theorem name_path_head (px : Buffer) (max n o : Nat) : o ∈ name_path px max n o := by
  cases n <;> simp [name_path]

theorem name_path_step (px : Buffer) (max n o o' : Nat) (h : name_next px max o = some o') :
    name_path px max (n + 1) o = o :: name_path px max n o' := by
  simp only [name_path, h]

theorem name_labels_zero (px : Buffer) (max o : Nat) (h : rd px o = 0) :
    name_labels px max 0 o = [] := by
  simp [name_labels, name_path, is_label, h]

theorem name_labels_label (px : Buffer) (max n o o' : Nat) (h : name_next px max o = some o')
    (h1 : ¬ rd px o = 0) (h2 : rd px o < 64) :
    name_labels px max (n + 1) o = o :: name_labels px max n o' := by
  have : is_label px o = true := by
    simp only [is_label, Bool.and_eq_true, decide_eq_true_eq]
    omega
  simp only [name_labels, name_path_step px max n o o' h, List.filter_cons, this, if_true]

theorem name_labels_pointer (px : Buffer) (max n o o' : Nat) (h : name_next px max o = some o')
    (h2 : ¬ rd px o < 64) :
    name_labels px max (n + 1) o = name_labels px max n o' := by
  have : is_label px o = false := by
    simp only [is_label, Bool.and_eq_false_iff, decide_eq_false_iff_not]
    omega
  simp [name_labels, name_path_step px max n o o' h, List.filter_cons, this]

/-- A traversal that ends inside the packet starts inside the packet. -/
theorem name_walk_head_lt (px : Buffer) (max n o q : Nat) (h : name_walk px max n o = some q)
    (hq : q < max) : o < max := by
  cases n with
  | zero =>
    simp only [name_walk, Option.some.injEq] at h
    omega
  | succ n =>
    simp only [name_walk] at h
    by_contra c
    have : name_next px max o = none := by
      unfold name_next
      simp [Nat.le_of_not_lt c]
    rw [this] at h
    simp at h

/-- A validating skip that does not fail has made the steps of the traversal,
up to a zero-length terminator inside the packet, reading each position of it
and besides them only the second byte of a pointer; the accumulated length
stays below 255. -/
theorem validate_loop_path (px : Buffer) (max ERROR result : Nat) :
    ∀ (fuel o nl rec : Nat) (tr : Trace) (r : Nat) (tr' : Trace),
      dns_name_skip_validate_loop px max ERROR result fuel o nl rec tr = some (r, tr') →
      r ≠ ERROR →
      ∃ n q, n < fuel ∧ name_walk px max n o = some q ∧ rd px q = 0 ∧ q < max ∧
        nl + labels_length px (name_labels px max n o) < 255 ∧
        (∀ a ∈ tr, a ∈ tr') ∧
        (∀ p ∈ name_path px max n o, Access.read p ∈ tr') ∧
        (∀ a ∈ tr', a ∈ tr ∨
          ∃ p ∈ name_path px max n o, a = Access.read p ∨ a = Access.read (p + 1)) := by
  intro fuel
  induction fuel with
  | zero => intro o nl rec tr r tr' h; simp [dns_name_skip_validate_loop] at h
  | succ fuel ih =>
    intro o nl rec tr r tr' h hr
    rw [validate_loop_succ] at h
    split_ifs at h with c1 c2 c3 c4 c5 c6 c7
    · simp only [Option.some.injEq, Prod.mk.injEq] at h; exact absurd h.1.symm hr
    · simp only [Option.some.injEq, Prod.mk.injEq] at h; exact absurd h.1.symm hr
    · simp only [Option.some.injEq, Prod.mk.injEq] at h
      obtain ⟨-, rfl⟩ := h
      refine ⟨0, o, by omega, rfl, c4, by omega, ?_, ?_, ?_, ?_⟩
      · rw [name_labels_zero px max o c4]
        simp only [labels_length]
        omega
      · intro a ha
        exact List.mem_append_left _ ha
      · intro p hp
        simp only [name_path, List.mem_singleton] at hp
        subst hp
        simp
      · intro a ha
        rcases List.mem_append.1 ha with h1 | h1
        · exact Or.inl h1
        · simp only [List.mem_singleton] at h1
          exact Or.inr ⟨o, name_path_head px max 0 o, Or.inl h1⟩
    · have hnx := name_next_label px max o c2 c4 c3
      obtain ⟨n, q, hn, hw, hq0, hqm, hlen, hsub, hpath, hconv⟩ := ih _ _ _ _ _ _ h hr
      refine ⟨n + 1, q, by omega, name_walk_step px max o _ n q hnx hw, hq0, hqm, ?_, ?_, ?_, ?_⟩
      · rw [name_labels_label px max n o _ hnx c4 c3]
        simp only [labels_length]
        omega
      · intro a ha
        exact hsub a (List.mem_append_left _ ha)
      · intro p hp
        rw [name_path_step px max n o _ hnx, List.mem_cons] at hp
        rcases hp with rfl | hp
        · exact hsub _ (by simp)
        · exact hpath p hp
      · intro a ha
        rw [name_path_step px max n o _ hnx]
        rcases hconv a ha with h1 | ⟨p, hp, h1⟩
        · rcases List.mem_append.1 h1 with h2 | h2
          · exact Or.inl h2
          · simp only [List.mem_singleton] at h2
            exact Or.inr ⟨o, List.mem_cons_self _ _, Or.inl h2⟩
        · exact Or.inr ⟨p, List.mem_cons_of_mem _ hp, h1⟩
    · simp only [Option.some.injEq, Prod.mk.injEq] at h; exact absurd h.1.symm hr
    · simp only [Option.some.injEq, Prod.mk.injEq] at h; exact absurd h.1.symm hr
    · simp only [Option.some.injEq, Prod.mk.injEq] at h; exact absurd h.1.symm hr
    · have hnx := name_next_pointer px max o c6 c5
      obtain ⟨n, q, hn, hw, hq0, hqm, hlen, hsub, hpath, hconv⟩ := ih _ _ _ _ _ _ h hr
      refine ⟨n + 1, q, by omega, name_walk_step px max o _ n q hnx hw, hq0, hqm, ?_, ?_, ?_, ?_⟩
      · rw [name_labels_pointer px max n o _ hnx c3]
        exact hlen
      · intro a ha
        exact hsub a (List.mem_append_left _ ha)
      · intro p hp
        rw [name_path_step px max n o _ hnx, List.mem_cons] at hp
        rcases hp with rfl | hp
        · exact hsub _ (by simp)
        · exact hpath p hp
      · intro a ha
        rw [name_path_step px max n o _ hnx]
        rcases hconv a ha with h1 | ⟨p, hp, h1⟩
        · rcases List.mem_append.1 h1 with h2 | h2
          · exact Or.inl h2
          · simp only [List.mem_cons, List.mem_singleton, List.not_mem_nil, or_false] at h2
            refine Or.inr ⟨o, List.mem_cons_self _ _, ?_⟩
            rcases h2 with h2 | h2 | h2
            · exact Or.inl h2
            · exact Or.inl h2
            · exact Or.inr h2
        · exact Or.inr ⟨p, List.mem_cons_of_mem _ hp, h1⟩

/-- A skip that does not fail has made the steps of the traversal, up to a
zero-length terminator inside the packet, reading each position of it and
besides them only the second byte of a pointer; the accumulated length stays
below 255. -/
theorem skip_loop_path (px : Buffer) (max : Nat) :
    ∀ (fuel o nl : Nat) (tr : Trace) (r : Nat) (tr' : Trace),
      dns_name_skip_loop px max fuel o nl tr = some (r, tr') →
      r ≠ u32 (max + 1) →
      ∃ n q, n < fuel ∧ name_walk px max n o = some q ∧ rd px q = 0 ∧ q < max ∧
        nl + labels_length px (name_labels px max n o) < 255 ∧
        (∀ a ∈ tr, a ∈ tr') ∧
        (∀ p ∈ name_path px max n o, Access.read p ∈ tr') ∧
        (∀ a ∈ tr', a ∈ tr ∨
          ∃ p ∈ name_path px max n o, a = Access.read p ∨ a = Access.read (p + 1)) := by
  intro fuel
  induction fuel with
  | zero => intro o nl tr r tr' h; simp [dns_name_skip_loop] at h
  | succ fuel ih =>
    intro o nl tr r tr' h hr
    rw [skip_loop_succ] at h
    split_ifs at h with c1 c2 c3 c4 c5
    · simp only [Option.some.injEq, Prod.mk.injEq] at h; exact absurd h.1.symm hr
    · simp only [Option.some.injEq, Prod.mk.injEq] at h; exact absurd h.1.symm hr
    · simp only [Option.some.injEq, Prod.mk.injEq] at h
      obtain ⟨-, rfl⟩ := h
      refine ⟨0, o, by omega, rfl, c4, by omega, ?_, ?_, ?_, ?_⟩
      · rw [name_labels_zero px max o c4]
        simp only [labels_length]
        omega
      · intro a ha
        exact List.mem_append_left _ ha
      · intro p hp
        simp only [name_path, List.mem_singleton] at hp
        subst hp
        simp
      · intro a ha
        rcases List.mem_append.1 ha with h1 | h1
        · exact Or.inl h1
        · simp only [List.mem_cons, List.mem_singleton, List.not_mem_nil, or_false, or_self] at h1
          exact Or.inr ⟨o, name_path_head px max 0 o, Or.inl h1⟩
    · have hnx := name_next_label px max o c2 c4 c3
      obtain ⟨n, q, hn, hw, hq0, hqm, hlen, hsub, hpath, hconv⟩ := ih _ _ _ _ _ h hr
      refine ⟨n + 1, q, by omega, name_walk_step px max o _ n q hnx hw, hq0, hqm, ?_, ?_, ?_, ?_⟩
      · rw [name_labels_label px max n o _ hnx c4 c3]
        simp only [labels_length]
        omega
      · intro a ha
        exact hsub a (List.mem_append_left _ ha)
      · intro p hp
        rw [name_path_step px max n o _ hnx, List.mem_cons] at hp
        rcases hp with rfl | hp
        · exact hsub _ (by simp)
        · exact hpath p hp
      · intro a ha
        rw [name_path_step px max n o _ hnx]
        rcases hconv a ha with h1 | ⟨p, hp, h1⟩
        · rcases List.mem_append.1 h1 with h2 | h2
          · exact Or.inl h2
          · simp only [List.mem_cons, List.mem_singleton, List.not_mem_nil, or_false,
              or_self] at h2
            exact Or.inr ⟨o, List.mem_cons_self _ _, Or.inl h2⟩
        · exact Or.inr ⟨p, List.mem_cons_of_mem _ hp, h1⟩
    · simp only [Option.some.injEq, Prod.mk.injEq] at h; exact absurd h.1.symm hr
    · obtain ⟨n, q, hn, hw, hq0, hqm, hlen, hsub, hpath, hconv⟩ :=
        validate_loop_path px max _ _ fuel o nl 0 _ r tr' h hr
      refine ⟨n, q, by omega, hw, hq0, hqm, hlen, ?_, hpath, ?_⟩
      · intro a ha
        exact hsub a (List.mem_append_left _ ha)
      · intro a ha
        rcases hconv a ha with h1 | h1
        · rcases List.mem_append.1 h1 with h2 | h2
          · exact Or.inl h2
          · simp only [List.mem_singleton] at h2
            exact Or.inr ⟨o, name_path_head px max n o, Or.inl h2⟩
        · exact Or.inr h1

/-- Along a traversal that ends at a zero-length terminator inside the packet
with less than 255 bytes of labels, `dns_extract_name` terminates at that
terminator, reads each position of the traversal, copies the labels of the
traversal one after the other and adds their lengths to the name length, all
within the packet and the name buffer. -/
theorem extract_loop_path (px : Buffer) (max cap : Nat) (hmax : max + 64 < 4294967296) :
    ∀ (n o q : Nat) (name : DomainPointer) (etr : Trace) (fuel : Nat),
      name_walk px max n o = some q → rd px q = 0 → q < max →
      name.length + labels_length px (name_labels px max n o) < 255 →
      name.length ≤ name.name.length → n < fuel → Safe max cap etr →
      ∃ etr', dns_extract_name_loop px max fuel o name etr =
          some (DomainPointer.mk
            (memcpy name.name name.length (labels_bytes px (name_labels px max n o)))
            (name.length + labels_length px (name_labels px max n o)),
            Exit.end_of_name, etr') ∧
        Safe max cap etr' ∧ (∀ a ∈ etr, a ∈ etr') ∧
        (∀ p ∈ name_path px max n o, Access.read p ∈ etr') := by
  intro n
  induction n with
  | zero =>
    intro o q name etr fuel hw hq0 hqm hlen hnm hf hs
    simp only [name_walk, Option.some.injEq] at hw
    subst hw
    obtain ⟨f, rfl⟩ : ∃ f, fuel = f + 1 := ⟨fuel - 1, by omega⟩
    rw [extract_loop_succ]
    have c1 : ¬ max ≤ o := by omega
    have c2 : rd px o < 64 := by omega
    simp only [c1, hq0, if_true, if_false, (by decide : (0 : Nat) < 64)]
    refine ⟨etr ++ [Access.read o], ?_, ?_, ?_, ?_⟩
    · rw [name_labels_zero px max o hq0]
      simp only [labels_bytes, labels_length, memcpy_nil, Nat.add_zero]
    · exact safe_append.2 ⟨hs, safe_read1 hqm⟩
    · intro a ha
      exact List.mem_append_left _ ha
    · intro p hp
      simp only [name_path, List.mem_singleton] at hp
      subst hp
      simp
  | succ n ih =>
    intro o q name etr fuel hw hq0 hqm hlen hnm hf hs
    obtain ⟨f, rfl⟩ : ∃ f, fuel = f + 1 := ⟨fuel - 1, by omega⟩
    simp only [name_walk] at hw
    cases hnx : name_next px max o with
    | none => simp [hnx] at hw
    | some o' =>
      simp only [hnx, Option.some_bind] at hw
      have ho' := name_walk_head_lt px max n o' q hw hqm
      have hnx0 := hnx
      unfold name_next at hnx
      split_ifs at hnx with c1 c2 c3 c4 c5
      · simp only [Option.some.injEq] at hnx
        have hu : u32 (o + (rd px o + 1)) = o + (rd px o + 1) := u32_of_lt (by omega)
        rw [hu] at hnx
        subst hnx
        rw [name_labels_label px max n o _ hnx0 c2 c3] at hlen ⊢
        simp only [labels_length, labels_bytes] at hlen ⊢
        have hb := bytes_at_length px o (rd px o + 1)
        have hmod : (name.length + rd px o + 1) % 256 = name.length + (rd px o + 1) := by omega
        obtain ⟨etr', he, hs', hsub, hpath⟩ := ih _ q
          (DomainPointer.mk (memcpy name.name name.length (bytes_at px o (rd px o + 1)))
            (name.length + (rd px o + 1)))
          (etr ++ [Access.read o] ++ reads_at o (rd px o + 1) ++
            name_writes_at name.length (rd px o + 1)) f hw hq0 hqm
          (by simp only; omega)
          (by
            have := memcpy_length_ge name.name name.length (bytes_at px o (rd px o + 1)) hnm
            simp only
            omega)
          (by omega)
          (safe_append.2 ⟨safe_append.2 ⟨safe_append.2 ⟨hs, safe_read1 (by omega)⟩,
            safe_reads_at (by omega)⟩, safe_name_writes_at (by omega)⟩)
        simp only at he
        refine ⟨etr', ?_, hs', ?_, ?_⟩
        · rw [extract_loop_succ]
          simp only [c1, c2, c3, if_true, if_false, hu, hmod]
          rw [he]
          simp only [Option.some.injEq, Prod.mk.injEq, DomainPointer.mk.injEq, and_true]
          constructor
          · have := memcpy_memcpy name.name name.length (bytes_at px o (rd px o + 1))
              (labels_bytes px (name_labels px max n (o + (rd px o + 1)))) hnm
            rw [hb] at this
            exact this
          · omega
        · intro a ha
          exact hsub a (by simp [ha])
        · intro p hp
          rw [name_path_step px max n o _ hnx0, List.mem_cons] at hp
          rcases hp with rfl | hp
          · exact hsub _ (by simp)
          · exact hpath p hp
      · simp only [Option.some.injEq] at hnx
        subst hnx
        rw [name_labels_pointer px max n o _ hnx0 c3] at hlen ⊢
        obtain ⟨etr', he, hs', hsub, hpath⟩ := ih _ q name
          (etr ++ [Access.read o, Access.read o, Access.read (o + 1)]) f hw hq0 hqm hlen hnm
          (by omega)
          (safe_append.2 ⟨hs, safe_cons.2 ⟨by simp [Access.in_bounds]; omega,
            safe_cons.2 ⟨by simp [Access.in_bounds]; omega,
              safe_read1 (by omega)⟩⟩⟩)
        refine ⟨etr', ?_, hs', ?_, ?_⟩
        · rw [extract_loop_succ]
          simp only [c1, c3, c4, c5, if_false]
          rw [he]
        · intro a ha
          exact hsub a (by simp [ha])
        · intro p hp
          rw [name_path_step px max n o _ hnx0, List.mem_cons] at hp
          rcases hp with rfl | hp
          · exact hsub _ (by simp)
          · exact hpath p hp

/-- C20 (amended): for every buffer, offset and bound with
`max + 64 < 2^32`, if `dns_name_skip` succeeds (returns a value `≤ max`) then
the traversal of the name ends after some `n` steps at a zero-length
terminator inside the packet; the skip has read exactly the positions of that
traversal (and the second byte of each pointer); `dns_extract_name` terminates
at the terminator, reads the same positions, copies the labels at the label
offsets of the traversal one after the other, reads only indices `< max` and
writes only name indices `< 255`; the name length is the sum of
(label length + 1) over those labels, which is at most 254. -/
theorem skip_then_extract (fuel : Nat) (px : Buffer) (offset max cap : Nat)
    (name : DomainPointer) (r : Nat) (tr' : Trace) (hmax : max + 64 < 4294967296)
    (h : dns_name_skip fuel px offset max [] = some (r, tr')) (hr : r ≤ max) :
    ∃ n q etr,
      name_walk px max n offset = some q ∧ rd px q = 0 ∧ q < max ∧
      (∀ p ∈ name_path px max n offset, Access.read p ∈ tr') ∧
      (∀ a ∈ tr', ∃ p ∈ name_path px max n offset,
        a = Access.read p ∨ a = Access.read (p + 1)) ∧
      dns_extract_name fuel px offset max name [] =
        some (DomainPointer.mk
          (memcpy name.name 0 (labels_bytes px (name_labels px max n offset)))
          (labels_length px (name_labels px max n offset)), Exit.end_of_name, etr) ∧
      (∀ p ∈ name_path px max n offset, Access.read p ∈ etr) ∧
      labels_length px (name_labels px max n offset) ≤ 254 ∧
      Safe max cap etr := by
  have hne : r ≠ u32 (max + 1) := by
    rw [u32_of_lt (by omega)]
    omega
  obtain ⟨n, q, hn, hw, hq0, hqm, hlen, -, hpath, hconv⟩ :=
    skip_loop_path px max fuel offset 0 [] r tr' h hne
  obtain ⟨etr, he, hs, -, hp⟩ := extract_loop_path px max cap hmax n offset q
    { name with length := 0 } [] fuel hw hq0 hqm (by simp only; omega) (by simp) hn
    (safe_nil _ _)
  simp only [Nat.zero_add] at he
  refine ⟨n, q, etr, hw, hq0, hqm, hpath, ?_, he, hp, by omega, hs⟩
  intro a ha
  rcases hconv a ha with h1 | h1
  · exact absurd h1 (List.not_mem_nil a)
  · exact h1

/-- Witness of C20: the compressed name `a.com` at offset 5. -/
theorem skip_then_extract_witness :
    9 + 64 < 4294967296 ∧
    dns_name_skip 1282 (buf compressed_name) 5 9 [] =
      some (9, [5, 5, 5, 5, 7, 7, 7, 8, 0, 4].map Access.read) ∧
    ∃ n q etr,
      name_walk (buf compressed_name) 9 n 5 = some q ∧ rd (buf compressed_name) q = 0 ∧ q < 9 ∧
      (∀ p ∈ name_path (buf compressed_name) 9 n 5,
        Access.read p ∈ [5, 5, 5, 5, 7, 7, 7, 8, 0, 4].map Access.read) ∧
      (∀ a ∈ [5, 5, 5, 5, 7, 7, 7, 8, 0, 4].map Access.read,
        ∃ p ∈ name_path (buf compressed_name) 9 n 5,
          a = Access.read p ∨ a = Access.read (p + 1)) ∧
      dns_extract_name 1282 (buf compressed_name) 5 9 (DomainPointer.mk (List.replicate 255 0) 0)
          [] =
        some (DomainPointer.mk
          (memcpy (List.replicate 255 0) 0
            (labels_bytes (buf compressed_name) (name_labels (buf compressed_name) 9 n 5)))
          (labels_length (buf compressed_name) (name_labels (buf compressed_name) 9 n 5)),
          Exit.end_of_name, etr) ∧
      (∀ p ∈ name_path (buf compressed_name) 9 n 5, Access.read p ∈ etr) ∧
      labels_length (buf compressed_name) (name_labels (buf compressed_name) 9 n 5) ≤ 254 ∧
      Safe 9 0 etr :=
  ⟨by decide, by decide!,
    skip_then_extract 1282 (buf compressed_name) 5 9 0 (DomainPointer.mk (List.replicate 255 0) 0)
      9 ([5, 5, 5, 5, 7, 7, 7, 8, 0, 4].map Access.read) (by decide) (by decide!) (by decide)⟩

/-- C20 as stated fails at the bound `2^32 - 1`: the failure sentinel
`max + 1` wraps to 0, so on a pointer that points to itself `dns_name_skip`
returns `0 ≤ max`, and `dns_extract_name` does not return with any fuel. -/
theorem skip_sentinel_wraps :
    (dns_name_skip 1282 (buf [192, 0]) 0 4294967295 []).map Prod.fst = some 0 ∧
    (0 : Nat) ≤ 4294967295 ∧
    ∀ (fuel : Nat) (name : DomainPointer) (tr : Trace),
      dns_extract_name fuel (buf [192, 0]) 0 4294967295 name tr = none :=
  ⟨by decide!, by decide, fun fuel name tr =>
    extract_self_pointer_diverges (buf [192, 0]) 4294967295 0 (by decide) (by decide)
      (by decide) fuel _ tr⟩

theorem take_set_succ (v : Nat) : ∀ (l : List Nat) (c : Nat), c < l.length →
    (l.set c v).take (c + 1) = l.take c ++ [v] := by
  intro l
  induction l with
  | nil => intro c h; simp at h
  | cons a t ih =>
    intro c h
    cases c with
    | zero => simp
    | succ c =>
      simp only [List.set_cons_succ, List.take_succ_cons, List.cons_append, List.cons.injEq,
        true_and]
      exact ih c (by simpa using h)

theorem table_push (fuel : Nat) (px : Buffer) (max first : Nat) (ro : List Nat)
    (rc offset o' : Nat) (h : TableInv fuel px max first ro rc offset) (hc : rc < ro.length)
    (hmax : max ≤ 65535) (ha : Accepted fuel px max offset) (ho : offset < max)
    (ho' : offset < o') :
    TableInv fuel px max first (ro.set rc (offset % 65536)) (rc + 1) o' := by
  obtain ⟨h1, h2, h3, h4⟩ := h
  have hm : offset % 65536 = offset := Nat.mod_eq_of_lt (by omega)
  rw [hm]
  unfold TableInv
  rw [take_set_succ offset ro rc hc]
  refine ⟨by simp only [List.length_set]; omega, ?_, ?_, ?_⟩
  · rw [List.pairwise_append]
    refine ⟨h2, List.pairwise_singleton _ _, ?_⟩
    intro a ha' b hb
    simp only [List.mem_singleton] at hb
    subst hb
    exact (h3 a ha').1
  · intro e he
    rcases List.mem_append.1 he with he | he
    · obtain ⟨e1, e2, e3⟩ := h3 e he
      exact ⟨by omega, e2, e3⟩
    · simp only [List.mem_singleton] at he
      subst he
      exact ⟨ho', ho, ha⟩
  · left
    rcases h4 with h4 | ⟨h4, h5⟩
    · cases hl : ro.take rc with
      | nil => simp [hl] at h4
      | cons a t =>
        rw [hl] at h4
        simpa using h4
    · subst h4
      simp [h5]

theorem table_inv_mono (fuel : Nat) (px : Buffer) (max first : Nat) (ro : List Nat)
    (rc offset o' : Nat) (h : TableInv fuel px max first ro rc offset) (hrc : 0 < rc)
    (ho' : offset ≤ o') : TableInv fuel px max first ro rc o' := by
  obtain ⟨h1, h2, h3, h4⟩ := h
  refine ⟨h1, h2, ?_, ?_⟩
  · intro e he
    obtain ⟨e1, e2, e3⟩ := h3 e he
    exact ⟨by omega, e2, e3⟩
  · rcases h4 with h4 | ⟨h4, -⟩
    · exact Or.inl h4
    · omega

/-- The question loop and the table: the capacity stays, at most one entry is
added for each iteration and none beyond the capacity, and a loop that is left
normally keeps the table in wire order. -/
theorem question_loop_table (px : Buffer) (fuel max first : Nat) (hmax : max ≤ 65535) :
    ∀ (n : Nat) (dns : DNS_Incoming) (offset : Nat) (tr : Trace) (fl : Flow),
      question_loop fuel px max n dns offset tr = some fl →
      fl.dns.rr_offset.length = dns.rr_offset.length ∧
      dns.rr_count ≤ fl.dns.rr_count ∧ fl.dns.rr_count ≤ dns.rr_count + n ∧
      (dns.rr_count ≤ dns.rr_offset.length → fl.dns.rr_count ≤ dns.rr_offset.length) ∧
      ∀ d o t, fl = Flow.continues d o t →
        (0 < n → 0 < d.rr_count) ∧
        (TableInv fuel px max first dns.rr_offset dns.rr_count offset →
          TableInv fuel px max first d.rr_offset d.rr_count o) := by
  intro n
  induction n with
  | zero =>
    intro dns offset tr fl h
    simp only [question_loop, Option.some.injEq] at h
    subst h
    refine ⟨rfl, le_refl _, le_refl _, fun hh => hh, ?_⟩
    intro d o t e
    simp only [Flow.continues.injEq] at e
    obtain ⟨rfl, rfl, -⟩ := e
    exact ⟨fun hh => absurd hh (by decide), fun hh => hh⟩
  | succ n ih =>
    intro dns offset tr fl h
    rw [question_loop] at h
    by_cases c1 : dns.rr_count ≥ MAX_RRs dns
    · simp only [c1, if_true, Option.some.injEq] at h
      subst h
      exact ⟨rfl, le_refl _, by simp, fun hh => hh, by intro d o t e; cases e⟩
    simp only [c1, if_false] at h
    have hlt : dns.rr_count < dns.rr_offset.length := by unfold MAX_RRs at c1; omega
    cases hsk : dns_name_skip fuel px offset max (tr ++ [Access.rr_write dns.rr_count]) with
    | none => simp [hsk] at h
    | some res =>
      obtain ⟨r, tr1⟩ := res
      simp only [hsk] at h
      have hv := skip_value _ _ _ _ _ _ _ (by omega) hsk
      have hu : u32 (r + 4) = r + 4 := u32_of_lt (by omega)
      rw [hu] at h
      split_ifs at h with c2 c3
      · simp only [Option.some.injEq] at h
        subst h
        exact ⟨by simp, by simp, by simp, fun _ => by simpa using hlt,
          by intro d o t e; cases e⟩
      · simp only [Option.some.injEq] at h
        subst h
        exact ⟨by simp, by simp, by simp, fun _ => by simpa using hlt,
          by intro d o t e; cases e⟩
      · obtain ⟨i1, i2, i3, i4, i5⟩ := ih _ _ _ _ h
        simp only [List.length_set] at i1 i2 i3 i4
        refine ⟨i1, by omega, by omega, fun _ => i4 (by omega), ?_⟩
        intro d o t e
        obtain ⟨-, j2⟩ := i5 d o t e
        rw [e] at i2
        simp only [flow_dns_continues] at i2
        refine ⟨fun _ => by omega, fun hinv => j2 ?_⟩
        exact table_push fuel px max first _ _ offset (r + 4) hinv hlt hmax
          ⟨r, _, _, hsk, by omega⟩ (by omega) (by omega)

/-- The answer loop and the table: the capacity stays, at most one entry is
added for each iteration and none beyond the capacity, and a loop that is left
(normally or by its `break`) keeps the table in wire order. -/
theorem answer_loop_table (px : Buffer) (fuel max first : Nat) (hmax : max ≤ 65535) :
    ∀ (n : Nat) (dns : DNS_Incoming) (offset : Nat) (tr : Trace) (fl : Flow),
      answer_loop fuel px max n dns offset tr = some fl →
      fl.dns.rr_offset.length = dns.rr_offset.length ∧
      dns.rr_count ≤ fl.dns.rr_count ∧ fl.dns.rr_count ≤ dns.rr_count + n ∧
      (dns.rr_count ≤ dns.rr_offset.length → fl.dns.rr_count ≤ dns.rr_offset.length) ∧
      ∀ d o t, fl = Flow.continues d o t →
        (TableInv fuel px max first dns.rr_offset dns.rr_count offset →
          TableInv fuel px max first d.rr_offset d.rr_count o) := by
  intro n
  induction n with
  | zero =>
    intro dns offset tr fl h
    simp only [answer_loop, Option.some.injEq] at h
    subst h
    refine ⟨rfl, le_refl _, le_refl _, fun hh => hh, ?_⟩
    intro d o t e
    simp only [Flow.continues.injEq] at e
    obtain ⟨rfl, rfl, -⟩ := e
    exact fun hh => hh
  | succ n ih =>
    intro dns offset tr fl h
    rw [answer_loop] at h
    by_cases c1 : dns.rr_count ≥ MAX_RRs dns
    · simp only [c1, if_true, Option.some.injEq] at h
      subst h
      exact ⟨rfl, le_refl _, by simp, fun hh => hh, by intro d o t e; cases e⟩
    simp only [c1, if_false] at h
    have hlt : dns.rr_count < dns.rr_offset.length := by unfold MAX_RRs at c1; omega
    cases hsk : dns_name_skip fuel px offset max (tr ++ [Access.rr_write dns.rr_count]) with
    | none => simp [hsk] at h
    | some res =>
      obtain ⟨r, tr1⟩ := res
      simp only [hsk] at h
      have hv := skip_value _ _ _ _ _ _ _ (by omega) hsk
      have hu : u32 (r + 10) = r + 10 := u32_of_lt (by omega)
      rw [hu] at h
      have e2 : u32sub (r + 10) 2 = r + 8 := by unfold u32sub; omega
      have e1 : u32sub (r + 10) 1 = r + 9 := by unfold u32sub; omega
      simp only [e1, e2] at h
      have hrl := be16_lt px (r + 8) (r + 9)
      by_cases c2 : r + 10 > max
      · simp only [c2, if_true, Option.some.injEq] at h
        subst h
        exact ⟨by simp, by simp, by simp, fun _ => by simpa using hlt,
          by intro d o t e; cases e⟩
      simp only [c2, if_false] at h
      have hu2 : u32 (r + 10 + ((rd px (r + 8) <<< 8) ||| rd px (r + 9)))
          = r + 10 + ((rd px (r + 8) <<< 8) ||| rd px (r + 9)) := u32_of_lt (by omega)
      rw [hu2] at h
      split_ifs at h with c3
      · simp only [Option.some.injEq] at h
        subst h
        refine ⟨by simp, by simp, by simp, fun _ => by simpa using hlt, ?_⟩
        intro d o t e
        simp only [Flow.continues.injEq] at e
        obtain ⟨rfl, rfl, -⟩ := e
        intro hinv
        exact table_push fuel px max first _ _ offset _ hinv hlt hmax
          ⟨r, _, _, hsk, by omega⟩ (by omega) (by omega)
      · obtain ⟨i1, i2, i3, i4, i5⟩ := ih _ _ _ _ h
        simp only [List.length_set] at i1 i2 i3 i4
        refine ⟨i1, by omega, by omega, fun _ => i4 (by omega), ?_⟩
        intro d o t e hinv
        refine i5 d o t e ?_
        exact table_push fuel px max first _ _ offset _ hinv hlt hmax
          ⟨r, _, _, hsk, by omega⟩ (by omega) (by omega)

/-- The additional loop and the table: the capacity stays, at most one entry
is added for each iteration and none beyond the capacity, and a loop that is
left normally keeps the table in wire order. -/
theorem additional_loop_table (px : Buffer) (fuel max first : Nat) (hmax : max ≤ 65535) :
    ∀ (n : Nat) (dns : DNS_Incoming) (offset : Nat) (tr : Trace) (fl : Flow),
      additional_loop fuel px max n dns offset tr = some fl →
      fl.dns.rr_offset.length = dns.rr_offset.length ∧
      dns.rr_count ≤ fl.dns.rr_count ∧ fl.dns.rr_count ≤ dns.rr_count + n ∧
      (dns.rr_count ≤ dns.rr_offset.length → fl.dns.rr_count ≤ dns.rr_offset.length) ∧
      ∀ d o t, fl = Flow.continues d o t →
        (TableInv fuel px max first dns.rr_offset dns.rr_count offset →
          TableInv fuel px max first d.rr_offset d.rr_count o) := by
  intro n
  induction n with
  | zero =>
    intro dns offset tr fl h
    simp only [additional_loop, Option.some.injEq] at h
    subst h
    refine ⟨rfl, le_refl _, le_refl _, fun hh => hh, ?_⟩
    intro d o t e
    simp only [Flow.continues.injEq] at e
    obtain ⟨rfl, rfl, -⟩ := e
    exact fun hh => hh
  | succ n ih =>
    intro dns offset tr fl h
    rw [additional_loop] at h
    by_cases c1 : dns.rr_count ≥ MAX_RRs dns
    · simp only [c1, if_true, Option.some.injEq] at h
      subst h
      exact ⟨rfl, le_refl _, by simp, fun hh => hh, by intro d o t e; cases e⟩
    simp only [c1, if_false] at h
    have hlt : dns.rr_count < dns.rr_offset.length := by unfold MAX_RRs at c1; omega
    obtain ⟨⟨rcd, ed, ie, key⟩, -⟩ := opt_record_frame px offset max
      { dns with
        rr_offset := dns.rr_offset.set dns.rr_count (offset % 65536)
        rr_count := dns.rr_count + 1 }
      (tr ++ [Access.rr_write dns.rr_count])
    generalize opt_record px offset max _ _ = fl0 at h key
    cases fl0 with
    | returned d0 t0 =>
      simp only [Option.some.injEq] at h
      subst h
      simp only [flow_dns_returned] at key ⊢
      rw [key]
      exact ⟨by simp, by simp, by simp, fun _ => by simpa using hlt,
        by intro d o t e; cases e⟩
    | continues d0 o0 t0 =>
      simp only [flow_dns_continues] at key
      simp only at h
      cases hsk : dns_name_skip fuel px offset max t0 with
      | none => simp [hsk] at h
      | some res =>
        obtain ⟨r, tr1⟩ := res
        simp only [hsk] at h
        have hv := skip_value _ _ _ _ _ _ _ (by omega) hsk
        have hu : u32 (r + 10) = r + 10 := u32_of_lt (by omega)
        rw [hu] at h
        have e2 : u32sub (r + 10) 2 = r + 8 := by unfold u32sub; omega
        have e1 : u32sub (r + 10) 1 = r + 9 := by unfold u32sub; omega
        simp only [e1, e2] at h
        have hrl := be16_lt px (r + 8) (r + 9)
        by_cases c2 : r + 10 > max
        · simp only [c2, if_true, Option.some.injEq] at h
          subst h
          simp only [flow_dns_returned]
          rw [key]
          exact ⟨by simp, by simp, by simp, fun _ => by simpa using hlt,
            by intro d o t e; cases e⟩
        simp only [c2, if_false] at h
        have hu2 : u32 (r + 10 + ((rd px (r + 8) <<< 8) ||| rd px (r + 9)))
            = r + 10 + ((rd px (r + 8) <<< 8) ||| rd px (r + 9)) := u32_of_lt (by omega)
        rw [hu2] at h
        split_ifs at h with c3
        · simp only [Option.some.injEq] at h
          subst h
          simp only [flow_dns_returned]
          rw [key]
          exact ⟨by simp, by simp, by simp, fun _ => by simpa using hlt,
            by intro d o t e; cases e⟩
        · obtain ⟨i1, i2, i3, i4, i5⟩ := ih _ _ _ _ h
          rw [key] at i1 i2 i3 i4 i5
          simp only [List.length_set] at i1 i2 i3 i4 i5
          refine ⟨i1, by omega, by omega, fun _ => i4 (by omega), ?_⟩
          intro d o t e hinv
          refine i5 d o t e ?_
          exact table_push fuel px max first _ _ offset _ hinv hlt hmax
            ⟨r, _, _, hsk, by omega⟩ (by omega) (by omega)

theorem table_inv_nil (fuel : Nat) (px : Buffer) (max offset : Nat) (ro : List Nat) :
    TableInv fuel px max offset ro 0 offset := by
  refine ⟨Nat.zero_le _, ?_, ?_, Or.inr ⟨rfl, rfl⟩⟩
  · simp
  · intro e he
    simp at he

/-- The table after the sections, entered with an empty table and the
format-error flag set: the capacity stays, the record count is within the
capacity and within the sum of the four counts, and if the flag is cleared the
entries in use are in wire order from `offset` on. -/
theorem parse_sections_table (px : Buffer) (fuel max : Nat) (hmax : max ≤ 65535)
    (dns : DNS_Incoming) (offset : Nat) (tr : Trace) (dns' : DNS_Incoming) (tr' : Trace)
    (h : parse_sections fuel px max dns offset tr = some (dns', tr'))
    (h0 : dns.rr_count = 0) (hfe : dns.is_formerr = true) :
    dns'.rr_offset.length = dns.rr_offset.length ∧
      dns'.rr_count ≤ dns.rr_offset.length ∧
      dns'.rr_count ≤ dns.qdcount + dns.ancount + dns.nscount + dns.arcount ∧
      (dns'.is_formerr = false →
        0 < dns'.rr_count ∧
        TableInv fuel px max offset dns'.rr_offset dns'.rr_count (dns'.rr_count + max + 65536)) := by
  unfold parse_sections at h
  split_ifs at h with c0
  · simp only [Option.some.injEq, Prod.mk.injEq] at h
    obtain ⟨rfl, -⟩ := h
    exact ⟨rfl, by omega, by omega, fun hh => by rw [hfe] at hh; cases hh⟩
  cases hq : question_loop fuel px max dns.qdcount dns offset tr with
  | none => simp [hq] at h
  | some fl1 =>
    obtain ⟨ro1, rc1, qt1, qc1, f1⟩ := question_loop_frame px fuel max _ _ _ _ _ hq
    obtain ⟨a1, a2, a3, a4, a5⟩ := question_loop_table px fuel max offset hmax _ _ _ _ _ hq
    cases fl1 with
    | returned d1 t1 =>
      simp only [hq, Option.some.injEq, Prod.mk.injEq] at h
      obtain ⟨rfl, -⟩ := h
      simp only [flow_dns_returned] at f1 a1 a2 a3 a4
      refine ⟨a1, a4 (by omega), by omega, fun hh => ?_⟩
      rw [f1] at hh
      simp only at hh
      rw [hfe] at hh
      cases hh
    | continues d1 o1 t1 =>
      simp only [flow_dns_continues] at f1 a1 a2 a3 a4
      obtain ⟨a6, a7⟩ := a5 d1 o1 t1 rfl
      have inv1 := a7 (by rw [h0]; exact table_inv_nil fuel px max offset _)
      have cnt1 : d1.ancount = dns.ancount ∧ d1.nscount = dns.nscount ∧
          d1.arcount = dns.arcount ∧ d1.is_formerr = dns.is_formerr := by
        rw [f1]
        exact ⟨rfl, rfl, rfl, rfl⟩
      simp only [hq] at h
      cases ha : answer_loop fuel px max (d1.ancount + d1.nscount) d1 o1 t1 with
      | none => simp [ha] at h
      | some fl2 =>
        obtain ⟨ro2, rc2, f2⟩ := answer_loop_frame px fuel max _ _ _ _ _ ha
        obtain ⟨b1, b2, b3, b4, b5⟩ := answer_loop_table px fuel max offset hmax _ _ _ _ _ ha
        cases fl2 with
        | returned d2 t2 =>
          simp only [ha, Option.some.injEq, Prod.mk.injEq] at h
          obtain ⟨rfl, -⟩ := h
          simp only [flow_dns_returned] at f2 b1 b2 b3 b4
          refine ⟨by omega, by have := b4 (by omega); omega, by omega, fun hh => ?_⟩
          rw [f2] at hh
          simp only at hh
          rw [cnt1.2.2.2, hfe] at hh
          cases hh
        | continues d2 o2 t2 =>
          simp only [flow_dns_continues] at f2 b1 b2 b3 b4
          have inv2 := b5 d2 o2 t2 rfl inv1
          have cnt2 : d2.arcount = d1.arcount ∧ d2.is_formerr = d1.is_formerr := by
            rw [f2]
            exact ⟨rfl, rfl⟩
          simp only [ha] at h
          cases hd : additional_loop fuel px max d2.arcount d2 o2 t2 with
          | none => simp [hd] at h
          | some fl3 =>
            obtain ⟨⟨ro3, rc3, rcd3, ed3, ie3, f3⟩, -⟩ :=
              additional_loop_frame px fuel max _ _ _ _ _ hd
            obtain ⟨e1, e2, e3, e4, e5⟩ :=
              additional_loop_table px fuel max offset hmax _ _ _ _ _ hd
            cases fl3 with
            | returned d3 t3 =>
              simp only [hd, Option.some.injEq, Prod.mk.injEq] at h
              obtain ⟨rfl, -⟩ := h
              simp only [flow_dns_returned] at f3 e1 e2 e3 e4
              refine ⟨by omega, by have := b4 (by omega); have := e4 (by omega); omega,
                by omega, fun hh => ?_⟩
              rw [f3] at hh
              simp only at hh
              rw [cnt2.2, cnt1.2.2.2, hfe] at hh
              cases hh
            | continues d3 o3 t3 =>
              simp only [flow_dns_continues] at f3 e1 e2 e3 e4
              have inv3 := e5 d3 o3 t3 rfl inv2
              simp only [hd] at h
              obtain ⟨nm, f4⟩ := parse_finish_frame px fuel max _ _ _ _ h
              have g1 : dns'.rr_offset = d3.rr_offset := by rw [f4]
              have g2 : dns'.rr_count = d3.rr_count := by rw [f4]
              have hpos : 0 < d1.rr_count := a6 (by omega)
              rw [g1, g2]
              refine ⟨by omega, by have := b4 (by omega); have := e4 (by omega); omega,
                by omega, fun _ => ⟨by omega, ?_⟩⟩
              obtain ⟨k1, k2, k3, k4⟩ := inv3
              refine ⟨k1, k2, ?_, ?_⟩
              · intro e he
                obtain ⟨m1, m2, m3⟩ := k3 e he
                exact ⟨by omega, m2, m3⟩
              · rcases k4 with k4 | ⟨k4, -⟩
                · exact Or.inl k4
                · omega

/-- The value `dns_name_skip_validate` returns does not depend on the trace
it is given. -/
theorem validate_loop_fst (px : Buffer) (length ERROR result : Nat) :
    ∀ (fuel offset nl rec : Nat) (t s : Trace),
      (dns_name_skip_validate_loop px length ERROR result fuel offset nl rec t).map Prod.fst =
      (dns_name_skip_validate_loop px length ERROR result fuel offset nl rec s).map Prod.fst := by
  intro fuel
  induction fuel with
  | zero => intro offset nl rec t s; simp [dns_name_skip_validate_loop]
  | succ fuel ih =>
    intro offset nl rec t s
    rw [validate_loop_succ, validate_loop_succ]
    split_ifs
    all_goals first
      | rfl
      | exact ih _ _ _ _ _

/-- The value `dns_name_skip` returns does not depend on the trace it is
given. -/
theorem skip_loop_fst (px : Buffer) (max : Nat) :
    ∀ (fuel offset nl : Nat) (t s : Trace),
      (dns_name_skip_loop px max fuel offset nl t).map Prod.fst =
      (dns_name_skip_loop px max fuel offset nl s).map Prod.fst := by
  intro fuel
  induction fuel with
  | zero => intro offset nl t s; simp [dns_name_skip_loop]
  | succ fuel ih =>
    intro offset nl t s
    rw [skip_loop_succ, skip_loop_succ]
    split_ifs
    all_goals first
      | rfl
      | exact ih _ _ _ _
      | exact validate_loop_fst px max _ _ _ _ _ _ _ _

theorem skip_any_trace (px : Buffer) (fuel offset max : Nat) (t t' s : Trace) (r : Nat)
    (h : dns_name_skip fuel px offset max t = some (r, t')) :
    ∃ s', dns_name_skip fuel px offset max s = some (r, s') := by
  have := skip_loop_fst px max fuel offset 0 s t
  unfold dns_name_skip at h ⊢
  rw [h] at this
  cases hs : dns_name_skip_loop px max fuel offset 0 s with
  | none => simp [hs] at this
  | some x =>
    obtain ⟨r', s'⟩ := x
    simp only [hs, Option.map_some', Option.some.injEq] at this
    subst this
    exact ⟨s', rfl⟩

/-- On records of which the last overruns the packet, the answer loop enters
each of them into the table and is left by its `break`, past `max`. -/
theorem answer_loop_overrun (px : Buffer) (fuel max cap : Nat) (hmax : max ≤ 65535) :
    ∀ (n o : Nat) (starts : List Nat), OverrunAt fuel px max n o starts →
      ∀ (dns : DNS_Incoming) (tr : Trace),
      dns.rr_count + starts.length ≤ dns.rr_offset.length →
      Safe max cap tr → dns.rr_offset.length = cap →
      ∃ ro rc o2 t2, answer_loop fuel px max n dns o tr =
          some (Flow.continues { dns with rr_offset := ro, rr_count := rc } o2 t2) ∧
        max < o2 ∧ rc = dns.rr_count + starts.length ∧
        ro.take rc = dns.rr_offset.take dns.rr_count ++ starts ∧
        (0 < dns.rr_count → ro.getD 0 0 = dns.rr_offset.getD 0 0) ∧
        Safe max cap t2 := by
  intro n o starts hov
  induction hov with
  | last n o r t t' hsk h10 hrd =>
    intro dns tr hroom hs hcap
    simp only [List.length_singleton] at hroom
    obtain ⟨s', hsk'⟩ := skip_any_trace px fuel o max t t'
      (tr ++ [Access.rr_write dns.rr_count]) r hsk
    have hv := skip_value _ _ _ _ _ _ _ (by omega) hsk
    have hs1 : Safe max cap s' :=
      skip_safe _ _ _ _ _ _ _ _ hsk' (safe_append.2 ⟨hs, safe_rr_write (by omega)⟩)
    have c1 : ¬ dns.rr_count ≥ MAX_RRs dns := by unfold MAX_RRs; omega
    have hu : u32 (r + 10) = r + 10 := u32_of_lt (by omega)
    have e2 : u32sub (r + 10) 2 = r + 8 := by unfold u32sub; omega
    have e1 : u32sub (r + 10) 1 = r + 9 := by unfold u32sub; omega
    have hrl := rd_lt px (r + 8)
    have hrl2 := rd_lt px (r + 9)
    have hu2 : u32 (r + 10 + (rd px (r + 8) * 256 + rd px (r + 9)))
        = r + 10 + (rd px (r + 8) * 256 + rd px (r + 9)) := u32_of_lt (by omega)
    have c2 : ¬ r + 10 > max := by omega
    have hm : o % 65536 = o := Nat.mod_eq_of_lt (by omega)
    refine ⟨dns.rr_offset.set dns.rr_count o, dns.rr_count + 1,
      r + 10 + (rd px (r + 8) * 256 + rd px (r + 9)),
      s' ++ [Access.read (r + 8), Access.read (r + 9)], ?_, hrd, rfl, ?_, ?_, ?_⟩
    · rw [answer_loop]
      simp only [c1, if_false, hsk', hu, e1, e2, c2, shl8_or _ _ hrl2, hu2, hrd, if_true, hm]
    · exact take_set_succ o _ _ (by omega)
    · intro hp
      exact getD_set_succ _ _ _ hp
    · exact safe_append.2 ⟨hs1, safe_reads (l := [r + 8, r + 9])
        (by intro i hi; simp at hi; omega)⟩
  | next n o r t t' l hsk h10 hrd _ ih =>
    intro dns tr hroom hs hcap
    simp only [List.length_cons] at hroom
    obtain ⟨s', hsk'⟩ := skip_any_trace px fuel o max t t'
      (tr ++ [Access.rr_write dns.rr_count]) r hsk
    have hv := skip_value _ _ _ _ _ _ _ (by omega) hsk
    have hs1 : Safe max cap s' :=
      skip_safe _ _ _ _ _ _ _ _ hsk' (safe_append.2 ⟨hs, safe_rr_write (by omega)⟩)
    have c1 : ¬ dns.rr_count ≥ MAX_RRs dns := by unfold MAX_RRs; omega
    have hu : u32 (r + 10) = r + 10 := u32_of_lt (by omega)
    have e2 : u32sub (r + 10) 2 = r + 8 := by unfold u32sub; omega
    have e1 : u32sub (r + 10) 1 = r + 9 := by unfold u32sub; omega
    have hrl := rd_lt px (r + 8)
    have hrl2 := rd_lt px (r + 9)
    have hu2 : u32 (r + 10 + (rd px (r + 8) * 256 + rd px (r + 9)))
        = r + 10 + (rd px (r + 8) * 256 + rd px (r + 9)) := u32_of_lt (by omega)
    have c2 : ¬ r + 10 > max := by omega
    have c3 : ¬ r + 10 + (rd px (r + 8) * 256 + rd px (r + 9)) > max := by omega
    have hm : o % 65536 = o := Nat.mod_eq_of_lt (by omega)
    obtain ⟨ro, rc, o2, t2, ha, g1, g2, g3, g4, g5⟩ := ih
      { dns with rr_offset := dns.rr_offset.set dns.rr_count o, rr_count := dns.rr_count + 1 }
      (s' ++ [Access.read (r + 8), Access.read (r + 9)])
      (by simp only [List.length_set]; omega)
      (safe_append.2 ⟨hs1, safe_reads (l := [r + 8, r + 9])
        (by intro i hi; simp at hi; omega)⟩)
      (by simpa using hcap)
    simp only at g2 g3 g4
    refine ⟨ro, rc, o2, t2, ?_, g1, by simp only [List.length_cons]; omega, ?_, ?_, g5⟩
    · rw [answer_loop]
      simp only [c1, if_false, hsk', hu, e1, e2, c2, shl8_or _ _ hrl2, hu2, c3, hm]
      exact ha
    · rw [g3, take_set_succ o _ _ (by omega)]
      simp
    · intro hp
      rw [g4 (by omega)]
      exact getD_set_succ _ _ _ hp

/-- After a name that `dns_name_skip` accepted at the first table entry, the
end of the parser expands that name up to its terminator and clears the
format-error flag. -/
theorem parse_finish_decoded (px : Buffer) (fuel max cap : Nat) (hmax : max ≤ 65535)
    (dns : DNS_Incoming) (tr : Trace) (hs : Safe max cap tr) (r : Nat) (t1 t2 : Trace)
    (hsk : dns_name_skip fuel px (dns.rr_offset.getD 0 0) max t1 = some (r, t2))
    (hr : r ≤ max) :
    ∃ nm etr, dns_extract_name fuel px (dns.rr_offset.getD 0 0) max
        (DomainPointer.mk dns.query_name_buffer dns.query_name.length) tr =
          some (nm, Exit.end_of_name, etr) ∧
      parse_finish fuel px max dns tr = some ({ dns with
        query_name := nm, query_name_buffer := nm.name, is_formerr := false }, etr) := by
  obtain ⟨nm, etr, he, -, -⟩ := skip_extract px max cap (by omega) fuel _ 0 t1 r t2 hsk hr
    { name := dns.query_name_buffer, length := 0 } tr (le_refl _) hs
  refine ⟨nm, etr, he, ?_⟩
  unfold parse_finish dns_extract_name
  simp only
  rw [he]

/-- C16 (amended): for every message with `max ≤ 65535` whose header and
question section parse correctly (the question loop is left normally, with
state `d1` at offset `o1`), whose additional count is zero, and in which, of
the answer and authority records, the ones that start at `starts` are scanned
and the last of them has its name and 10 fixed bytes inside the buffer but a
declared rdata length that runs past `max`, with room in the table for these
records, `proto_dns_parse` returns with `is_valid` true and `is_formerr` false,
the table holding the entries of the questions followed by `starts` (the
overrunning record included), and the question name expanded from
`offset + 12` up to its terminator. -/
theorem rdata_overrun_tolerated (fuel : Nat) (dns : DNS_Incoming) (px : Buffer)
    (offset max : Nat) (d1 : DNS_Incoming) (o1 : Nat) (t1 : Trace) (starts : List Nat)
    (hmax : max ≤ 65535) (ho : offset ≤ max) (hlen : 12 ≤ max - offset)
    (hqd : (after_header dns px offset max).qdcount ≠ 0)
    (hq : question_loop fuel px max (after_header dns px offset max).qdcount
      (after_header dns px offset max) (offset + 12) (header_reads offset) =
        some (Flow.continues d1 o1 t1))
    (har : (after_header dns px offset max).arcount = 0)
    (hov : OverrunAt fuel px max
      ((after_header dns px offset max).ancount + (after_header dns px offset max).nscount)
      o1 starts)
    (hcap : d1.rr_count + starts.length ≤ MAX_RRs dns) :
    ∃ dns' tr', proto_dns_parse fuel dns px offset max [] = some (dns', tr') ∧
      dns'.is_valid = true ∧ dns'.is_formerr = false ∧
      table dns' = table d1 ++ starts ∧
      ∃ t etr, dns_extract_name fuel px (offset + 12) max
        (DomainPointer.mk d1.query_name_buffer d1.query_name.length) t =
          some (dns'.query_name, Exit.end_of_name, etr) := by
  have hsub : u32sub max offset = max - offset := by unfold u32sub; omega
  have c : ¬ u32sub max offset < 12 := by rw [hsub]; omega
  have h12 : u32 (offset + 12) = offset + 12 := u32_of_lt (by omega)
  have hcap0 : (after_header dns px offset max).rr_offset.length = MAX_RRs dns := rfl
  have hs0 : Safe max (MAX_RRs dns) (header_reads offset) :=
    header_reads_safe offset max _ (by omega) (by omega)
  obtain ⟨ro1, rc1, qt1, qc1, f1⟩ := question_loop_frame px fuel max _ _ _ _ _ hq
  simp only [flow_dns_continues] at f1
  obtain ⟨i1, i2, -, -, -⟩ := question_loop_inv px fuel max (MAX_RRs dns) hmax _ _ _ _ _ hq
    hs0 hcap0 (by omega)
  simp only [Flow.trace, flow_dns_continues] at i1 i2
  obtain ⟨n, hn⟩ : ∃ n, (after_header dns px offset max).qdcount = n + 1 :=
    ⟨(after_header dns px offset max).qdcount - 1, by omega⟩
  have hq' := hq
  rw [hn] at hq'
  obtain ⟨q1, q2, r, s1, s2, hsk, hr⟩ := question_loop_first px fuel max (MAX_RRs dns) hmax n
    _ _ _ _ _ _ hq' hs0 hcap0 (by omega) rfl
  have cnt : d1.ancount + d1.nscount
      = (after_header dns px offset max).ancount + (after_header dns px offset max).nscount := by
    rw [f1]
  have car : d1.arcount = 0 := by rw [f1]; exact har
  have cv : d1.is_valid = true := by rw [f1]; rfl
  obtain ⟨ro, rc, o2, t2, ha, g1, g2, g3, g4, g5⟩ := answer_loop_overrun px fuel max
    (MAX_RRs dns) hmax _ _ _ hov d1 t1 (by rw [i2]; exact hcap) i1 i2
  rw [← cnt] at ha
  obtain ⟨nm, etr, he, hfin⟩ := parse_finish_decoded px fuel max (MAX_RRs dns) hmax
    { d1 with rr_offset := ro, rr_count := rc } t2 g5 r s1 s2
    (by simp only; rw [g4 q2, q1]; exact hsk) hr
  simp only at he hfin
  rw [g4 q2, q1] at he
  refine ⟨{ d1 with
    rr_offset := ro, rr_count := rc, query_name := nm, query_name_buffer := nm.name,
    is_formerr := false }, etr, ?_, ?_, ?_, ?_, t2, etr, ?_⟩
  · unfold proto_dns_parse parse_sections
    simp only [c, if_false, h12, List.nil_append]
    unfold after_header at hqd hq
    have hadd : additional_loop fuel px max d1.arcount
        { d1 with rr_offset := ro, rr_count := rc } o2 t2 =
          some (Flow.continues { d1 with rr_offset := ro, rr_count := rc } o2 t2) := by
      rw [car]
      rfl
    simp only [hqd, if_false, hq, ha, hadd]
    exact hfin
  · exact cv
  · rfl
  · unfold table
    simp only
    exact g3
  · exact he

/-- Witness of C16: the truncated response; its only answer record starts at
29 and overruns the 42 bytes. -/
theorem rdata_overrun_tolerated_witness :
    ∃ d1 t1 dns' tr',
      question_loop 1282 (buf truncated_answer) 42
        (after_header (blank 64) (buf truncated_answer) 0 42).qdcount
        (after_header (blank 64) (buf truncated_answer) 0 42) (0 + 12) (header_reads 0) =
          some (Flow.continues d1 29 t1) ∧
      OverrunAt 1282 (buf truncated_answer) 42
        ((after_header (blank 64) (buf truncated_answer) 0 42).ancount +
          (after_header (blank 64) (buf truncated_answer) 0 42).nscount) 29 [29] ∧
      proto_dns_parse 1282 (blank 64) (buf truncated_answer) 0 42 [] = some (dns', tr') ∧
      dns'.is_valid = true ∧ dns'.is_formerr = false ∧
      table dns' = table d1 ++ [29] ∧
      ∃ t etr, dns_extract_name 1282 (buf truncated_answer) (0 + 12) 42
        (DomainPointer.mk d1.query_name_buffer d1.query_name.length) t =
          some (dns'.query_name, Exit.end_of_name, etr) := by
  have hq : ∃ d1 t1, question_loop 1282 (buf truncated_answer) 42
      (after_header (blank 64) (buf truncated_answer) 0 42).qdcount
      (after_header (blank 64) (buf truncated_answer) 0 42) (0 + 12) (header_reads 0) =
        some (Flow.continues d1 29 t1) ∧ d1.rr_count = 1 := ⟨_, _, rfl, rfl⟩
  obtain ⟨d1, t1, hq, hc⟩ := hq
  have hov : OverrunAt 1282 (buf truncated_answer) 42
      ((after_header (blank 64) (buf truncated_answer) 0 42).ancount +
        (after_header (blank 64) (buf truncated_answer) 0 42).nscount) 29 [29] :=
    OverrunAt.last 0 29 30 [] _ rfl (by decide) (by decide)
  obtain ⟨dns', tr', h⟩ := rdata_overrun_tolerated 1282 (blank 64) (buf truncated_answer) 0 42
    d1 29 t1 [29] (by decide) (by decide) (by decide) (by decide) hq (by decide) hov
    (by rw [hc]; decide)
  exact ⟨d1, t1, dns', tr', hq, hov, h⟩

/-- C16 as stated fails beyond 65535: the truncated response placed at offset
65524 (bound 65566) has a question section that parses correctly and an answer
record at 65553 whose rdata overruns; the parser finishes with `is_formerr`
false, but the two table entries are the 16-bit values 0 and 17, and the
question name is expanded from offset 0, where it finds the empty name. -/
theorem rdata_overrun_offset_wraps :
    (∃ d1 t1, question_loop 1282 (buf_at 65524 truncated_answer) 65566
      (after_header (blank 64) (buf_at 65524 truncated_answer) 65524 65566).qdcount
      (after_header (blank 64) (buf_at 65524 truncated_answer) 65524 65566) (65524 + 12)
      (header_reads 65524) = some (Flow.continues d1 65553 t1)) ∧
    (after_header (blank 64) (buf_at 65524 truncated_answer) 65524 65566).arcount = 0 ∧
    OverrunAt 1282 (buf_at 65524 truncated_answer) 65566
      ((after_header (blank 64) (buf_at 65524 truncated_answer) 65524 65566).ancount +
        (after_header (blank 64) (buf_at 65524 truncated_answer) 65524 65566).nscount)
      65553 [65553] ∧
    (proto_dns_parse 1282 (blank 64) (buf_at 65524 truncated_answer) 65524 65566 []).map
      (fun r => (r.1.is_formerr, table r.1, r.1.query_name.length)) =
        some (false, [0, 17], 0) :=
  ⟨⟨_, _, rfl⟩, by decide, OverrunAt.last 0 65553 65554 [] _ rfl (by decide) (by decide),
    by decide⟩

/-- C17 as stated fails on a buffer shorter than 12 bytes: the parser returns
before it touches the table or the format-error flag.  On a blank state it
finishes with `is_formerr` false and no entry at all; on the state left by the
minimal query it finishes with `is_formerr` false and the old entry 12, which is
neither `offset + 12 = 13` nor below `max = 4`. -/
theorem short_buffer_keeps_table :
    (proto_dns_parse 1282 (blank 64) (buf [0, 0, 0, 0]) 1 4 []).map
      (fun r => (r.1.is_formerr, table r.1)) = some (false, []) ∧
    (proto_dns_parse 1282 (parsed minimal_query) (buf [0, 0, 0, 0]) 1 4 []).map
      (fun r => (r.1.is_formerr, table r.1)) = some (false, [12]) ∧
    (12 : Nat) ≠ 1 + 12 ∧ ¬ (12 : Nat) < 4 := by
  refine ⟨by decide, by decide, by decide, by decide⟩

theorem two_run_refl (T a : DNS_Incoming) : TwoRun T a a := by
  refine ⟨⟨rfl, rfl, rfl, rfl, rfl, rfl, rfl, rfl, rfl, rfl, rfl, rfl, rfl, rfl, rfl, rfl, rfl,
    rfl⟩, ⟨rfl, rfl, fun _ _ => rfl, fun _ => Or.inl rfl⟩, ⟨Or.inl rfl, Or.inl rfl⟩,
    ⟨Or.inl rfl, Or.inl rfl⟩, ⟨Or.inl rfl, Or.inl rfl⟩⟩

/-- Both runs enter the same offset into the table. -/
theorem two_run_rr (T a b : DNS_Incoming) (v : Nat) (h : TwoRun T a b)
    (hc : a.rr_count < a.rr_offset.length) :
    TwoRun T
      { a with rr_offset := a.rr_offset.set a.rr_count v, rr_count := a.rr_count + 1 }
      { b with rr_offset := b.rr_offset.set a.rr_count v, rr_count := a.rr_count + 1 } := by
  obtain ⟨h1, ⟨h2, h3, h4, h5⟩, h6, h7, h8⟩ := h
  refine ⟨h1, ⟨rfl, ?_, ?_, ?_⟩, h6, h7, h8⟩
  · simp only [List.length_set]
    exact h3
  · intro i hi
    simp only at hi ⊢
    by_cases e : a.rr_count = i
    · subst e
      rw [List.getElem?_set_self (by omega), List.getElem?_set_self hc]
    · rw [List.getElem?_set_ne e, List.getElem?_set_ne e]
      exact h4 i (by omega)
  · intro i
    simp only
    by_cases e : a.rr_count = i
    · subst e
      rw [List.getElem?_set_self hc, List.getElem?_set_self (by omega)]
      exact Or.inl rfl
    · rw [List.getElem?_set_ne e, List.getElem?_set_ne e]
      exact h5 i

/-- Both runs store the same type and class. -/
theorem two_run_query (T a b : DNS_Incoming) (x y : Nat) (h : TwoRun T a b) :
    TwoRun T { a with query_type := x, query_class := y }
      { b with query_type := x, query_class := y } := by
  obtain ⟨h1, h2, -, h7, h8⟩ := h
  exact ⟨h1, h2, ⟨Or.inl rfl, Or.inl rfl⟩, h7, h8⟩

/-- Both runs store the same payload size. -/
theorem two_run_payload (T a b : DNS_Incoming) (p : Nat) (h : TwoRun T a b) :
    TwoRun T { a with edns0 := { a.edns0 with payload_size := p } }
      { b with edns0 := { b.edns0 with payload_size := p } } := by
  obtain ⟨⟨g1, g2, g3, g4, g5, g6, g7, g8, g9, g10, g11, g12, g13, g14, g15, g16, g17, -⟩,
    h2, h6, h7, h8⟩ := h
  exact ⟨⟨g1, g2, g3, g4, g5, g6, g7, g8, g9, g10, g11, g12, g13, g14, g15, g16, g17, rfl⟩,
    h2, h6, h7, h8⟩

/-- Both runs store the same extended response code, version and flag. -/
theorem two_run_opt (T a b : DNS_Incoming) (x v : Nat) (h : TwoRun T a b) :
    TwoRun T
      { a with
        rcode := a.rcode ||| x, edns0 := { a.edns0 with version := v }, is_edns0 := true }
      { b with
        rcode := b.rcode ||| x, edns0 := { b.edns0 with version := v }, is_edns0 := true } := by
  obtain ⟨⟨g1, g2, g3, g4, g5, g6, g7, g8, g9, g10, g11, g12, g13, g14, g15, g16, g17, g18⟩,
    h2, h6, -, h8⟩ := h
  refine ⟨⟨g1, g2, g3, g4, g5, g6, g7, g8, g9, g10, g11, g12, ?_, g14, g15, g16, g17, g18⟩,
    h2, h6, ⟨Or.inl rfl, Or.inl rfl⟩, h8⟩
  simp only
  rw [g13]

/-- When `T` has the table, the question type and class and the EDNS0 state of
`a`, the state `b` is `a` but for the question name. -/
theorem two_run_fields (T a b : DNS_Incoming) (h : TwoRun T a b)
    (h1 : T.rr_offset = a.rr_offset) (h2 : T.query_type = a.query_type)
    (h3 : T.query_class = a.query_class) (h4 : T.is_edns0 = a.is_edns0)
    (h5 : T.edns0.version = a.edns0.version) :
    b = { a with query_name := b.query_name, query_name_buffer := b.query_name_buffer } := by
  obtain ⟨⟨g1, g2, g3, g4, g5, g6, g7, g8, g9, g10, g11, g12, g13, g14, g15, g16, g17, g18⟩,
    ⟨k1, k2, k3, k4⟩, ⟨q1, q2⟩, ⟨e1, e2⟩, -⟩ := h
  have hro : b.rr_offset = a.rr_offset := by
    apply List.ext_getElem?
    intro i
    rcases k4 i with k | k
    · exact k
    · rw [k, h1]
  have hqt : b.query_type = a.query_type := by
    rcases q1 with k | k
    · exact k
    · rw [k, h2]
  have hqc : b.query_class = a.query_class := by
    rcases q2 with k | k
    · exact k
    · rw [k, h3]
  have hie : b.is_edns0 = a.is_edns0 := by
    rcases e1 with k | k
    · exact k
    · rw [k, h4]
  have hev : b.edns0.version = a.edns0.version := by
    rcases e2 with k | k
    · exact k
    · rw [k, h5]
  have hed : b.edns0 = a.edns0 := by
    cases hb : b.edns0
    cases ha : a.edns0
    rw [hb, ha] at g18 hev
    simp only at g18 hev
    rw [g18, hev]
  cases a
  cases b
  simp only at g1 g2 g3 g4 g5 g6 g7 g8 g9 g10 g11 g12 g13 g14 g15 g16 g17 k1 hro hqt hqc hie hed
  simp only [g1, g2, g3, g4, g5, g6, g7, g8, g9, g10, g11, g12, g13, g14, g15, g16, g17, k1, hro,
    hqt, hqc, hie, hed]

/-- Two runs of the question loop on related states leave it the same way,
with related states; the run keeps the capacity and does not lower the record
count, which is positive after a loop of one iteration or more that is left
normally. -/
theorem question_loop_two (px : Buffer) (fuel max : Nat) (T : DNS_Incoming) :
    ∀ (n : Nat) (a b : DNS_Incoming) (offset : Nat) (tr : Trace) (fa : Flow),
      question_loop fuel px max n a offset tr = some fa → TwoRun T a b →
      (∃ fb, question_loop fuel px max n b offset tr = some fb ∧ FlowTwo T fa fb) ∧
      fa.dns.rr_offset.length = a.rr_offset.length ∧ a.rr_count ≤ fa.dns.rr_count ∧
      ∀ d o t, fa = Flow.continues d o t → 0 < n → 0 < d.rr_count := by
  intro n
  induction n with
  | zero =>
    intro a b offset tr fa h hR
    simp only [question_loop, Option.some.injEq] at h ⊢
    subst h
    exact ⟨⟨_, rfl, FlowTwo.continues a b offset tr hR⟩, rfl, le_refl _,
      fun _ _ _ _ hh => absurd hh (by decide)⟩
  | succ n ih =>
    intro a b offset tr fa h hR
    have hrc := hR.2.1.1
    have hlen := hR.2.1.2.1
    rw [question_loop] at h ⊢
    unfold MAX_RRs at h ⊢
    rw [hrc, hlen]
    by_cases c1 : a.rr_count ≥ a.rr_offset.length
    · simp only [c1, if_true, Option.some.injEq] at h ⊢
      subst h
      exact ⟨⟨_, rfl, FlowTwo.returned a b tr hR⟩, rfl, le_refl _,
        by intro d o t e; cases e⟩
    simp only [c1, if_false] at h ⊢
    have hlt : a.rr_count < a.rr_offset.length := by omega
    have hR1 := two_run_rr T a b (offset % 65536) hR hlt
    cases hsk : dns_name_skip fuel px offset max (tr ++ [Access.rr_write a.rr_count]) with
    | none => simp [hsk] at h
    | some res =>
      obtain ⟨r, tr1⟩ := res
      simp only [hsk] at h ⊢
      split_ifs at h ⊢ with c2 c3
      · simp only [Option.some.injEq] at h ⊢
        subst h
        exact ⟨⟨_, rfl, FlowTwo.returned _ _ _ hR1⟩, by simp, by simp,
          by intro d o t e; cases e⟩
      · simp only [Option.some.injEq] at h ⊢
        subst h
        exact ⟨⟨_, rfl, FlowTwo.returned _ _ _ hR1⟩, by simp, by simp,
          by intro d o t e; cases e⟩
      · obtain ⟨⟨fb, hb, hf⟩, i2, i3, -⟩ := ih _ _ _ _ _ h (two_run_query T _ _ _ _ hR1)
        simp only [List.length_set] at i2 i3
        refine ⟨⟨fb, hb, hf⟩, i2, by omega, ?_⟩
        intro d o t e _
        rw [e] at i3
        simp only [flow_dns_continues] at i3
        omega

/-- Two runs of the answer loop on related states leave it the same way, with
related states; the run keeps the capacity and does not lower the record
count. -/
theorem answer_loop_two (px : Buffer) (fuel max : Nat) (T : DNS_Incoming) :
    ∀ (n : Nat) (a b : DNS_Incoming) (offset : Nat) (tr : Trace) (fa : Flow),
      answer_loop fuel px max n a offset tr = some fa → TwoRun T a b →
      (∃ fb, answer_loop fuel px max n b offset tr = some fb ∧ FlowTwo T fa fb) ∧
      fa.dns.rr_offset.length = a.rr_offset.length ∧ a.rr_count ≤ fa.dns.rr_count := by
  intro n
  induction n with
  | zero =>
    intro a b offset tr fa h hR
    simp only [answer_loop, Option.some.injEq] at h ⊢
    subst h
    exact ⟨⟨_, rfl, FlowTwo.continues a b offset tr hR⟩, rfl, le_refl _⟩
  | succ n ih =>
    intro a b offset tr fa h hR
    have hrc := hR.2.1.1
    have hlen := hR.2.1.2.1
    rw [answer_loop] at h ⊢
    unfold MAX_RRs at h ⊢
    rw [hrc, hlen]
    by_cases c1 : a.rr_count ≥ a.rr_offset.length
    · simp only [c1, if_true, Option.some.injEq] at h ⊢
      subst h
      exact ⟨⟨_, rfl, FlowTwo.returned a b tr hR⟩, rfl, le_refl _⟩
    simp only [c1, if_false] at h ⊢
    have hlt : a.rr_count < a.rr_offset.length := by omega
    have hR1 := two_run_rr T a b (offset % 65536) hR hlt
    cases hsk : dns_name_skip fuel px offset max (tr ++ [Access.rr_write a.rr_count]) with
    | none => simp [hsk] at h
    | some res =>
      obtain ⟨r, tr1⟩ := res
      simp only [hsk] at h ⊢
      split_ifs at h ⊢ with c2 c3
      · simp only [Option.some.injEq] at h ⊢
        subst h
        exact ⟨⟨_, rfl, FlowTwo.returned _ _ _ hR1⟩, by simp, by simp⟩
      · simp only [Option.some.injEq] at h ⊢
        subst h
        exact ⟨⟨_, rfl, FlowTwo.continues _ _ _ _ hR1⟩, by simp, by simp⟩
      · obtain ⟨⟨fb, hb, hf⟩, i2, i3⟩ := ih _ _ _ _ _ h hR1
        simp only [List.length_set] at i2 i3
        exact ⟨⟨fb, hb, hf⟩, i2, by omega⟩

/-- The OPT parsing of two runs on related states ends the same way, with
related states. -/
theorem opt_record_two (px : Buffer) (offset max : Nat) (T a b : DNS_Incoming) (tr : Trace)
    (hR : TwoRun T a b) :
    FlowTwo T (opt_record px offset max a tr) (opt_record px offset max b tr) := by
  simp only [opt_record]
  split_ifs with c1 c2
  · exact FlowTwo.returned _ _ _
      (two_run_payload T a b ((rd px (u32 (offset + 3)) <<< 8) ||| rd px (u32 (offset + 4))) hR)
  · exact FlowTwo.continues _ _ _ _ (two_run_opt T _ _ (rd px (u32 (offset + 5)) <<< 4)
      (rd px (u32 (offset + 6)))
      (two_run_payload T a b ((rd px (u32 (offset + 3)) <<< 8) ||| rd px (u32 (offset + 4))) hR))
  · exact FlowTwo.continues _ _ _ _ hR

theorem opt_record_table (px : Buffer) (offset max : Nat) (dns : DNS_Incoming) (tr : Trace) :
    (opt_record px offset max dns tr).dns.rr_offset = dns.rr_offset ∧
      (opt_record px offset max dns tr).dns.rr_count = dns.rr_count := by
  simp only [opt_record]
  split_ifs <;> exact ⟨rfl, rfl⟩

/-- Two runs of the additional loop on related states leave it the same way,
with related states; the run keeps the capacity and does not lower the record
count. -/
theorem additional_loop_two (px : Buffer) (fuel max : Nat) (T : DNS_Incoming) :
    ∀ (n : Nat) (a b : DNS_Incoming) (offset : Nat) (tr : Trace) (fa : Flow),
      additional_loop fuel px max n a offset tr = some fa → TwoRun T a b →
      (∃ fb, additional_loop fuel px max n b offset tr = some fb ∧ FlowTwo T fa fb) ∧
      fa.dns.rr_offset.length = a.rr_offset.length ∧ a.rr_count ≤ fa.dns.rr_count := by
  intro n
  induction n with
  | zero =>
    intro a b offset tr fa h hR
    simp only [additional_loop, Option.some.injEq] at h ⊢
    subst h
    exact ⟨⟨_, rfl, FlowTwo.continues a b offset tr hR⟩, rfl, le_refl _⟩
  | succ n ih =>
    intro a b offset tr fa h hR
    have hrc := hR.2.1.1
    have hlen := hR.2.1.2.1
    rw [additional_loop] at h ⊢
    unfold MAX_RRs at h ⊢
    rw [hrc, hlen]
    by_cases c1 : a.rr_count ≥ a.rr_offset.length
    · simp only [c1, if_true, Option.some.injEq] at h ⊢
      subst h
      exact ⟨⟨_, rfl, FlowTwo.returned a b tr hR⟩, rfl, le_refl _⟩
    simp only [c1, if_false] at h ⊢
    have hlt : a.rr_count < a.rr_offset.length := by omega
    have hR1 := two_run_rr T a b (offset % 65536) hR hlt
    have hft := opt_record_two px offset max T _ _ (tr ++ [Access.rr_write a.rr_count]) hR1
    obtain ⟨k1, k2⟩ := opt_record_table px offset max
      { a with rr_offset := a.rr_offset.set a.rr_count (offset % 65536),
               rr_count := a.rr_count + 1 }
      (tr ++ [Access.rr_write a.rr_count])
    generalize opt_record px offset max
      { a with rr_offset := a.rr_offset.set a.rr_count (offset % 65536),
               rr_count := a.rr_count + 1 }
      (tr ++ [Access.rr_write a.rr_count]) = fa0 at h hft k1 k2
    generalize opt_record px offset max
      { b with rr_offset := b.rr_offset.set a.rr_count (offset % 65536),
               rr_count := a.rr_count + 1 }
      (tr ++ [Access.rr_write a.rr_count]) = fb0 at hft ⊢
    cases hft with
    | returned a0 b0 t0 hR0 =>
      simp only [Option.some.injEq] at h ⊢
      subst h
      simp only [flow_dns_returned] at k1 k2 ⊢
      rw [k1, k2]
      exact ⟨⟨_, rfl, FlowTwo.returned _ _ _ hR0⟩, by simp, by simp⟩
    | continues a0 b0 o0 t0 hR0 =>
      simp only [flow_dns_continues] at k1 k2
      simp only at h ⊢
      cases hsk : dns_name_skip fuel px offset max t0 with
      | none => simp [hsk] at h
      | some res =>
        obtain ⟨r, tr1⟩ := res
        simp only [hsk] at h ⊢
        split_ifs at h ⊢ with c2 c3
        · simp only [Option.some.injEq] at h ⊢
          subst h
          simp only [flow_dns_returned]
          rw [k1, k2]
          exact ⟨⟨_, rfl, FlowTwo.returned _ _ _ hR0⟩, by simp, by simp⟩
        · simp only [Option.some.injEq] at h ⊢
          subst h
          simp only [flow_dns_returned]
          rw [k1, k2]
          exact ⟨⟨_, rfl, FlowTwo.returned _ _ _ hR0⟩, by simp, by simp⟩
        · obtain ⟨⟨fb, hb, hf⟩, i2, i3⟩ := ih _ _ _ _ _ h hR0
          rw [k1] at i2
          rw [k2] at i3
          simp only [List.length_set] at i2
          exact ⟨⟨fb, hb, hf⟩, i2, by omega⟩

/-- A state related to `a` with respect to `a` itself is `a`. -/
theorem two_run_eq (a b : DNS_Incoming) (h : TwoRun a a b) : b = a := by
  have hb := two_run_fields a a b h rfl rfl rfl rfl rfl
  obtain ⟨-, -, -, -, q1, q2⟩ := h
  have e1 : b.query_name = a.query_name := by
    rcases q1 with k | k <;> exact k
  have e2 : b.query_name_buffer = a.query_name_buffer := by
    rcases q2 with k | k <;> exact k
  rw [e1, e2] at hb
  exact hb

/-- Two runs of the name expansion into name buffers whose cells are related
and with the same length so far: they end the same way, with the same trace
and length, and the cells of the results are related. -/
theorem extract_loop_two (px : Buffer) (max : Nat) (T : List Nat) :
    ∀ (fuel o : Nat) (na nb : DomainPointer) (tr : Trace) (na' : DomainPointer) (e : Exit)
      (tr' : Trace),
      dns_extract_name_loop px max fuel o na tr = some (na', e, tr') →
      nb.length = na.length → na.length ≤ na.name.length → nb.length ≤ nb.name.length →
      (∀ i : Nat, Kept (T[i]?) (na.name[i]?) (nb.name[i]?)) →
      ∃ nb', dns_extract_name_loop px max fuel o nb tr = some (nb', e, tr') ∧
        nb'.length = na'.length ∧ ∀ i : Nat, Kept (T[i]?) (na'.name[i]?) (nb'.name[i]?) := by
  intro fuel
  induction fuel with
  | zero => intro o na nb tr na' e tr' h; simp [dns_extract_name_loop] at h
  | succ fuel ih =>
    intro o na nb tr na' e tr' h hl ha hb hk
    rw [extract_loop_succ] at h ⊢
    have hb0 := hb
    rw [hl]
    rw [hl] at hb
    split_ifs at h ⊢ with c1 c2 c3 c4 c5
    · simp only [Option.some.injEq, Prod.mk.injEq] at h ⊢
      obtain ⟨rfl, rfl, rfl⟩ := h
      exact ⟨nb, ⟨rfl, rfl, rfl⟩, hl, hk⟩
    · simp only [Option.some.injEq, Prod.mk.injEq] at h ⊢
      obtain ⟨rfl, rfl, rfl⟩ := h
      exact ⟨nb, ⟨rfl, rfl, rfl⟩, hl, hk⟩
    · have hlen := bytes_at_length px o (rd px o + 1)
      have ga := memcpy_length_ge na.name na.length (bytes_at px o (rd px o + 1)) ha
      have gb := memcpy_length_ge nb.name na.length (bytes_at px o (rd px o + 1)) hb
      have hmod : (na.length + rd px o + 1) % 256 ≤ na.length + rd px o + 1 :=
        Nat.mod_le _ _
      refine ih _ _ _ _ _ _ _ h rfl (by simp only; omega) (by simp only; omega) ?_
      intro i
      simp only
      rw [memcpy_getElem? _ _ _ _ ha, memcpy_getElem? _ _ _ _ hb]
      by_cases d1 : i < na.length
      · simp only [d1, if_true]
        exact hk i
      · simp only [d1, if_false]
        by_cases d2 : i < na.length + (bytes_at px o (rd px o + 1)).length
        · simp only [d2, if_true]
          exact Or.inl rfl
        · simp only [d2, if_false]
          exact hk i
    · simp only [Option.some.injEq, Prod.mk.injEq] at h ⊢
      obtain ⟨rfl, rfl, rfl⟩ := h
      exact ⟨nb, ⟨rfl, rfl, rfl⟩, hl, hk⟩
    · simp only [Option.some.injEq, Prod.mk.injEq] at h ⊢
      obtain ⟨rfl, rfl, rfl⟩ := h
      exact ⟨nb, ⟨rfl, rfl, rfl⟩, hl, hk⟩
    · exact ih _ _ _ _ _ _ _ h hl ha hb0 hk

/-- Expanding a name again, into the buffer the first expansion has filled,
gives the same name. -/
theorem extract_loop_again (px : Buffer) (max fuel o : Nat) (d : List Nat) (tr : Trace)
    (nm : DomainPointer) (e : Exit) (tr' : Trace)
    (h : dns_extract_name_loop px max fuel o (DomainPointer.mk d 0) tr = some (nm, e, tr')) :
    dns_extract_name_loop px max fuel o (DomainPointer.mk nm.name 0) tr = some (nm, e, tr') := by
  obtain ⟨nb, hb, hl, hk⟩ := extract_loop_two px max nm.name fuel o (DomainPointer.mk d 0)
    (DomainPointer.mk nm.name 0) tr nm e tr' h rfl (Nat.zero_le _) (Nat.zero_le _)
    (fun i => Or.inr rfl)
  have hn : nb.name = nm.name := by
    apply List.ext_getElem?
    intro i
    rcases hk i with k | k <;> exact k
  have : nb = nm := by
    cases nb
    cases nm
    simp only at hl hn
    rw [hl, hn]
  rw [← this]
  rw [← this] at hb
  exact hb

/-- The end of the parser, run again on a state related to the one of the
first run with respect to the result of the first run, gives that result. -/
theorem parse_finish_two (px : Buffer) (fuel max : Nat) (a b a' : DNS_Incoming)
    (tr tr' : Trace) (h : parse_finish fuel px max a tr = some (a', tr'))
    (hR : TwoRun a' a b) (hpos : 0 < a.rr_count) :
    parse_finish fuel px max b tr = some (a', tr') := by
  have h0 : b.rr_offset.getD 0 0 = a.rr_offset.getD 0 0 := by
    rw [List.getD_eq_getElem?_getD, List.getD_eq_getElem?_getD, hR.2.1.2.2.1 0 hpos]
  have hq := hR.2.2.2.2.2
  unfold parse_finish dns_extract_name at h ⊢
  rw [h0]
  simp only at h ⊢
  cases he : dns_extract_name_loop px max fuel (a.rr_offset.getD 0 0)
      (DomainPointer.mk a.query_name_buffer 0) tr with
  | none =>
    rw [he] at h
    exact absurd h (by simp)
  | some x =>
    obtain ⟨nm, e, t⟩ := x
    simp only [he, Option.some.injEq, Prod.mk.injEq] at h
    obtain ⟨rfl, rfl⟩ := h
    have hB : dns_extract_name_loop px max fuel (a.rr_offset.getD 0 0)
        (DomainPointer.mk b.query_name_buffer 0) tr = some (nm, e, t) := by
      rcases hq with k | k
      · rw [k]
        exact he
      · rw [k]
        exact extract_loop_again px max fuel _ _ _ _ _ _ he
    have hb := two_run_fields _ a b hR rfl rfl rfl rfl rfl
    simp only [hB, Option.some.injEq, Prod.mk.injEq, and_true]
    rw [hb]

/-- The sections keep the capacity of the table; run again on a state related
to the one of the first run with respect to the result of the first run, they
return that result, with the same trace. -/
theorem parse_sections_two (px : Buffer) (fuel max : Nat) (T a b : DNS_Incoming)
    (offset : Nat) (tr : Trace) (a' : DNS_Incoming) (tr' : Trace)
    (h : parse_sections fuel px max a offset tr = some (a', tr')) (hR : TwoRun T a b) :
    a'.rr_offset.length = a.rr_offset.length ∧
      (T = a' → parse_sections fuel px max b offset tr = some (a', tr')) := by
  have hqd : b.qdcount = a.qdcount := hR.1.2.2.2.2.2.2.2.2.2.2.2.2.2.1
  unfold parse_sections at h ⊢
  rw [hqd]
  split_ifs at h ⊢ with c0
  · simp only [Option.some.injEq, Prod.mk.injEq] at h ⊢
    obtain ⟨rfl, rfl⟩ := h
    refine ⟨rfl, fun hT => ⟨?_, rfl⟩⟩
    subst hT
    exact two_run_eq _ _ hR
  cases hq : question_loop fuel px max a.qdcount a offset tr with
  | none => simp [hq] at h
  | some fa1 =>
    obtain ⟨⟨fb1, hb1, hf1⟩, l1, m1, p1⟩ := question_loop_two px fuel max T _ _ _ _ _ _ hq hR
    simp only [hq] at h
    rw [hb1]
    cases hf1 with
    | returned a1 b1 t1 hR1 =>
      simp only [Option.some.injEq, Prod.mk.injEq] at h ⊢
      obtain ⟨rfl, rfl⟩ := h
      refine ⟨l1, fun hT => ⟨?_, rfl⟩⟩
      subst hT
      exact two_run_eq _ _ hR1
    | continues a1 b1 o1 t1 hR1 =>
      simp only [flow_dns_continues] at l1 m1
      have hpos : 0 < a1.rr_count := p1 a1 o1 t1 rfl (by omega)
      have han : b1.ancount + b1.nscount = a1.ancount + a1.nscount := by
        rw [hR1.1.2.2.2.2.2.2.2.2.2.2.2.2.2.2.1, hR1.1.2.2.2.2.2.2.2.2.2.2.2.2.2.2.2.1]
      simp only at h ⊢
      rw [han]
      cases ha : answer_loop fuel px max (a1.ancount + a1.nscount) a1 o1 t1 with
      | none => simp [ha] at h
      | some fa2 =>
        obtain ⟨⟨fb2, hb2, hf2⟩, l2, m2⟩ := answer_loop_two px fuel max T _ _ _ _ _ _ ha hR1
        simp only [ha] at h
        rw [hb2]
        cases hf2 with
        | returned a2 b2 t2 hR2 =>
          simp only [Option.some.injEq, Prod.mk.injEq] at h ⊢
          obtain ⟨rfl, rfl⟩ := h
          simp only [flow_dns_returned] at l2
          refine ⟨by omega, fun hT => ⟨?_, rfl⟩⟩
          subst hT
          exact two_run_eq _ _ hR2
        | continues a2 b2 o2 t2 hR2 =>
          simp only [flow_dns_continues] at l2 m2
          have har : b2.arcount = a2.arcount :=
            hR2.1.2.2.2.2.2.2.2.2.2.2.2.2.2.2.2.2.1
          simp only at h ⊢
          rw [har]
          cases hd : additional_loop fuel px max a2.arcount a2 o2 t2 with
          | none => simp [hd] at h
          | some fa3 =>
            obtain ⟨⟨fb3, hb3, hf3⟩, l3, m3⟩ :=
              additional_loop_two px fuel max T _ _ _ _ _ _ hd hR2
            simp only [hd] at h
            rw [hb3]
            cases hf3 with
            | returned a3 b3 t3 hR3 =>
              simp only [Option.some.injEq, Prod.mk.injEq] at h ⊢
              obtain ⟨rfl, rfl⟩ := h
              simp only [flow_dns_returned] at l3
              refine ⟨by omega, fun hT => ⟨?_, rfl⟩⟩
              subst hT
              exact two_run_eq _ _ hR3
            | continues a3 b3 o3 t3 hR3 =>
              simp only [flow_dns_continues] at l3 m3
              simp only at h ⊢
              obtain ⟨nm, f4⟩ := parse_finish_frame px fuel max _ _ _ _ h
              refine ⟨by rw [f4]; simp only; omega, fun hT => ?_⟩
              subst hT
              exact parse_finish_two px fuel max a3 b3 _ t3 tr' h hR3 (by omega)

/-- C15: parsing is idempotent.  For every initial state `s`, buffer, offset
and bound on which `proto_dns_parse` returns a state `s'`, parsing the same
bytes again into `s'` returns, and the state it returns is `s'` itself: every
field, the table and the name buffer included, is identical to the state after
the first parse (and the accesses made are the same). -/
theorem parse_idempotent (fuel : Nat) (s : DNS_Incoming) (px : Buffer) (offset max : Nat)
    (s' : DNS_Incoming) (tr' : Trace)
    (h : proto_dns_parse fuel s px offset max [] = some (s', tr')) :
    proto_dns_parse fuel s' px offset max [] = some (s', tr') := by
  unfold proto_dns_parse at h ⊢
  by_cases c : u32sub max offset < 12
  · simp only [c, if_true, Option.some.injEq, Prod.mk.injEq] at h ⊢
    obtain ⟨rfl, rfl⟩ := h
    exact ⟨rfl, rfl⟩
  · simp only [c, if_false] at h ⊢
    have hlen := (parse_sections_two px fuel max s' _ _ _ _ _ _ h (two_run_refl _ _)).1
    simp only [parse_header] at hlen
    refine (parse_sections_two px fuel max s' _ _ _ _ _ _ h ?_).2 rfl
    exact ⟨⟨rfl, rfl, rfl, rfl, rfl, rfl, rfl, rfl, rfl, rfl, rfl, rfl, rfl, rfl, rfl, rfl, rfl,
      rfl⟩, ⟨rfl, hlen, fun i hi => absurd hi (Nat.not_lt_zero _), fun _ => Or.inr rfl⟩,
      ⟨Or.inr rfl, Or.inr rfl⟩, ⟨Or.inr rfl, Or.inr rfl⟩, ⟨Or.inr rfl, Or.inr rfl⟩⟩

/-- Witness of C15: the minimal query, parsed into a blank state and then
again into the result. -/
theorem parse_idempotent_witness :
    ∃ s' tr', proto_dns_parse 1282 (blank 64) (buf minimal_query) 0 29 [] = some (s', tr') ∧
      proto_dns_parse 1282 s' (buf minimal_query) 0 29 [] = some (s', tr') := by
  obtain ⟨d, t, h, -⟩ := parse_safe 1282 (blank 64) (buf minimal_query) 0 29 (by decide)
    (by decide) (by decide)
  exact ⟨d, t, h, parse_idempotent 1282 (blank 64) (buf minimal_query) 0 29 d t h⟩

/-- C14 (amended): for every message with `is_valid` true, `is_formerr` false
and query class 3, and every reply packet whose limit is inside its buffer.
If the query type is 16 and the decoded name has length 13 and its first 13
bytes equal `07 version 04 bind` up to the case of ASCII letters: with room for
65 bytes `proto_dns_process` allocates one packet and transmits the 65 bytes of
`xx` with the first two replaced by the request id, whatever the other fields
of the message are, and with less room it allocates a packet and transmits
nothing.  For any other name or type it allocates one packet and transmits it
with its limit 12 bytes after its position, and with room for 12 bytes these
are the 12 bytes of the format-error reply. -/
theorem chaos_reply (fresh : Packet) (resolve : DNS_Incoming → Packet → Packet)
    (request : DNS_Incoming) (hv : request.is_valid = true) (hf : request.is_formerr = false)
    (hc : request.query_class = 3) (hbuf : fresh.max ≤ fresh.buf.length) :
    (request.query_type = 16 ∧ request.query_name.length = 13 ∧
        (request.query_name.name.take 13).map ascii_lower
          = [7, 118, 101, 114, 115, 105, 111, 110, 4, 98, 105, 110, 100] →
      (fresh.offset + 65 ≤ fresh.max →
        ∃ pkt, proto_dns_process fresh resolve request = [Effect.create, Effect.xmit pkt] ∧
          pkt.offset = fresh.offset + 65 ∧ pkt.max = pkt.offset ∧
          sent_bytes fresh.offset pkt
            = (xx.set 0 (request.id / 256 % 256)).set 1 (request.id % 256) ∧
          (sent_bytes fresh.offset pkt).length = 65) ∧
      (¬ fresh.offset + 65 ≤ fresh.max →
        proto_dns_process fresh resolve request = [Effect.create])) ∧
    (¬ (request.query_type = 16 ∧ request.query_name.length = 13 ∧
        (request.query_name.name.take 13).map ascii_lower
          = [7, 118, 101, 114, 115, 105, 111, 110, 4, 98, 105, 110, 100]) →
      ∃ pkt, proto_dns_process fresh resolve request = [Effect.create, Effect.xmit pkt] ∧
        pkt.offset = fresh.offset + 12 ∧ pkt.max = pkt.offset ∧
        (fresh.offset + 12 ≤ fresh.max →
          sent_bytes fresh.offset pkt =
            [request.id / 256 % 256, request.id % 256, 0x80, 0x01, 0, 0, 0, 0, 0, 0, 0, 0])) := by
  have hlit : (version_bind.take 13).map ascii_lower
      = [7, 118, 101, 114, 115, 105, 111, 110, 4, 98, 105, 110, 100] := by decide
  have hxx : xx.length = 65 := by decide
  constructor
  · rintro ⟨ht, hl, hn⟩
    have hm : memcasecmp request.query_name.name version_bind 13 = 0 := by
      simp only [memcasecmp, hlit, hn, if_true]
    constructor
    · intro hroom
      refine ⟨Packet.mk
        (((memcpy fresh.buf fresh.offset xx).set (fresh.offset + 0)
          ((request.id >>> 8) % 256)).set (fresh.offset + 1) ((request.id >>> 0) % 256))
        (fresh.offset + 65) (fresh.offset + 65), ?_, rfl, rfl, ?_⟩
      · simp [proto_dns_process, hv, hf, hc, ht, hl, hm, hxx, hroom]
      · have h := patched_reply fresh.buf fresh.offset xx
          ((request.id >>> 8) % 256) ((request.id >>> 0) % 256) (by rw [hxx]; omega)
          (by rw [hxx]; omega)
        rw [hxx] at h
        simp only [sent_bytes]
        rw [h, shr8_mod, shr0_mod]
        exact ⟨rfl, by simp [hxx]⟩
    · intro hroom
      simp [proto_dns_process, hv, hf, hc, ht, hl, hm, hxx, hroom]
  · intro hne
    have hp : proto_dns_process fresh resolve request = formerr_reply fresh request := by
      by_cases ht : request.query_type = 16
      · by_cases hl : request.query_name.length = 13
        · have hn : ¬ (request.query_name.name.take 13).map ascii_lower
              = [7, 118, 101, 114, 115, 105, 111, 110, 4, 98, 105, 110, 100] :=
            fun h => hne ⟨ht, hl, h⟩
          have hm : memcasecmp request.query_name.name version_bind 13 ≠ 0 := by
            simp only [memcasecmp, hlit, hn, if_false]
            decide
          simp [proto_dns_process, hv, hf, hc, ht, hl, hm]
        · simp [proto_dns_process, hv, hf, hc, ht, hl]
      · simp [proto_dns_process, hv, hf, hc, ht]
    rw [hp]
    by_cases hroom : fresh.offset + 12 ≤ fresh.max
    · obtain ⟨pkt, h1, h2, h3, h4⟩ := formerr_reply_sent fresh request hroom hbuf
      exact ⟨pkt, h1, h2, h3, fun _ => h4⟩
    · refine ⟨Packet.mk fresh.buf (fresh.offset + 12) (fresh.offset + 12), ?_, rfl, rfl,
        fun h => absurd h hroom⟩
      simp only [formerr_reply, hroom, if_false]

/-- Witness of C14 (amended): the query `version_query`, parsed and then
processed with a reply packet of 100 bytes at position 14, yields the
diagnostic payload. -/
theorem chaos_reply_witness :
    ∃ pkt, proto_dns_process reply_packet (fun _ p => p) (parsed version_query)
        = [Effect.create, Effect.xmit pkt] ∧
      pkt.offset = reply_packet.offset + 65 ∧ pkt.max = pkt.offset ∧
      sent_bytes reply_packet.offset pkt
        = (xx.set 0 ((parsed version_query).id / 256 % 256)).set 1
            ((parsed version_query).id % 256) ∧
      (sent_bytes reply_packet.offset pkt).length = 65 :=
  ((chaos_reply reply_packet (fun _ p => p) (parsed version_query) (by decide) (by decide)
    (by decide) (by decide)).1 ⟨by decide, by decide, by decide⟩).1 (by decide)

/-- On questions of which one carries a class outside 1, 3, 255, the question
loop returns from the parser, with the flags as they were. -/
theorem question_loop_bad_class (px : Buffer) (fuel max : Nat) (hmax : max < 4294967296) :
    ∀ (n o : Nat), BadClassAt fuel px max n o →
      ∀ (dns : DNS_Incoming) (tr : Trace),
      ∃ d t, question_loop fuel px max n dns o tr = some (Flow.returned d t) ∧
        d.is_formerr = dns.is_formerr ∧ d.is_valid = dns.is_valid := by
  intro n o hb
  induction hb with
  | here n o r t t' hsk h4 hbad =>
    intro dns tr
    rw [question_loop]
    by_cases c1 : dns.rr_count ≥ MAX_RRs dns
    · simp only [c1, if_true]
      exact ⟨_, _, rfl, rfl, rfl⟩
    obtain ⟨s', hsk'⟩ := skip_any_trace px fuel o max t t'
      (tr ++ [Access.rr_write dns.rr_count]) r hsk
    have hu : u32 (r + 4) = r + 4 := u32_of_lt (by omega)
    have e2 : u32sub (r + 4) 2 = r + 2 := by unfold u32sub; omega
    have e1 : u32sub (r + 4) 1 = r + 3 := by unfold u32sub; omega
    have c2 : ¬ r + 4 > max := by omega
    have c3 : rd px (r + 2) * 256 + rd px (r + 3) ≠ 1 ∧
        rd px (r + 2) * 256 + rd px (r + 3) ≠ 255 ∧
        rd px (r + 2) * 256 + rd px (r + 3) ≠ 3 := by
      unfold legal_class at hbad
      omega
    simp only [c1, if_false, hsk', hu, e1, e2, c2, shl8_or _ _ (rd_lt px (r + 3))]
    rw [if_pos c3]
    exact ⟨_, _, rfl, rfl, rfl⟩
  | next n o r t t' hsk h4 hgood _ ih =>
    intro dns tr
    rw [question_loop]
    by_cases c1 : dns.rr_count ≥ MAX_RRs dns
    · simp only [c1, if_true]
      exact ⟨_, _, rfl, rfl, rfl⟩
    obtain ⟨s', hsk'⟩ := skip_any_trace px fuel o max t t'
      (tr ++ [Access.rr_write dns.rr_count]) r hsk
    have hu : u32 (r + 4) = r + 4 := u32_of_lt (by omega)
    have e2 : u32sub (r + 4) 2 = r + 2 := by unfold u32sub; omega
    have e1 : u32sub (r + 4) 1 = r + 3 := by unfold u32sub; omega
    have e4 : u32sub (r + 4) 4 = r := by unfold u32sub; omega
    have e3 : u32sub (r + 4) 3 = r + 1 := by unfold u32sub; omega
    have c2 : ¬ r + 4 > max := by omega
    have c3 : ¬ (rd px (r + 2) * 256 + rd px (r + 3) ≠ 1 ∧
        rd px (r + 2) * 256 + rd px (r + 3) ≠ 255 ∧
        rd px (r + 2) * 256 + rd px (r + 3) ≠ 3) := by
      unfold legal_class at hgood
      omega
    simp only [c1, if_false, hsk', hu, e1, e2, e3, e4, c2, shl8_or _ _ (rd_lt px (r + 3))]
    rw [if_neg c3]
    obtain ⟨d, t2, hd, g1, g2⟩ := ih
      { dns with
        rr_offset := dns.rr_offset.set dns.rr_count (o % 65536)
        rr_count := dns.rr_count + 1
        query_type := (rd px r <<< 8) ||| rd px (r + 1)
        query_class := rd px (r + 2) * 256 + rd px (r + 3) }
      (s' ++ [Access.read (r + 2), Access.read (r + 3)] ++ [Access.read r, Access.read (r + 1)])
    exact ⟨d, t2, hd, g1, g2⟩

/-- C9: for every message of at least 12 bytes, when `proto_dns_parse` returns,
`is_valid` is true, and `is_formerr` false implies that the recorded
`query_class` is one of 1, 3, 255 (a recorded class outside them comes with
`is_formerr` true); and for every message in which a question reached by the
parser carries, in its class field, a value outside 1, 3, 255, the parser
returns with `is_valid` true and `is_formerr` true. -/
theorem parse_class_legal (fuel : Nat) (dns : DNS_Incoming) (px : Buffer) (offset max : Nat)
    (hlen : 12 ≤ u32sub max offset) :
    (∀ (tr : Trace) (dns' : DNS_Incoming) (tr' : Trace),
      proto_dns_parse fuel dns px offset max tr = some (dns', tr') →
      dns'.is_valid = true ∧
      (dns'.is_formerr = false →
        dns'.query_class = 1 ∨ dns'.query_class = 3 ∨ dns'.query_class = 255) ∧
      (¬ (dns'.query_class = 1 ∨ dns'.query_class = 3 ∨ dns'.query_class = 255) →
        dns'.is_formerr = true)) ∧
    (max < 4294967296 → offset ≤ max →
      BadClassAt fuel px max (after_header dns px offset max).qdcount (offset + 12) →
      ∃ dns' tr', proto_dns_parse fuel dns px offset max [] = some (dns', tr') ∧
        dns'.is_valid = true ∧ dns'.is_formerr = true) := by
  have c : ¬ u32sub max offset < 12 := by omega
  constructor
  · intro tr dns' tr' h
    unfold proto_dns_parse at h
    simp only [c, if_false] at h
    obtain ⟨h1, h2⟩ := parse_sections_result px fuel max _ _ _ _ _ h rfl
    refine ⟨by rw [h1]; rfl, fun hf => (h2 hf).1, fun hn => ?_⟩
    cases hf : dns'.is_formerr with
    | true => rfl
    | false => exact absurd (h2 hf).1 hn
  · intro hmax ho hbad
    have hsub : u32sub max offset = max - offset := by unfold u32sub; omega
    have h12 : u32 (offset + 12) = offset + 12 := u32_of_lt (by omega)
    have hqd : (after_header dns px offset max).qdcount ≠ 0 := by
      intro h0
      rw [h0] at hbad
      cases hbad
    obtain ⟨d, t, hd, g1, g2⟩ := question_loop_bad_class px fuel max hmax _ _ hbad
      (after_header dns px offset max) (header_reads offset)
    refine ⟨d, t, ?_, by rw [g2]; rfl, by rw [g1]; rfl⟩
    unfold proto_dns_parse parse_sections
    simp only [c, if_false, h12, List.nil_append]
    unfold after_header at hqd hd
    simp only [hqd, if_false, hd]

/-- Witness of C9: in the minimal query with class 7 the only question is
reached and carries class 7; the parser returns with `is_valid` and
`is_formerr` true. -/
theorem parse_class_legal_witness :
    12 ≤ u32sub 29 0 ∧
    BadClassAt 1282 (buf class7_query) 29
      (after_header (blank 64) (buf class7_query) 0 29).qdcount (0 + 12) ∧
    ∃ dns' tr', proto_dns_parse 1282 (blank 64) (buf class7_query) 0 29 [] = some (dns', tr') ∧
      dns'.is_valid = true ∧ dns'.is_formerr = true := by
  have hbad : BadClassAt 1282 (buf class7_query) 29
      (after_header (blank 64) (buf class7_query) 0 29).qdcount (0 + 12) :=
    BadClassAt.here 0 12 25 [] _ rfl (by decide) (by unfold legal_class; decide)
  exact ⟨by decide, hbad, (parse_class_legal 1282 (blank 64) (buf class7_query) 0 29
    (by decide)).2 (by decide) (by decide) hbad⟩

/-- On additional records of which one is an OPT record with a payload size
below 512, the additional loop returns from the parser, with the flags as they
were. -/
theorem additional_loop_small_opt (px : Buffer) (fuel max : Nat) (hmax : max < 4294967296) :
    ∀ (n o : Nat), SmallOptAt fuel px max n o →
      ∀ (dns : DNS_Incoming) (tr : Trace),
      ∃ d t, additional_loop fuel px max n dns o tr = some (Flow.returned d t) ∧
        d.is_formerr = dns.is_formerr ∧ d.is_valid = dns.is_valid := by
  intro n o hb
  induction hb with
  | here n o h11 h0 h1 h2 hp =>
    intro dns tr
    rw [additional_loop]
    by_cases c1 : dns.rr_count ≥ MAX_RRs dns
    · simp only [c1, if_true]
      exact ⟨_, _, rfl, rfl, rfl⟩
    have hu : ∀ k, k ≤ 11 → u32 (o + k) = o + k := fun k hk => u32_of_lt (by omega)
    have hsig : u32 (o + 11) ≤ max ∧ rd px o = 0 ∧ rd px (u32 (o + 1)) = 0 ∧
        rd px (u32 (o + 2)) = 0x29 := by
      rw [hu 11 (by omega), hu 1 (by omega), hu 2 (by omega)]
      exact ⟨h11, h0, h1, h2⟩
    have hsmall : ((rd px (u32 (o + 3)) <<< 8) ||| rd px (u32 (o + 4))) < 512 := by
      rw [hu 3 (by omega), hu 4 (by omega), shl8_or _ _ (rd_lt px _)]
      exact hp
    simp only [c1, if_false, opt_record, hsig, and_self, if_true, hsmall]
    exact ⟨_, _, rfl, rfl, rfl⟩
  | next n o r t t' hsk h10 hrd _ ih =>
    intro dns tr
    rw [additional_loop]
    by_cases c1 : dns.rr_count ≥ MAX_RRs dns
    · simp only [c1, if_true]
      exact ⟨_, _, rfl, rfl, rfl⟩
    simp only [c1, if_false]
    obtain ⟨⟨rcd, ed, ie, key⟩, -⟩ := opt_record_frame px o max
      { dns with
        rr_offset := dns.rr_offset.set dns.rr_count (o % 65536)
        rr_count := dns.rr_count + 1 }
      (tr ++ [Access.rr_write dns.rr_count])
    generalize opt_record px o max _ _ = fl0 at key ⊢
    cases fl0 with
    | returned d0 t0 =>
      simp only [flow_dns_returned] at key
      refine ⟨d0, t0, rfl, ?_, ?_⟩ <;> rw [key]
    | continues d0 o0 t0 =>
      simp only [flow_dns_continues] at key
      obtain ⟨s', hsk'⟩ := skip_any_trace px fuel o max t t' t0 r hsk
      have hu : u32 (r + 10) = r + 10 := u32_of_lt (by omega)
      have e2 : u32sub (r + 10) 2 = r + 8 := by unfold u32sub; omega
      have e1 : u32sub (r + 10) 1 = r + 9 := by unfold u32sub; omega
      have hu2 : u32 (r + 10 + (rd px (r + 8) * 256 + rd px (r + 9)))
          = r + 10 + (rd px (r + 8) * 256 + rd px (r + 9)) := u32_of_lt (by omega)
      have c2 : ¬ r + 10 > max := by omega
      have c3 : ¬ r + 10 + (rd px (r + 8) * 256 + rd px (r + 9)) > max := by omega
      simp only [hsk', hu, e1, e2, c2, if_false, shl8_or _ _ (rd_lt px (r + 9)), hu2, c3]
      obtain ⟨d, t2, hd, g1, g2⟩ := ih d0 (s' ++ [Access.read (r + 8), Access.read (r + 9)])
      refine ⟨d, t2, hd, ?_, ?_⟩
      · rw [g1, key]
      · rw [g2, key]

/-- C10: for every message of at least 12 bytes whose question section parses
correctly (the question loop is left normally), whose answer and authority
loop is left too, and in which the parser then reaches an additional record
whose bytes match the OPT signature (root name `00`, type `00 29`, at least 11
bytes left) with a payload size below 512, `proto_dns_parse` returns with
`is_valid` true and `is_formerr` true: the whole message is rejected.  And
whenever `proto_dns_parse` returns with `is_formerr` false,
`edns0.payload_size` is 512 or more, so that a stored payload size below 512
comes with `is_formerr` true. -/
theorem opt_small_payload_rejected (fuel : Nat) (dns : DNS_Incoming) (px : Buffer)
    (offset max : Nat) (d1 : DNS_Incoming) (o1 : Nat) (t1 : Trace) (d2 : DNS_Incoming)
    (o2 : Nat) (t2 : Trace)
    (hmax : max < 4294967296) (ho : offset ≤ max) (hlen : 12 ≤ max - offset)
    (hqd : (after_header dns px offset max).qdcount ≠ 0)
    (hq : question_loop fuel px max (after_header dns px offset max).qdcount
      (after_header dns px offset max) (offset + 12) (header_reads offset) =
        some (Flow.continues d1 o1 t1))
    (ha : answer_loop fuel px max
      ((after_header dns px offset max).ancount + (after_header dns px offset max).nscount)
      d1 o1 t1 = some (Flow.continues d2 o2 t2))
    (hopt : SmallOptAt fuel px max (after_header dns px offset max).arcount o2) :
    (∃ dns' tr', proto_dns_parse fuel dns px offset max [] = some (dns', tr') ∧
      dns'.is_valid = true ∧ dns'.is_formerr = true) ∧
    (∀ (fuel' : Nat) (dns0 : DNS_Incoming) (px' : Buffer) (offset' max' : Nat) (tr0 : Trace)
      (dns' : DNS_Incoming) (tr' : Trace),
      proto_dns_parse fuel' dns0 px' offset' max' tr0 = some (dns', tr') →
      (dns'.is_formerr = false → 512 ≤ dns'.edns0.payload_size) ∧
      (dns'.edns0.payload_size < 512 → dns'.is_formerr = true)) := by
  constructor
  · have hsub : u32sub max offset = max - offset := by unfold u32sub; omega
    have c : ¬ u32sub max offset < 12 := by rw [hsub]; omega
    have h12 : u32 (offset + 12) = offset + 12 := u32_of_lt (by omega)
    obtain ⟨ro1, rc1, qt1, qc1, f1⟩ := question_loop_frame px fuel max _ _ _ _ _ hq
    simp only [flow_dns_continues] at f1
    obtain ⟨ro2, rc2, f2⟩ := answer_loop_frame px fuel max _ _ _ _ _ ha
    simp only [flow_dns_continues] at f2
    have cnt : d1.ancount + d1.nscount
        = (after_header dns px offset max).ancount + (after_header dns px offset max).nscount := by
      rw [f1]
    have car : d2.arcount = (after_header dns px offset max).arcount := by rw [f2, f1]
    have cf : d2.is_formerr = true := by rw [f2, f1]; rfl
    have cv : d2.is_valid = true := by rw [f2, f1]; rfl
    obtain ⟨d, t, hd, g1, g2⟩ := additional_loop_small_opt px fuel max hmax _ _ hopt d2 t2
    rw [← car] at hd
    rw [← cnt] at ha
    refine ⟨d, t, ?_, by rw [g2, cv], by rw [g1, cf]⟩
    unfold proto_dns_parse parse_sections
    simp only [c, if_false, h12, List.nil_append]
    unfold after_header at hqd hq
    simp only [hqd, if_false, hq, ha, hd]
  · intro fuel' dns0 px' offset' max' tr0 dns' tr' h
    have key : dns'.is_formerr = false → 512 ≤ dns'.edns0.payload_size := by
      intro hf
      unfold proto_dns_parse at h
      split_ifs at h with c
      · simp only [Option.some.injEq, Prod.mk.injEq] at h
        obtain ⟨rfl, -⟩ := h
        exact le_refl _
      · obtain ⟨-, h2⟩ := parse_sections_result px' fuel' max' _ _ _ _ _ h rfl
        exact (h2 hf).2 (le_refl _)
    refine ⟨key, fun hlt => ?_⟩
    cases hf : dns'.is_formerr with
    | true => rfl
    | false =>
      have := key hf
      omega

/-- Witness of C10: in `small_opt_query` the question loop is left at 29, there
is no answer or authority record, and the only additional record, at 29, is an
OPT record with payload size 256; the parser returns with `is_formerr` true. -/
theorem opt_small_payload_rejected_witness :
    ∃ d1 t1,
      question_loop 1282 (buf small_opt_query) 40
        (after_header (blank 64) (buf small_opt_query) 0 40).qdcount
        (after_header (blank 64) (buf small_opt_query) 0 40) (0 + 12) (header_reads 0) =
          some (Flow.continues d1 29 t1) ∧
      answer_loop 1282 (buf small_opt_query) 40
        ((after_header (blank 64) (buf small_opt_query) 0 40).ancount +
          (after_header (blank 64) (buf small_opt_query) 0 40).nscount) d1 29 t1 =
          some (Flow.continues d1 29 t1) ∧
      SmallOptAt 1282 (buf small_opt_query) 40
        (after_header (blank 64) (buf small_opt_query) 0 40).arcount 29 ∧
      ∃ dns' tr', proto_dns_parse 1282 (blank 64) (buf small_opt_query) 0 40 [] =
          some (dns', tr') ∧
        dns'.is_valid = true ∧ dns'.is_formerr = true := by
  have hq : ∃ d1 t1, question_loop 1282 (buf small_opt_query) 40
      (after_header (blank 64) (buf small_opt_query) 0 40).qdcount
      (after_header (blank 64) (buf small_opt_query) 0 40) (0 + 12) (header_reads 0) =
        some (Flow.continues d1 29 t1) := ⟨_, _, rfl⟩
  obtain ⟨d1, t1, hq⟩ := hq
  have hopt : SmallOptAt 1282 (buf small_opt_query) 40
      (after_header (blank 64) (buf small_opt_query) 0 40).arcount 29 :=
    SmallOptAt.here 0 29 (by decide) (by decide) (by decide) (by decide) (by decide)
  exact ⟨d1, t1, hq, rfl, hopt, (opt_small_payload_rejected 1282 (blank 64)
    (buf small_opt_query) 0 40 d1 29 t1 d1 29 t1 (by decide) (by decide) (by decide) (by decide)
    hq rfl hopt).1⟩

theorem chain_append (fuel : Nat) (px : Buffer) (max : Nat) (q : Bool) (s m e : Nat)
    (l1 l2 : List Nat) (h1 : Chain fuel px max q s l1 m) (h2 : Chain fuel px max q m l2 e) :
    Chain fuel px max q s (l1 ++ l2) e := by
  induction h1 with
  | nil s => exact h2
  | cons o r t t' l e' hsk hf _ ih => exact Chain.cons o r t t' (l ++ l2) e hsk hf (ih h2)

/-- A question loop that is left normally has entered the starts of `n`
consecutive questions into the table. -/
theorem question_loop_chain (px : Buffer) (fuel max : Nat) (hmax : max ≤ 65535) :
    ∀ (n : Nat) (dns : DNS_Incoming) (offset : Nat) (tr : Trace) (d : DNS_Incoming) (o : Nat)
      (t : Trace),
      question_loop fuel px max n dns offset tr = some (Flow.continues d o t) →
      dns.rr_count ≤ dns.rr_offset.length →
      d.rr_count ≤ d.rr_offset.length ∧
      ∃ l, l.length = n ∧ d.rr_offset.take d.rr_count = dns.rr_offset.take dns.rr_count ++ l ∧
        Chain fuel px max true offset l o := by
  intro n
  induction n with
  | zero =>
    intro dns offset tr d o t h hc
    simp only [question_loop, Option.some.injEq, Flow.continues.injEq] at h
    obtain ⟨rfl, rfl, -⟩ := h
    exact ⟨hc, [], rfl, by simp, Chain.nil _⟩
  | succ n ih =>
    intro dns offset tr d o t h hc
    rw [question_loop] at h
    by_cases c1 : dns.rr_count ≥ MAX_RRs dns
    · simp [c1] at h
    simp only [c1, if_false] at h
    have hlt : dns.rr_count < dns.rr_offset.length := by unfold MAX_RRs at c1; omega
    cases hsk : dns_name_skip fuel px offset max (tr ++ [Access.rr_write dns.rr_count]) with
    | none => simp [hsk] at h
    | some res =>
      obtain ⟨r, tr1⟩ := res
      simp only [hsk] at h
      have hv := skip_value _ _ _ _ _ _ _ (by omega) hsk
      have hu : u32 (r + 4) = r + 4 := u32_of_lt (by omega)
      rw [hu] at h
      split_ifs at h with c2 c3
      · simp at h
      · simp at h
      · obtain ⟨g1, l, g2, g3, g4⟩ := ih _ _ _ _ _ _ h (by simp only [List.length_set]; omega)
        simp only at g3
        have hm : offset % 65536 = offset := Nat.mod_eq_of_lt (by omega)
        refine ⟨g1, offset :: l, by simp [g2], ?_, ?_⟩
        · rw [g3, take_set_succ _ _ _ hlt, hm]
          simp
        · exact Chain.cons offset r _ _ l o hsk
            (by simp only [fixed_bytes, if_true]; omega)
            (by simp only [record_end, if_true]; exact g4)

/-- An answer loop that is left, normally or by its `break`, has entered the
starts of at most `n` consecutive records into the table. -/
theorem answer_loop_chain (px : Buffer) (fuel max : Nat) (hmax : max ≤ 65535) :
    ∀ (n : Nat) (dns : DNS_Incoming) (offset : Nat) (tr : Trace) (d : DNS_Incoming) (o : Nat)
      (t : Trace),
      answer_loop fuel px max n dns offset tr = some (Flow.continues d o t) →
      dns.rr_count ≤ dns.rr_offset.length →
      d.rr_count ≤ d.rr_offset.length ∧
      ∃ l, l.length ≤ n ∧ d.rr_offset.take d.rr_count = dns.rr_offset.take dns.rr_count ++ l ∧
        Chain fuel px max false offset l o := by
  intro n
  induction n with
  | zero =>
    intro dns offset tr d o t h hc
    simp only [answer_loop, Option.some.injEq, Flow.continues.injEq] at h
    obtain ⟨rfl, rfl, -⟩ := h
    exact ⟨hc, [], le_refl _, by simp, Chain.nil _⟩
  | succ n ih =>
    intro dns offset tr d o t h hc
    rw [answer_loop] at h
    by_cases c1 : dns.rr_count ≥ MAX_RRs dns
    · simp [c1] at h
    simp only [c1, if_false] at h
    have hlt : dns.rr_count < dns.rr_offset.length := by unfold MAX_RRs at c1; omega
    cases hsk : dns_name_skip fuel px offset max (tr ++ [Access.rr_write dns.rr_count]) with
    | none => simp [hsk] at h
    | some res =>
      obtain ⟨r, tr1⟩ := res
      simp only [hsk] at h
      have hv := skip_value _ _ _ _ _ _ _ (by omega) hsk
      have hu : u32 (r + 10) = r + 10 := u32_of_lt (by omega)
      rw [hu] at h
      have e2 : u32sub (r + 10) 2 = r + 8 := by unfold u32sub; omega
      have e1 : u32sub (r + 10) 1 = r + 9 := by unfold u32sub; omega
      simp only [e1, e2, shl8_or _ _ (rd_lt px (r + 9))] at h
      have hrl := rd_lt px (r + 8)
      have hrl2 := rd_lt px (r + 9)
      by_cases c2 : r + 10 > max
      · simp [c2] at h
      simp only [c2, if_false] at h
      have hm : offset % 65536 = offset := Nat.mod_eq_of_lt (by omega)
      have hu2 : u32 (r + 10 + (rd px (r + 8) * 256 + rd px (r + 9)))
          = r + 10 + (rd px (r + 8) * 256 + rd px (r + 9)) := u32_of_lt (by omega)
      rw [hu2] at h
      split_ifs at h with c3
      · simp only [Option.some.injEq, Flow.continues.injEq] at h
        obtain ⟨rfl, rfl, -⟩ := h
        refine ⟨by simp only [List.length_set]; omega, [offset], by simp, ?_, ?_⟩
        · simp only
          rw [take_set_succ _ _ _ hlt, hm]
        · exact Chain.cons offset r _ _ [] _ hsk
            (by simp only [fixed_bytes]; simp; omega)
            (by simp only [record_end]; simp; exact Chain.nil _)
      · obtain ⟨g1, l, g2, g3, g4⟩ := ih _ _ _ _ _ _ h (by simp only [List.length_set]; omega)
        simp only at g3
        refine ⟨g1, offset :: l, by simp only [List.length_cons]; omega, ?_, ?_⟩
        · rw [g3, take_set_succ _ _ _ hlt, hm]
          simp
        · exact Chain.cons offset r _ _ l o hsk
            (by simp only [fixed_bytes]; simp; omega)
            (by simp only [record_end]; simp; exact g4)

/-- An additional loop that is left normally has entered the starts of `n`
consecutive records into the table. -/
theorem additional_loop_chain (px : Buffer) (fuel max : Nat) (hmax : max ≤ 65535) :
    ∀ (n : Nat) (dns : DNS_Incoming) (offset : Nat) (tr : Trace) (d : DNS_Incoming) (o : Nat)
      (t : Trace),
      additional_loop fuel px max n dns offset tr = some (Flow.continues d o t) →
      dns.rr_count ≤ dns.rr_offset.length →
      d.rr_count ≤ d.rr_offset.length ∧
      ∃ l, l.length = n ∧ d.rr_offset.take d.rr_count = dns.rr_offset.take dns.rr_count ++ l ∧
        Chain fuel px max false offset l o := by
  intro n
  induction n with
  | zero =>
    intro dns offset tr d o t h hc
    simp only [additional_loop, Option.some.injEq, Flow.continues.injEq] at h
    obtain ⟨rfl, rfl, -⟩ := h
    exact ⟨hc, [], rfl, by simp, Chain.nil _⟩
  | succ n ih =>
    intro dns offset tr d o t h hc
    rw [additional_loop] at h
    by_cases c1 : dns.rr_count ≥ MAX_RRs dns
    · simp [c1] at h
    simp only [c1, if_false] at h
    have hlt : dns.rr_count < dns.rr_offset.length := by unfold MAX_RRs at c1; omega
    obtain ⟨k1, k2⟩ := opt_record_table px offset max
      { dns with rr_offset := dns.rr_offset.set dns.rr_count (offset % 65536),
                 rr_count := dns.rr_count + 1 }
      (tr ++ [Access.rr_write dns.rr_count])
    generalize opt_record px offset max _ _ = fl0 at h k1 k2
    cases fl0 with
    | returned d0 t0 => simp at h
    | continues d0 o0 t0 =>
      simp only [flow_dns_continues] at k1 k2
      simp only at h
      cases hsk : dns_name_skip fuel px offset max t0 with
      | none => simp [hsk] at h
      | some res =>
        obtain ⟨r, tr1⟩ := res
        simp only [hsk] at h
        have hv := skip_value _ _ _ _ _ _ _ (by omega) hsk
        have hu : u32 (r + 10) = r + 10 := u32_of_lt (by omega)
        rw [hu] at h
        have e2 : u32sub (r + 10) 2 = r + 8 := by unfold u32sub; omega
        have e1 : u32sub (r + 10) 1 = r + 9 := by unfold u32sub; omega
        simp only [e1, e2, shl8_or _ _ (rd_lt px (r + 9))] at h
        have hrl := rd_lt px (r + 8)
        have hrl2 := rd_lt px (r + 9)
        by_cases c2 : r + 10 > max
        · simp [c2] at h
        simp only [c2, if_false] at h
        have hm : offset % 65536 = offset := Nat.mod_eq_of_lt (by omega)
        have hu2 : u32 (r + 10 + (rd px (r + 8) * 256 + rd px (r + 9)))
            = r + 10 + (rd px (r + 8) * 256 + rd px (r + 9)) := u32_of_lt (by omega)
        rw [hu2] at h
        split_ifs at h with c3
        · simp at h
        · obtain ⟨g1, l, g2, g3, g4⟩ := ih _ _ _ _ _ _ h
            (by rw [k1, k2]; simp only [List.length_set]; omega)
          rw [k1, k2] at g3
          refine ⟨g1, offset :: l, by simp [g2], ?_, ?_⟩
          · rw [g3, take_set_succ _ _ _ hlt, hm]
            simp
          · exact Chain.cons offset r _ _ l o hsk
              (by simp only [fixed_bytes]; simp; omega)
              (by simp only [record_end]; simp; exact g4)

/-- When the sections, entered with an empty table and the format-error flag
set, clear the flag, the table holds the starts of the `qdcount` questions,
consecutive from `offset`, followed by the starts of the consecutive records
scanned after them. -/
theorem parse_sections_chain (px : Buffer) (fuel max : Nat) (hmax : max ≤ 65535)
    (dns : DNS_Incoming) (offset : Nat) (tr : Trace) (dns' : DNS_Incoming) (tr' : Trace)
    (h : parse_sections fuel px max dns offset tr = some (dns', tr'))
    (h0 : dns.rr_count = 0) (hfe : dns.is_formerr = true) (hff : dns'.is_formerr = false) :
    ∃ qs rs o1 o2, table dns' = qs ++ rs ∧ qs.length = dns.qdcount ∧
      Chain fuel px max true offset qs o1 ∧ Chain fuel px max false o1 rs o2 := by
  unfold parse_sections at h
  split_ifs at h with c0
  · simp only [Option.some.injEq, Prod.mk.injEq] at h
    obtain ⟨rfl, -⟩ := h
    rw [hfe] at hff
    cases hff
  cases hq : question_loop fuel px max dns.qdcount dns offset tr with
  | none => simp [hq] at h
  | some fl1 =>
    obtain ⟨ro1, rc1, qt1, qc1, f1⟩ := question_loop_frame px fuel max _ _ _ _ _ hq
    cases fl1 with
    | returned d1 t1 =>
      simp only [hq, Option.some.injEq, Prod.mk.injEq] at h
      obtain ⟨rfl, -⟩ := h
      simp only [flow_dns_returned] at f1
      rw [f1] at hff
      simp only at hff
      rw [hfe] at hff
      cases hff
    | continues d1 o1 t1 =>
      simp only [flow_dns_continues] at f1
      have fe1 : d1.is_formerr = true := by rw [f1]; exact hfe
      obtain ⟨a1, qs, a2, a3, a4⟩ := question_loop_chain px fuel max hmax _ _ _ _ _ _ _ hq
        (by omega)
      rw [h0] at a3
      simp only [List.take_zero, List.nil_append] at a3
      simp only [hq] at h
      cases ha : answer_loop fuel px max (d1.ancount + d1.nscount) d1 o1 t1 with
      | none => simp [ha] at h
      | some fl2 =>
        obtain ⟨ro2, rc2, f2⟩ := answer_loop_frame px fuel max _ _ _ _ _ ha
        cases fl2 with
        | returned d2 t2 =>
          simp only [ha, Option.some.injEq, Prod.mk.injEq] at h
          obtain ⟨rfl, -⟩ := h
          simp only [flow_dns_returned] at f2
          rw [f2] at hff
          simp only at hff
          rw [fe1] at hff
          cases hff
        | continues d2 o2 t2 =>
          simp only [flow_dns_continues] at f2
          have fe2 : d2.is_formerr = true := by rw [f2]; exact fe1
          obtain ⟨b1, l2, -, b3, b4⟩ := answer_loop_chain px fuel max hmax _ _ _ _ _ _ _ ha a1
          simp only [ha] at h
          cases hd : additional_loop fuel px max d2.arcount d2 o2 t2 with
          | none => simp [hd] at h
          | some fl3 =>
            obtain ⟨⟨ro3, rc3, rcd3, ed3, ie3, f3⟩, -⟩ :=
              additional_loop_frame px fuel max _ _ _ _ _ hd
            cases fl3 with
            | returned d3 t3 =>
              simp only [hd, Option.some.injEq, Prod.mk.injEq] at h
              obtain ⟨rfl, -⟩ := h
              simp only [flow_dns_returned] at f3
              rw [f3] at hff
              simp only at hff
              rw [fe2] at hff
              cases hff
            | continues d3 o3 t3 =>
              obtain ⟨e1, l3, -, e3, e4⟩ :=
                additional_loop_chain px fuel max hmax _ _ _ _ _ _ _ hd b1
              simp only [hd] at h
              obtain ⟨nm, f4⟩ := parse_finish_frame px fuel max _ _ _ _ h
              have g : table dns' = d3.rr_offset.take d3.rr_count := by
                unfold table
                rw [f4]
              refine ⟨qs, l2 ++ l3, o1, o3, ?_, a2, a4, chain_append _ _ _ _ _ _ _ _ _ b4 e4⟩
              rw [g, e3, b3, a3, List.append_assoc]

/-- C17 (amended): for every buffer with bound `max ≤ 65535` and at least 12
bytes from `offset`, whenever `proto_dns_parse` returns, the table keeps its
capacity, the record count `rr_count` exceeds neither the capacity nor
QDCOUNT+ANCOUNT+NSCOUNT+ARCOUNT, and if `is_formerr` is false the entries
`rr_offset[0 .. rr_count-1]` are in wire order: there are `rr_count` of them,
the first is `offset + 12`, they are strictly increasing, each one is below
`max`, and they are the positions where the records' names begin: the starts of
the QDCOUNT questions, the first at `offset + 12` and each next one where the
question before it ends, followed by the starts of the records scanned after
the questions, each where the record before it ends.  With fuel from 1282 on
the parser does return. -/
theorem table_wire_order (fuel : Nat) (dns : DNS_Incoming) (px : Buffer) (offset max : Nat)
    (hmax : max ≤ 65535) (ho : offset ≤ max) (hlen : 12 ≤ max - offset) :
    (∀ (dns' : DNS_Incoming) (tr tr' : Trace),
      proto_dns_parse fuel dns px offset max tr = some (dns', tr') →
      MAX_RRs dns' = MAX_RRs dns ∧ dns'.rr_count ≤ MAX_RRs dns' ∧
      dns'.rr_count ≤ dns'.qdcount + dns'.ancount + dns'.nscount + dns'.arcount ∧
      (dns'.is_formerr = false →
        (table dns').length = dns'.rr_count ∧ (table dns').head? = some (offset + 12) ∧
        (table dns').Pairwise (fun a b => a < b) ∧
        (∀ e ∈ table dns', e < max) ∧
        ∃ qs rs o1 o2, table dns' = qs ++ rs ∧ qs.length = dns'.qdcount ∧
          Chain fuel px max true (offset + 12) qs o1 ∧ Chain fuel px max false o1 rs o2)) ∧
    (1282 ≤ fuel → ∃ dns' tr', proto_dns_parse fuel dns px offset max [] = some (dns', tr')) := by
  constructor
  · intro dns' tr tr' h
    have hsub : u32sub max offset = max - offset := by unfold u32sub; omega
    have c : ¬ max - offset < 12 := by omega
    have h12 : u32 (offset + 12) = offset + 12 := u32_of_lt (by omega)
    unfold proto_dns_parse at h
    simp only [hsub, c, if_false, h12] at h
    obtain ⟨-, -, -, -, -, -, -, -, -, -, p11, p12, p13, p14⟩ :=
      parse_sections_header px fuel max _ _ _ _ _ h
    obtain ⟨t1, t2, t3, t4⟩ := parse_sections_table px fuel max hmax _ _ _ _ _ h rfl rfl
    simp only [parse_header] at t1 t2
    unfold MAX_RRs
    refine ⟨t1, by omega, by rw [p11, p12, p13, p14]; exact t3, fun hh => ?_⟩
    obtain ⟨hpos, k1, k2, k3, k4⟩ := t4 hh
    obtain ⟨qs, rs, o1, o2, c1, c2, c3, c4⟩ :=
      parse_sections_chain px fuel max hmax _ _ _ _ _ h rfl rfl hh
    refine ⟨?_, ?_, ?_, ?_, qs, rs, o1, o2, c1, by rw [c2, p11], c3, c4⟩
    · unfold table
      rw [List.length_take]
      omega
    · unfold table
      rcases k4 with k4 | ⟨k4, -⟩
      · exact k4
      · omega
    · exact k2
    · intro e he
      exact (k3 e he).2.1
  · intro hf
    obtain ⟨d, t, h, -⟩ := parse_safe fuel dns px offset max hf hmax ho
    exact ⟨d, t, h⟩

/-- Witness of C17: the minimal query. -/
theorem table_wire_order_witness :
    (∀ (dns' : DNS_Incoming) (tr tr' : Trace),
      proto_dns_parse 1282 (blank 64) (buf minimal_query) 0 29 tr = some (dns', tr') →
      MAX_RRs dns' = MAX_RRs (blank 64) ∧ dns'.rr_count ≤ MAX_RRs dns' ∧
      dns'.rr_count ≤ dns'.qdcount + dns'.ancount + dns'.nscount + dns'.arcount ∧
      (dns'.is_formerr = false →
        (table dns').length = dns'.rr_count ∧ (table dns').head? = some (0 + 12) ∧
        (table dns').Pairwise (fun a b => a < b) ∧
        (∀ e ∈ table dns', e < 29) ∧
        ∃ qs rs o1 o2, table dns' = qs ++ rs ∧ qs.length = dns'.qdcount ∧
          Chain 1282 (buf minimal_query) 29 true (0 + 12) qs o1 ∧
          Chain 1282 (buf minimal_query) 29 false o1 rs o2)) ∧
    ((1282 : Nat) ≤ 1282 → ∃ dns' tr',
      proto_dns_parse 1282 (blank 64) (buf minimal_query) 0 29 [] = some (dns', tr')) :=
  table_wire_order 1282 (blank 64) (buf minimal_query) 0 29 (by decide) (by decide) (by decide)

end RobDNS
